import Mathlib

/-!
# CBC with ciphertext stealing over AES (lib/crypto/builtin/enc_provider/aes.c)

A shallow embedding of `krb5int_aes_encrypt`, `krb5int_aes_decrypt` and
`aes_init_state`, followed by the properties proved about them.

Conventions of the embedding:
* an `unsigned char` is a `Fin 256`, a 16-byte buffer is a list of length 16;
* a function that may call `abort()` returns an `Option`, `none` standing for
  the abort; a function that returns a `krb5_error_code` returns it in `ret`;
* a pointer that may be `NULL` is an `Option`; the IV `ivec`, when present,
  points to the 16 bytes that `memcpy(tmp, ivec->data, BLOCK_SIZE)` reads;
* the result of `malloc` is an argument of the call: `none` is a failed
  allocation, `some c` a block whose indeterminate contents are `c`.
-/

namespace Krb5Aes

/-! ## Data model -/

/-- BLOCK_SIZE of aes.h, the cipher block length in bytes. -/
abbrev BLOCK_SIZE : Nat := 16

/-- ENOMEM of errno.h. -/
def ENOMEM : Nat := 12

/-- An unsigned char. -/
abbrev Byte := Fin 256

/-- A buffer `unsigned char[BLOCK_SIZE]`. -/
abbrev Block := { l : List Byte // l.length = BLOCK_SIZE }

/-- The buffer produced by `memset(tmp, 0, BLOCK_SIZE)`. -/
def zeroBlock : Block := ⟨List.replicate BLOCK_SIZE 0, by simp⟩

/-- Modelled from the spec: the `aes_ctx` of aes.h, which is not part of the
sources at hand. A schedule carries its round keys and the round count
`n_rnd`; a round count of zero marks a schedule that was never expanded. -/
structure aes_ctx where
  k_sch : List Nat
  n_rnd : Nat
  n_blk : Nat
deriving DecidableEq

/-- The `struct aes_key_info_cache`: one context per direction. -/
structure aes_key_info_cache where
  enc_ctx : aes_ctx
  dec_ctx : aes_ctx
deriving DecidableEq

/-- The part of a `krb5_key` the provider touches: the raw key bytes
(`keyblock.contents`, `keyblock.length` being the length of the list) and the
`cache` pointer. -/
structure krb5_key where
  keyblock : List Byte
  cache : Option aes_key_info_cache
deriving DecidableEq

/-- A `krb5_data`: a length and a pointer to bytes. -/
structure krb5_data where
  length : Nat
  data : Option (List Byte)
deriving DecidableEq

/-- Modelled from the spec: one region of the scatter/gather list, a byte
buffer with its sign-only flag (`krb5_crypto_iov` is declared outside the
sources at hand). -/
structure krb5_crypto_iov where
  sign_only : Bool
  data : List Byte
deriving DecidableEq

/-- The imported AES implementation of aes.h, taken as a parameter: the two
key expansions and the two single-block operations. Each returns `none` where
the C function returns something other than `aes_good`. -/
structure AesImpl where
  aes_enc_key : List Byte → aes_ctx → Option aes_ctx
  aes_dec_key : List Byte → aes_ctx → Option aes_ctx
  aes_enc_blk : Block → aes_ctx → Option Block
  aes_dec_blk : Block → aes_ctx → Option Block

/-! ## The scatter/gather cursor -/

/-- Modelled from the spec: the logical stream of a buffer list, the ordered
concatenation of its data regions, sign-only regions excluded. -/
def iov_stream : List krb5_crypto_iov → List Byte
  | [] => []
  | r :: rs => if r.sign_only then iov_stream rs else r.data ++ iov_stream rs

/-- Modelled from the spec: `iov_total_length(data, num_data, FALSE)`, the
byte count of the data regions. -/
def iov_total_length : List krb5_crypto_iov → Nat
  | [] => 0
  | r :: rs => if r.sign_only then iov_total_length rs else r.data.length + iov_total_length rs

/-- Modelled from the spec: the buffer list whose data regions hold the bytes
of `s` in order, region lengths and sign-only regions kept. -/
def iov_scatter : List krb5_crypto_iov → List Byte → List krb5_crypto_iov
  | [], _ => []
  | r :: rs, s =>
    if r.sign_only then r :: iov_scatter rs s
    else { r with data := s.take r.data.length } :: iov_scatter rs (s.drop r.data.length)

/-- Modelled from the spec: the `struct iov_cursor`, the buffer list with a
read offset and a write offset into its logical stream. -/
structure iov_cursor where
  iov : List krb5_crypto_iov
  in_pos : Nat
  out_pos : Nat
deriving DecidableEq

/-- Modelled from the spec: `k5_iov_cursor_init(&cursor, data, num_data,
BLOCK_SIZE, FALSE)`. -/
def k5_iov_cursor_init (data : List krb5_crypto_iov) : iov_cursor :=
  { iov := data, in_pos := 0, out_pos := 0 }

/-- The first 16 bytes of `l` followed by zero bytes up to 16. -/
def pad16 (l : List Byte) : Block :=
  ⟨(l ++ List.replicate BLOCK_SIZE 0).take BLOCK_SIZE, by simp⟩

/-- Modelled from the spec: `k5_iov_cursor_get`, which gathers the next
logical block, zero-padding it when the stream runs out before 16 bytes, and
advances the read offset. -/
def k5_iov_cursor_get (c : iov_cursor) : iov_cursor × Block :=
  ({ c with in_pos := c.in_pos + BLOCK_SIZE }, pad16 ((iov_stream c.iov).drop c.in_pos))

/-- The stream `s` with the bytes of `b` written at offset `pos`, cut at the
end of the stream. -/
def stream_write (s : List Byte) (pos : Nat) (b : Block) : List Byte :=
  s.take pos ++ b.val.take (s.length - pos) ++ s.drop (pos + BLOCK_SIZE)

/-- Modelled from the spec: `k5_iov_cursor_put`, which scatters a block back
at the write offset, truncating it to what remains of the stream, and
advances the write offset. -/
def k5_iov_cursor_put (c : iov_cursor) (b : Block) : iov_cursor :=
  { c with iov := iov_scatter c.iov (stream_write (iov_stream c.iov) c.out_pos b),
           out_pos := c.out_pos + BLOCK_SIZE }

/-! ## The helpers of aes.c -/

/-- The helper `enc`: one block through `aes_enc_blk`, `abort()` on failure. -/
def enc (P : AesImpl) (inp : Block) (ctx : aes_ctx) : Option Block :=
  P.aes_enc_blk inp ctx

/-- The helper `dec`: one block through `aes_dec_blk`, `abort()` on failure. -/
def dec (P : AesImpl) (inp : Block) (ctx : aes_ctx) : Option Block :=
  P.aes_dec_blk inp ctx

/-- Modelled from the spec: `load_32_n` of k5-platform.h, which is not part of
the sources at hand; the specification only says that blocks are XORed. The
32-bit word held in four bytes in host order, here least significant byte
first. -/
def load_32_n (p : List Byte) : Nat :=
  (p.getD 0 0).val + 256 * (p.getD 1 0).val + 65536 * (p.getD 2 0).val
    + 16777216 * (p.getD 3 0).val

/-- Modelled from the spec: `store_32_n` of k5-platform.h, which is not part
of the sources at hand: the four bytes of a 32-bit word in host order, least
significant byte first. -/
def store_32_n (val : Nat) : List Byte :=
  [(Fin.ofNat val : Fin 256), (Fin.ofNat (val / 256) : Fin 256),
   (Fin.ofNat (val / 65536) : Fin 256), (Fin.ofNat (val / 16777216) : Fin 256)]

/-- One turn of the loop of `xorblock`: word `z` of `out` becomes its XOR
with word `z` of `inp`. -/
def xorblock_step (inp : List Byte) (out : List Byte) (z : Nat) : List Byte :=
  out.take (z * 4)
    ++ store_32_n (load_32_n (out.drop (z * 4)) ^^^ load_32_n (inp.drop (z * 4)))
    ++ out.drop (z * 4 + 4)

/-- The helper `xorblock(out, in)`: `out ^= in`, one 32-bit word at a time for
`z = 0 .. BLOCK_SIZE/4 - 1`. -/
def xorblock (out inp : Block) : Block :=
  ⟨(List.range (BLOCK_SIZE / 4)).foldl (xorblock_step inp.val) out.val, by
    have h := out.property
    simp only [BLOCK_SIZE] at h
    simp [List.range, List.range.loop, xorblock_step, store_32_n, h]⟩

/-! ## Results of a call -/

/-- What a call of `krb5int_aes_encrypt` or `krb5int_aes_decrypt` leaves
behind when it returns: the returned code, the key with its cache, the bytes
of the caller's IV buffer (when there is one) and the buffer list. -/
structure aes_result where
  ret : Nat
  key : krb5_key
  ivec : Option Block
  data : List krb5_crypto_iov
deriving DecidableEq

/-- The cache a call works on (aes.c lines 91-96 and 171-176): the key's own
cache when it has one, otherwise a fresh allocation with both round counts
set to zero; `none` when that allocation fails. -/
def aes_cache_get (malloc : Option aes_key_info_cache) (key : krb5_key) :
    Option aes_key_info_cache :=
  match key.cache with
  | some c => some c
  | none =>
    match malloc with
    | none => none
    | some c =>
      some { enc_ctx := { c.enc_ctx with n_rnd := 0 }, dec_ctx := { c.dec_ctx with n_rnd := 0 } }

/-! ## krb5int_aes_encrypt -/

/-- The `for` loop of `krb5int_aes_encrypt` (aes.c lines 120-130), run for
`k` more turns from chaining value `tmp` and cursor `cursor`. -/
def encrypt_loop (P : AesImpl) (ctx : aes_ctx) :
    Nat → Block → iov_cursor → Option (Block × iov_cursor)
  | 0, tmp, cursor => some (tmp, cursor)
  | k + 1, tmp, cursor =>
    let (cursor, block) := k5_iov_cursor_get cursor
    let tmp := xorblock tmp block
    match enc P tmp ctx with
    | none => none
    | some block =>
      let cursor := k5_iov_cursor_put cursor block
      encrypt_loop P ctx k block cursor

/-- The body of `krb5int_aes_encrypt` from line 103 on, with the encryption
schedule `ctx` in place: the new IV bytes and the new buffer list, or `none`
for `abort()`. The `size_t` sum `input_length + BLOCK_SIZE - 1` is computed in
`Nat`: it cannot wrap for a stream that is held in memory. -/
def encrypt_body (P : AesImpl) (ctx : aes_ctx) (ivec : Option Block)
    (data : List krb5_crypto_iov) : Option (Option Block × List krb5_crypto_iov) :=
  let tmp : Block := match ivec with
    | some iv => iv
    | none => zeroBlock
  let cursor := k5_iov_cursor_init data
  let input_length := iov_total_length data
  let nblocks := (input_length + BLOCK_SIZE - 1) / BLOCK_SIZE
  if nblocks = 1 then
    let (cursor, tmp) := k5_iov_cursor_get cursor
    match enc P tmp ctx with
    | none => none
    | some tmp2 =>
      let cursor := k5_iov_cursor_put cursor tmp2
      some (ivec, cursor.iov)
  else if nblocks > 1 then
    match encrypt_loop P ctx (nblocks - 2) tmp cursor with
    | none => none
    | some (tmp, cursor) =>
      let (cursor, blockN2) := k5_iov_cursor_get cursor
      let (cursor, blockN1) := k5_iov_cursor_get cursor
      let tmp := xorblock tmp blockN2
      match enc P tmp ctx with
      | none => none
      | some tmp2 =>
        let blockN2 := tmp2
        let tmp := tmp2
        let tmp := xorblock tmp blockN1
        match enc P tmp ctx with
        | none => none
        | some tmp2 =>
          let blockN1 := tmp2
          let cursor := k5_iov_cursor_put cursor blockN1
          let cursor := k5_iov_cursor_put cursor blockN2
          some (ivec.map (fun _ => blockN1), cursor.iov)
  else some (ivec, data)

/-- The function `krb5int_aes_encrypt(key, ivec, data, num_data)`. -/
def krb5int_aes_encrypt (P : AesImpl) (malloc : Option aes_key_info_cache)
    (key : krb5_key) (ivec : Option Block) (data : List krb5_crypto_iov) :
    Option aes_result :=
  match aes_cache_get malloc key with
  | none => some { ret := ENOMEM, key := key, ivec := ivec, data := data }
  | some cache =>
    match (if cache.enc_ctx.n_rnd = 0 then P.aes_enc_key key.keyblock cache.enc_ctx
           else some cache.enc_ctx) with
    | none => none
    | some ctx =>
      match encrypt_body P ctx ivec data with
      | none => none
      | some (ivec, data) =>
        some { ret := 0, key := { key with cache := some { cache with enc_ctx := ctx } },
               ivec := ivec, data := data }

/-! ## krb5int_aes_decrypt -/

/-- The `for` loop of `krb5int_aes_decrypt` (aes.c lines 200-209), run for
`k` more turns from chaining value `tmp` and cursor `cursor`. -/
def decrypt_loop (P : AesImpl) (ctx : aes_ctx) :
    Nat → Block → iov_cursor → Option (Block × iov_cursor)
  | 0, tmp, cursor => some (tmp, cursor)
  | k + 1, tmp, cursor =>
    let (cursor, block) := k5_iov_cursor_get cursor
    let tmp2 := block
    match dec P block ctx with
    | none => none
    | some block =>
      let block := xorblock block tmp
      let tmp := tmp2
      let cursor := k5_iov_cursor_put cursor block
      decrypt_loop P ctx k tmp cursor

/-- The buffer `dst` after `memcpy(dst, src, n)` for `n` at most 16. -/
def memcpy_block (dst src : Block) (n : Nat) : Block :=
  ⟨src.val.take n ++ dst.val.drop n, by
    have h1 := dst.property
    have h2 := src.property
    simp only [List.length_append, List.length_take, List.length_drop, h1, h2]
    omega⟩

/-- The body of `krb5int_aes_decrypt` from line 183 on, with the decryption
schedule `ctx` in place: the new IV bytes and the new buffer list, or `none`
for `abort()`. The `size_t` sum `input_length + BLOCK_SIZE - 1` is computed in
`Nat`: it cannot wrap for a stream that is held in memory. -/
def decrypt_body (P : AesImpl) (ctx : aes_ctx) (ivec : Option Block)
    (data : List krb5_crypto_iov) : Option (Option Block × List krb5_crypto_iov) :=
  let tmp : Block := match ivec with
    | some iv => iv
    | none => zeroBlock
  let cursor := k5_iov_cursor_init data
  let input_length := iov_total_length data
  let nblocks := (input_length + BLOCK_SIZE - 1) / BLOCK_SIZE
  if nblocks = 1 then
    let (cursor, tmp) := k5_iov_cursor_get cursor
    match dec P tmp ctx with
    | none => none
    | some tmp2 =>
      let cursor := k5_iov_cursor_put cursor tmp2
      some (ivec, cursor.iov)
  else if nblocks > 1 then
    match decrypt_loop P ctx (nblocks - 2) tmp cursor with
    | none => none
    | some (tmp, cursor) =>
      let (cursor, blockN2) := k5_iov_cursor_get cursor
      let (cursor, blockN1) := k5_iov_cursor_get cursor
      let ivec := ivec.map (fun _ => blockN2)
      match dec P blockN2 ctx with
      | none => none
      | some tmp2 =>
        let tmp2 := xorblock tmp2 blockN1
        let blockN2 := tmp2
        let input_length := input_length % BLOCK_SIZE
        let tmp2 := memcpy_block tmp2 blockN1 (if input_length ≠ 0 then input_length else BLOCK_SIZE)
        match dec P tmp2 ctx with
        | none => none
        | some tmp3 =>
          let tmp3 := xorblock tmp3 tmp
          let blockN1 := tmp3
          let cursor := k5_iov_cursor_put cursor blockN1
          let cursor := k5_iov_cursor_put cursor blockN2
          some (ivec, cursor.iov)
  else some (ivec, data)

/-- The function `krb5int_aes_decrypt(key, ivec, data, num_data)`. -/
def krb5int_aes_decrypt (P : AesImpl) (malloc : Option aes_key_info_cache)
    (key : krb5_key) (ivec : Option Block) (data : List krb5_crypto_iov) :
    Option aes_result :=
  match aes_cache_get malloc key with
  | none => some { ret := ENOMEM, key := key, ivec := ivec, data := data }
  | some cache =>
    match (if cache.dec_ctx.n_rnd = 0 then P.aes_dec_key key.keyblock cache.dec_ctx
           else some cache.dec_ctx) with
    | none => none
    | some ctx =>
      match decrypt_body P ctx ivec data with
      | none => none
      | some (ivec, data) =>
        some { ret := 0, key := { key with cache := some { cache with dec_ctx := ctx } },
               ivec := ivec, data := data }

/-! ## aes_init_state -/

/-- The function `aes_init_state(key, usage, state)`: the returned code and
the state object it leaves. `malloc` is the result of `malloc(16)`: `none` for
a failed allocation, otherwise the indeterminate bytes of the new block. -/
def aes_init_state (malloc : Option (List Byte)) (_key : List Byte) (_usage : Int)
    (state : krb5_data) : Nat × krb5_data :=
  let state := { state with length := 16 }
  let state := { state with data := malloc }
  match state.data with
  | none => (ENOMEM, state)
  | some _ => (0, { state with data := some (List.replicate state.length 0) })

/-! ## A block primitive to run the code on -/

/-- The block function both operations of `toyImpl` compute: the 16 bytes in
reverse order. -/
def toyE (b : Block) : Block := ⟨b.val.reverse, by simp [b.property]⟩

/-- A toy block primitive: a schedule is its round count, expansion accepts
16-byte and 32-byte keys, and both block operations reverse the order of the
16 bytes of the block; they fail on a schedule never expanded. -/
def toyImpl : AesImpl where
  aes_enc_key := fun k cx =>
    if k.length = 16 ∨ k.length = 32 then some { cx with n_rnd := 10, n_blk := 1 } else none
  aes_dec_key := fun k cx =>
    if k.length = 16 ∨ k.length = 32 then some { cx with n_rnd := 10, n_blk := 2 } else none
  aes_enc_blk := fun b cx =>
    if cx.n_rnd = 0 then none else some (toyE b)
  aes_dec_blk := fun b cx =>
    if cx.n_rnd = 0 then none else some (toyE b)

/-- A key of 16 zero bytes that has no cache yet. -/
def toyKey : krb5_key := { keyblock := List.replicate 16 0, cache := none }

/-- A successful allocation of the cache, its contents indeterminate. -/
def toyMalloc : Option aes_key_info_cache :=
  some { enc_ctx := { k_sch := [], n_rnd := 7, n_blk := 0 },
         dec_ctx := { k_sch := [], n_rnd := 9, n_blk := 0 } }

/-! ## Closed forms

The byte strings the loops and the final steps compute, as functions of a
block encryption `E` or a block decryption `D`, the chaining value and the
stream. They are compared with the code in the lemmas below. -/

/-- CBC encryption of the first `k` blocks of `s` from chaining value `c`:
each block is `E (previous ciphertext block XOR plaintext block)`. -/
def cbc_enc (E : Block → Block) : Nat → Block → List Byte → List Byte
  | 0, _, _ => []
  | k + 1, c, s =>
    (E (xorblock c (pad16 s))).val
      ++ cbc_enc E k (E (xorblock c (pad16 s))) (s.drop BLOCK_SIZE)

/-- The chaining value after CBC encryption of the first `k` blocks of `s`. -/
def cbc_enc_iv (E : Block → Block) : Nat → Block → List Byte → Block
  | 0, c, _ => c
  | k + 1, c, s => cbc_enc_iv E k (E (xorblock c (pad16 s))) (s.drop BLOCK_SIZE)

/-- CBC decryption of the first `k` blocks of `s` from chaining value `c`:
each block is `D (ciphertext block) XOR previous ciphertext block`. -/
def cbc_dec (D : Block → Block) : Nat → Block → List Byte → List Byte
  | 0, _, _ => []
  | k + 1, c, s =>
    (xorblock (D (pad16 s)) c).val ++ cbc_dec D k (pad16 s) (s.drop BLOCK_SIZE)

/-- The chaining value after CBC decryption of the first `k` blocks of `s`:
the last ciphertext block read. -/
def cbc_dec_iv : Nat → Block → List Byte → Block
  | 0, c, _ => c
  | k + 1, _, s => cbc_dec_iv k (pad16 s) (s.drop BLOCK_SIZE)

/-- The stream `krb5int_aes_encrypt` leaves for stream `s` and starting
chaining value `iv`. -/
def cts_encrypt (E : Block → Block) (iv : Block) (s : List Byte) : List Byte :=
  let n := (s.length + BLOCK_SIZE - 1) / BLOCK_SIZE
  if n = 1 then (E (pad16 s)).val.take s.length
  else if n > 1 then
    let c := cbc_enc_iv E (n - 2) iv s
    let A := E (xorblock c (pad16 (s.drop (16 * (n - 2)))))
    let B := E (xorblock A (pad16 (s.drop (16 * (n - 2) + 16))))
    cbc_enc E (n - 2) iv s ++ B.val ++ A.val.take (s.length - (16 * (n - 2) + 16))
  else s

/-- The IV bytes `krb5int_aes_encrypt` leaves in a caller's IV buffer that
held `iv`, for stream `s`. -/
def cts_encrypt_iv (E : Block → Block) (iv : Block) (s : List Byte) : Block :=
  let n := (s.length + BLOCK_SIZE - 1) / BLOCK_SIZE
  if n > 1 then
    let c := cbc_enc_iv E (n - 2) iv s
    let A := E (xorblock c (pad16 (s.drop (16 * (n - 2)))))
    E (xorblock A (pad16 (s.drop (16 * (n - 2) + 16))))
  else iv

/-- The stream `krb5int_aes_decrypt` leaves for stream `s` and starting
chaining value `iv`. -/
def cts_decrypt (D : Block → Block) (iv : Block) (s : List Byte) : List Byte :=
  let n := (s.length + BLOCK_SIZE - 1) / BLOCK_SIZE
  if n = 1 then (D (pad16 s)).val.take s.length
  else if n > 1 then
    let c := cbc_dec_iv (n - 2) iv s
    let Bin := pad16 (s.drop (16 * (n - 2)))
    let Ain := pad16 (s.drop (16 * (n - 2) + 16))
    let r := if s.length % BLOCK_SIZE ≠ 0 then s.length % BLOCK_SIZE else BLOCK_SIZE
    let Pn := xorblock (D Bin) Ain
    let Afull := memcpy_block Pn Ain r
    cbc_dec D (n - 2) iv s ++ (xorblock (D Afull) c).val
      ++ Pn.val.take (s.length - (16 * (n - 2) + 16))
  else s

/-- The IV bytes `krb5int_aes_decrypt` leaves in a caller's IV buffer that
held `iv`, for stream `s`. -/
def cts_decrypt_iv (iv : Block) (s : List Byte) : Block :=
  let n := (s.length + BLOCK_SIZE - 1) / BLOCK_SIZE
  if n > 1 then pad16 (s.drop (16 * (n - 2))) else iv

/-! ## The specification's words

Definitions that follow the specification (sections 4.2 and 4.3), against
which the output of the code is compared. Blocks are counted from 1. -/

/-- The bytes of stream `s` at block position `i`: the 16 bytes from offset
`16 * (i - 1)`, fewer when the stream ends before. -/
def stream_block (s : List Byte) (i : Nat) : List Byte :=
  (s.drop (16 * (i - 1))).take 16

/-- The block `pad16(P_i)` of the specification: block `i` of the stream,
zero-padded to 16 bytes when short. -/
def spec_block (s : List Byte) (i : Nat) : Block :=
  pad16 (s.drop (16 * (i - 1)))

/-- The chain of the specification for encryption: `C_0` is the starting IV
and `C_i = Encrypt(C_{i-1} XOR P_i)`. -/
def spec_C (E : Block → Block) (c0 : Block) (s : List Byte) : Nat → Block
  | 0 => c0
  | i + 1 => E (xorblock (spec_C E c0 s i) (spec_block s (i + 1)))

/-- The chaining values of the specification for decryption: `C_0` is the
starting IV and `C_i` is block `i` of the input. -/
def spec_Cin (c0 : Block) (s : List Byte) (i : Nat) : Block :=
  if i = 0 then c0 else spec_block s i

/-- The contract assumed of the block primitive `P` for `key` in the
encryption direction: the expansion `aes_enc_key` succeeds on the key's bytes,
and every encryption schedule a call can use for the key, freshly expanded or
already in the key's cache with a nonzero round count, makes `aes_enc_blk`
compute `E` without failing. -/
structure EncKeyed (P : AesImpl) (key : krb5_key) (E : Block → Block) : Prop where
  enc_key : ∀ cx, ∃ cx', P.aes_enc_key key.keyblock cx = some cx'
    ∧ ∀ x, P.aes_enc_blk x cx' = some (E x)
  enc_cached : ∀ c, key.cache = some c → c.enc_ctx.n_rnd ≠ 0 →
    ∀ x, P.aes_enc_blk x c.enc_ctx = some (E x)

/-- The contract assumed of the block primitive `P` for `key` in the
decryption direction: the expansion `aes_dec_key` succeeds on the key's bytes,
and every decryption schedule a call can use for the key, freshly expanded or
already in the key's cache with a nonzero round count, makes `aes_dec_blk`
compute `D` without failing. -/
structure DecKeyed (P : AesImpl) (key : krb5_key) (D : Block → Block) : Prop where
  dec_key : ∀ cx, ∃ cx', P.aes_dec_key key.keyblock cx = some cx'
    ∧ ∀ x, P.aes_dec_blk x cx' = some (D x)
  dec_cached : ∀ c, key.cache = some c → c.dec_ctx.n_rnd ≠ 0 →
    ∀ x, P.aes_dec_blk x c.dec_ctx = some (D x)

/-- The contract assumed of the block primitive `P` for `key` in both
directions: block encryption is `E` and block decryption is `D`. -/
structure Keyed (P : AesImpl) (key : krb5_key) (E D : Block → Block) : Prop where
  enc : EncKeyed P key E
  dec : DecKeyed P key D

/-- The allocation of the key's cache does not fail: the key has a cache
already, or `malloc` returns a block. -/
def AllocOK (malloc : Option aes_key_info_cache) (key : krb5_key) : Prop :=
  key.cache ≠ none ∨ malloc ≠ none

/-- The bytes of the starting chaining value: the caller's IV, or zero bytes
when there is none. -/
def iv_of (ivec : Option Block) : Block :=
  match ivec with
  | some iv => iv
  | none => zeroBlock

/-! ## Sequences of calls on one key -/

/-- One call on a key: the function called, the outcome of its `malloc`, the
IV and the buffer list it is given. -/
inductive aes_call where
  | encrypt (malloc : Option aes_key_info_cache) (ivec : Option Block)
      (data : List krb5_crypto_iov)
  | decrypt (malloc : Option aes_key_info_cache) (ivec : Option Block)
      (data : List krb5_crypto_iov)
deriving DecidableEq

/-- The call `c` made on `key`. -/
def run_call (P : AesImpl) (key : krb5_key) : aes_call → Option aes_result
  | .encrypt malloc ivec data => krb5int_aes_encrypt P malloc key ivec data
  | .decrypt malloc ivec data => krb5int_aes_decrypt P malloc key ivec data

/-- Whether the call is a `krb5int_aes_encrypt`. -/
def is_encrypt : aes_call → Bool
  | .encrypt _ _ _ => true
  | .decrypt _ _ _ => false

/-- Whether the call, made on `key`, reaches the call of `aes_enc_key` at
aes.c line 98: it is a `krb5int_aes_encrypt`, it has a cache to work on, and
the round count of the encryption schedule is zero. -/
def calls_aes_enc_key (key : krb5_key) : aes_call → Bool
  | .encrypt malloc _ _ =>
    match aes_cache_get malloc key with
    | none => false
    | some cache => decide (cache.enc_ctx.n_rnd = 0)
  | .decrypt _ _ _ => false

/-- Whether the call, made on `key`, reaches the call of `aes_dec_key` at
aes.c line 178: it is a `krb5int_aes_decrypt`, it has a cache to work on, and
the round count of the decryption schedule is zero. -/
def calls_aes_dec_key (key : krb5_key) : aes_call → Bool
  | .encrypt _ _ _ => false
  | .decrypt malloc _ _ =>
    match aes_cache_get malloc key with
    | none => false
    | some cache => decide (cache.dec_ctx.n_rnd = 0)

/-- A key together with the number of times each expansion function has been
called on it so far. -/
structure key_trace where
  key : krb5_key
  enc_key_calls : Nat
  dec_key_calls : Nat
deriving DecidableEq

/-- The calls of the list made one after the other on the key of the trace,
each expansion counted; `none` when one of the calls aborts. -/
def run_calls (P : AesImpl) : List aes_call → key_trace → Option key_trace
  | [], t => some t
  | c :: cs, t =>
    match run_call P t.key c with
    | none => none
    | some r =>
      run_calls P cs
        { key := r.key,
          enc_key_calls := t.enc_key_calls + (if calls_aes_enc_key t.key c then 1 else 0),
          dec_key_calls := t.dec_key_calls + (if calls_aes_dec_key t.key c then 1 else 0) }

/-! ## The provider descriptors -/

/-- The functions the provider tables of aes.c point to, by name; `NULL` is
the null pointer. -/
inductive provider_fn where
  | NULL
  | krb5int_aes_encrypt
  | krb5int_aes_decrypt
  | aes_init_state
  | krb5int_default_free_state
  | aes_key_cleanup
deriving DecidableEq

/-- Modelled from the spec: the `struct krb5_enc_provider`, declared outside
the sources at hand. Its members in the order of the initialisers of aes.c:
the block size, the two key lengths (minimum and maximum in the
specification's table), encrypt, decrypt, a member that is `NULL` in both
tables, state-init, state-free and key-cleanup. -/
structure krb5_enc_provider where
  block_size : Nat
  min_key_length : Nat
  max_key_length : Nat
  encrypt : provider_fn
  decrypt : provider_fn
  cbc_mac : provider_fn
  init_state : provider_fn
  free_state : provider_fn
  key_cleanup : provider_fn
deriving DecidableEq

/-- The table `krb5int_enc_aes128`. -/
def krb5int_enc_aes128 : krb5_enc_provider :=
  { block_size := 16,
    min_key_length := 16, max_key_length := 16,
    encrypt := .krb5int_aes_encrypt,
    decrypt := .krb5int_aes_decrypt,
    cbc_mac := .NULL,
    init_state := .aes_init_state,
    free_state := .krb5int_default_free_state,
    key_cleanup := .aes_key_cleanup }

/-- The table `krb5int_enc_aes256`. -/
def krb5int_enc_aes256 : krb5_enc_provider :=
  { block_size := 16,
    min_key_length := 32, max_key_length := 32,
    encrypt := .krb5int_aes_encrypt,
    decrypt := .krb5int_aes_decrypt,
    cbc_mac := .NULL,
    init_state := .aes_init_state,
    free_state := .krb5int_default_free_state,
    key_cleanup := .aes_key_cleanup }

/-! ## The greet plugin (plugins/authdata/greet_client/greet.c) -/

/-- ENOENT of errno.h. -/
def ENOENT : Nat := 2

/-- The `struct greet_context`. -/
structure greet_context where
  greeting : krb5_data
  verified : Bool
deriving DecidableEq

/-- The library functions greet.c calls that are not part of the sources at
hand, taken as parameters. `krb5int_copy_data_contents_add0 ok indata outdata`
is the returned code and what `outdata` holds after the call, `ok` telling
whether its allocation succeeds; `krb5_free_data_contents val` is what `val`
holds after the call; `data_eq` is the comparison of k5-int.h. -/
structure k5_lib where
  krb5int_copy_data_contents_add0 : Bool → krb5_data → krb5_data → Nat × krb5_data
  krb5_free_data_contents : krb5_data → krb5_data
  data_eq : krb5_data → krb5_data → Bool

/-- The static `greet_attr`: the 14 bytes of "greet:greeting". -/
def greet_attr : krb5_data :=
  { length := 14,
    data := some [103, 114, 101, 101, 116, 58, 103, 114, 101, 101, 116, 105, 110, 103] }

/-- The function `greet_request_init`: the returned code and what
`*request_context` holds. `malloc` is the result of `malloc(sizeof(*greet))`,
`none` for a failed allocation, otherwise the indeterminate contents of the
new structure; only the two members of `greeting` are assigned. -/
def greet_request_init (malloc : Option greet_context)
    (request_context : Option greet_context) : Nat × Option greet_context :=
  match malloc with
  | none => (ENOMEM, request_context)
  | some greet =>
    let greet := { greet with greeting := { greet.greeting with data := none } }
    let greet := { greet with greeting := { greet.greeting with length := 0 } }
    (0, some greet)

/-- The function `greet_import_attributes`, `authdata0` being the length and
contents of `authdata[0]`. -/
def greet_import_attributes (H : k5_lib) (ok : Bool) (greet : greet_context)
    (authdata0 : krb5_data) : Nat × greet_context :=
  let greet := { greet with greeting := H.krb5_free_data_contents greet.greeting }
  let greet := { greet with verified := false }
  let data : krb5_data := { length := authdata0.length, data := authdata0.data }
  let (code, greeting) := H.krb5int_copy_data_contents_add0 ok data greet.greeting
  (code, { greet with greeting := greeting })

/-- What `greet_get_attribute` returns and leaves in its output arguments. -/
structure get_attribute_result where
  ret : Nat
  authenticated : Bool
  complete : Bool
  value : krb5_data
  more : Int
deriving DecidableEq

/-- The function `greet_get_attribute`; `attr` is the argument `attribute`,
and `authenticated`, `complete`, `value` and `more` are what the output
arguments hold before the call. -/
def greet_get_attribute (H : k5_lib) (ok : Bool) (greet : greet_context)
    (attr : krb5_data) (authenticated complete : Bool) (value : krb5_data)
    (more : Int) : get_attribute_result :=
  if !H.data_eq attr greet_attr || greet.greeting.length == 0 then
    { ret := ENOENT, authenticated := authenticated, complete := complete, value := value,
      more := more }
  else
    let authenticated := greet.verified
    let complete := true
    let more := 0
    let (code, value) := H.krb5int_copy_data_contents_add0 ok greet.greeting value
    { ret := code, authenticated := authenticated, complete := complete, value := value,
      more := more }

/-- The function `greet_set_attribute`; `data0` is what the local `data`
holds before it is assigned. -/
def greet_set_attribute (H : k5_lib) (ok : Bool) (greet : greet_context) (_complete : Bool)
    (_attr value data0 : krb5_data) : Nat × greet_context :=
  let (code, data) := H.krb5int_copy_data_contents_add0 ok value data0
  if code ≠ 0 then (code, greet)
  else
    let greet := { greet with greeting := H.krb5_free_data_contents greet.greeting }
    let greet := { greet with greeting := data }
    let greet := { greet with verified := false }
    (0, greet)

/-- The function `greet_delete_attribute`. -/
def greet_delete_attribute (H : k5_lib) (greet : greet_context) (_attr : krb5_data) :
    Nat × greet_context :=
  let greet := { greet with greeting := H.krb5_free_data_contents greet.greeting }
  let greet := { greet with verified := false }
  (0, greet)

/-- The function `greet_copy_context`: the returned code and what the
destination context holds after the call. -/
def greet_copy_context (H : k5_lib) (ok : Bool) (src dst : greet_context) :
    Nat × greet_context :=
  let (code, greeting) := H.krb5int_copy_data_contents_add0 ok src.greeting dst.greeting
  (code, { dst with greeting := greeting })

/-- The function `greet_verify`. -/
def greet_verify (greet : greet_context) (kdc_issued_flag : Bool) : Nat × greet_context :=
  (0, { greet with verified := kdc_issued_flag })

/-- One plugin call on a request context, with the arguments that matter. -/
inductive greet_call where
  | import_attributes (ok : Bool) (authdata0 : krb5_data)
  | set_attribute (ok : Bool) (value data0 : krb5_data)
  | delete_attribute
  | verify (kdc_issued_flag : Bool)
  | copy_from (ok : Bool) (src : greet_context)
  | copy_to (ok : Bool) (dst : greet_context)
deriving DecidableEq

/-- The request context after one plugin call; `copy_from` is
`greet_copy_context` with the context as destination, `copy_to` with the
context as source, which the function does not write. -/
def greet_step (H : k5_lib) (greet : greet_context) : greet_call → greet_context
  | .import_attributes ok authdata0 => (greet_import_attributes H ok greet authdata0).2
  | .set_attribute ok value data0 =>
    (greet_set_attribute H ok greet true greet_attr value data0).2
  | .delete_attribute => (greet_delete_attribute H greet greet_attr).2
  | .verify kdc_issued_flag => (greet_verify greet kdc_issued_flag).2
  | .copy_from ok src => (greet_copy_context H ok src greet).2
  | .copy_to _ _ => greet

/-- A request context together with the condition of the claim about it:
`vouched` holds when `greet_verify` was called on the context with
`kdc_issued_flag` TRUE and the greeting has not been changed since. -/
structure greet_state where
  greet : greet_context
  vouched : Bool
deriving DecidableEq

/-- The state after one plugin call: a call of `greet_verify` with TRUE sets
`vouched`, a call that leaves another greeting than it found clears it. -/
def greet_state_step (H : k5_lib) (st : greet_state) (c : greet_call) : greet_state :=
  let greet := greet_step H st.greet c
  { greet := greet,
    vouched :=
      match c with
      | .verify kdc_issued_flag => st.vouched || kdc_issued_flag
      | _ => if greet.greeting = st.greet.greeting then st.vouched else false }

/-- The plugin calls of the list made one after the other. -/
def greet_run (H : k5_lib) (calls : List greet_call) (st : greet_state) : greet_state :=
  calls.foldl (greet_state_step H) st

/-- An instance of the library functions to run the plugin on: the copy
gives `outdata` the length of `indata` and its bytes followed by a zero byte
(a null pointer and `ENOMEM` when its allocation fails), the free leaves a
null pointer, and two data are equal when their lengths and their first
`length` bytes are. -/
def toyLib : k5_lib where
  krb5int_copy_data_contents_add0 := fun ok indata _ =>
    if ok then
      (0, { length := indata.length,
            data := some (((indata.data.getD []).take indata.length) ++ [0]) })
    else (ENOMEM, { length := indata.length, data := none })
  krb5_free_data_contents := fun val => { val with data := none }
  data_eq := fun a b =>
    a.length == b.length
      && (a.data.getD []).take a.length == (b.data.getD []).take a.length

/-! ## Lemmas: XOR of blocks, the cursor, the loops -/

theorem byte_of_xor (x y k : Nat) :
    ((x ^^^ y) / 2 ^ k) % 2 ^ 8 = ((x / 2 ^ k) % 2 ^ 8) ^^^ ((y / 2 ^ k) % 2 ^ 8) := by
  apply Nat.eq_of_testBit_eq
  intro i
  simp only [← Nat.shiftRight_eq_div_pow, Nat.testBit_mod_two_pow, Nat.testBit_xor,
    Nat.testBit_shiftRight]
  by_cases h : i < 8 <;> simp [h]

theorem fin_xor_val (a b : Byte) : (a ^^^ b).val = a.val ^^^ b.val := by
  have h : a.val ^^^ b.val < 2 ^ 8 := Nat.xor_lt_two_pow a.isLt b.isLt
  show (a.val ^^^ b.val) % 256 = _
  omega

theorem store_load_xor (a0 a1 a2 a3 b0 b1 b2 b3 : Byte) :
    store_32_n ((a0.val + 256 * a1.val + 65536 * a2.val + 16777216 * a3.val)
      ^^^ (b0.val + 256 * b1.val + 65536 * b2.val + 16777216 * b3.val))
      = [a0 ^^^ b0, a1 ^^^ b1, a2 ^^^ b2, a3 ^^^ b3] := by
  have h0 := byte_of_xor (a0.val + 256 * a1.val + 65536 * a2.val + 16777216 * a3.val)
    (b0.val + 256 * b1.val + 65536 * b2.val + 16777216 * b3.val) 0
  have h1 := byte_of_xor (a0.val + 256 * a1.val + 65536 * a2.val + 16777216 * a3.val)
    (b0.val + 256 * b1.val + 65536 * b2.val + 16777216 * b3.val) 8
  have h2 := byte_of_xor (a0.val + 256 * a1.val + 65536 * a2.val + 16777216 * a3.val)
    (b0.val + 256 * b1.val + 65536 * b2.val + 16777216 * b3.val) 16
  have h3 := byte_of_xor (a0.val + 256 * a1.val + 65536 * a2.val + 16777216 * a3.val)
    (b0.val + 256 * b1.val + 65536 * b2.val + 16777216 * b3.val) 24
  have ha0 := a0.isLt
  have ha1 := a1.isLt
  have ha2 := a2.isLt
  have ha3 := a3.isLt
  have hb0 := b0.isLt
  have hb1 := b1.isLt
  have hb2 := b2.isLt
  have hb3 := b3.isLt
  norm_num at h0 h1 h2 h3
  have e0 : (a0.val + 256 * a1.val + 65536 * a2.val + 16777216 * a3.val) % 256 = a0.val := by
    omega
  have e1 : (a0.val + 256 * a1.val + 65536 * a2.val + 16777216 * a3.val) / 256 % 256
      = a1.val := by omega
  have e2 : (a0.val + 256 * a1.val + 65536 * a2.val + 16777216 * a3.val) / 65536 % 256
      = a2.val := by omega
  have e3 : (a0.val + 256 * a1.val + 65536 * a2.val + 16777216 * a3.val) / 16777216 % 256
      = a3.val := by omega
  have f0 : (b0.val + 256 * b1.val + 65536 * b2.val + 16777216 * b3.val) % 256 = b0.val := by
    omega
  have f1 : (b0.val + 256 * b1.val + 65536 * b2.val + 16777216 * b3.val) / 256 % 256
      = b1.val := by omega
  have f2 : (b0.val + 256 * b1.val + 65536 * b2.val + 16777216 * b3.val) / 65536 % 256
      = b2.val := by omega
  have f3 : (b0.val + 256 * b1.val + 65536 * b2.val + 16777216 * b3.val) / 16777216 % 256
      = b3.val := by omega
  rw [e0, f0] at h0
  rw [e1, f1] at h1
  rw [e2, f2] at h2
  rw [e3, f3] at h3
  simp only [store_32_n, List.cons.injEq, and_true]
  refine ⟨?_, ?_, ?_, ?_⟩ <;> apply Fin.ext <;> rw [fin_xor_val] <;>
    simp only [Fin.ofNat, Fin.val_mk] <;> assumption

theorem list_length_sixteen (l : List Byte) (h : l.length = 16) :
    ∃ a0 a1 a2 a3 a4 a5 a6 a7 a8 a9 a10 a11 a12 a13 a14 a15,
      l = [a0, a1, a2, a3, a4, a5, a6, a7, a8, a9, a10, a11, a12, a13, a14, a15] := by
  match l, h with
  | [a0, a1, a2, a3, a4, a5, a6, a7, a8, a9, a10, a11, a12, a13, a14, a15], _ =>
    exact ⟨a0, a1, a2, a3, a4, a5, a6, a7, a8, a9, a10, a11, a12, a13, a14, a15, rfl⟩

/-- The word-wise XOR of `xorblock` is the byte-wise XOR of the two blocks. -/
theorem xorblock_val (a b : Block) :
    (xorblock a b).val = List.zipWith (fun x y => x ^^^ y) a.val b.val := by
  obtain ⟨a0, a1, a2, a3, a4, a5, a6, a7, a8, a9, a10, a11, a12, a13, a14, a15, ha⟩ :=
    list_length_sixteen a.val a.property
  obtain ⟨b0, b1, b2, b3, b4, b5, b6, b7, b8, b9, b10, b11, b12, b13, b14, b15, hb⟩ :=
    list_length_sixteen b.val b.property
  simp only [xorblock, ha, hb, BLOCK_SIZE, List.range, List.range.loop, List.foldl,
    xorblock_step, load_32_n]
  simp [store_load_xor]

theorem byte_xor_cancel (a b : Byte) : (a ^^^ b) ^^^ b = a := by
  apply Fin.ext
  rw [fin_xor_val, fin_xor_val, Nat.xor_assoc, Nat.xor_self, Nat.xor_zero]

theorem byte_xor_cancel_left (a b : Byte) : (a ^^^ b) ^^^ a = b := by
  apply Fin.ext
  rw [fin_xor_val, fin_xor_val, Nat.xor_comm a.val, Nat.xor_assoc, Nat.xor_self, Nat.xor_zero]

theorem byte_xor_zero (a : Byte) : a ^^^ 0 = a := by
  apply Fin.ext
  rw [fin_xor_val]
  simp

theorem byte_zero_xor (a : Byte) : 0 ^^^ a = a := by
  apply Fin.ext
  rw [fin_xor_val]
  simp

theorem iov_total_length_eq (d : List krb5_crypto_iov) :
    iov_total_length d = (iov_stream d).length := by
  induction d with
  | nil => rfl
  | cons r rs ih =>
    by_cases h : r.sign_only <;> simp [iov_total_length, iov_stream, h, ih]

theorem iov_stream_scatter (d : List krb5_crypto_iov) (s : List Byte)
    (h : s.length = (iov_stream d).length) : iov_stream (iov_scatter d s) = s := by
  induction d generalizing s with
  | nil => simpa [iov_stream] using h
  | cons r rs ih =>
    by_cases hr : r.sign_only
    · simp only [iov_stream, hr, if_true] at h
      simp [iov_scatter, iov_stream, hr, ih s h]
    · simp only [iov_stream, hr, Bool.false_eq_true, if_false, List.length_append] at h
      have h2 : (s.drop r.data.length).length = (iov_stream rs).length := by
        simp only [List.length_drop]; omega
      simp [iov_scatter, iov_stream, hr, ih _ h2]

theorem iov_scatter_scatter (d : List krb5_crypto_iov) (s t : List Byte)
    (h : s.length = (iov_stream d).length) :
    iov_scatter (iov_scatter d s) t = iov_scatter d t := by
  induction d generalizing s t with
  | nil => rfl
  | cons r rs ih =>
    by_cases hr : r.sign_only
    · simp only [iov_stream, hr, if_true] at h
      simp [iov_scatter, hr, ih s t h]
    · simp only [iov_stream, hr, Bool.false_eq_true, if_false, List.length_append] at h
      have h2 : (s.drop r.data.length).length = (iov_stream rs).length := by
        simp only [List.length_drop]; omega
      have h3 : min r.data.length s.length = r.data.length := by omega
      simp [iov_scatter, hr, ih _ _ h2, h3]

theorem iov_scatter_stream (d : List krb5_crypto_iov) : iov_scatter d (iov_stream d) = d := by
  induction d with
  | nil => rfl
  | cons r rs ih =>
    cases r with
    | mk so da => cases so <;> simp [iov_scatter, iov_stream, ih]

theorem stream_write_length (s : List Byte) (pos : Nat) (b : Block) :
    (stream_write s pos b).length = s.length := by
  have hb := b.property
  simp only [BLOCK_SIZE] at hb
  simp only [stream_write, List.length_append, List.length_take, List.length_drop, hb, BLOCK_SIZE]
  omega

theorem stream_write_append (pre rest : List Byte) (b : Block) :
    stream_write (pre ++ rest) pre.length b = pre ++ b.val.take rest.length ++ rest.drop 16 := by
  simp [stream_write, List.take_append_eq_append_take, List.drop_append_eq_append_drop]

theorem cursor_get_scatter (d : List krb5_crypto_iov) (pre rest : List Byte) (q : Nat)
    (h : (pre ++ rest).length = (iov_stream d).length) :
    k5_iov_cursor_get { iov := iov_scatter d (pre ++ rest), in_pos := pre.length, out_pos := q }
      = ({ iov := iov_scatter d (pre ++ rest), in_pos := pre.length + 16, out_pos := q },
          pad16 rest) := by
  simp [k5_iov_cursor_get, iov_stream_scatter d _ h]

theorem cursor_put_scatter (d : List krb5_crypto_iov) (pre rest : List Byte) (p : Nat)
    (b : Block) (h : (pre ++ rest).length = (iov_stream d).length) :
    k5_iov_cursor_put { iov := iov_scatter d (pre ++ rest), in_pos := p, out_pos := pre.length } b
      = { iov := iov_scatter d (pre ++ b.val.take rest.length ++ rest.drop 16), in_pos := p,
          out_pos := pre.length + 16 } := by
  simp only [k5_iov_cursor_put, iov_stream_scatter d _ h, stream_write_append,
    iov_scatter_scatter d _ _ h]

theorem zipWith_xor_cancel : ∀ (a b : List Byte), a.length = b.length →
    List.zipWith (fun x y => x ^^^ y) (List.zipWith (fun x y => x ^^^ y) a b) b = a
  | [], [], _ => rfl
  | [], _ :: _, h => by simp at h
  | _ :: _, [], h => by simp at h
  | x :: a, y :: b, h => by
    have h2 : a.length = b.length := by simpa using h
    simp [byte_xor_cancel, zipWith_xor_cancel a b h2]

theorem xorblock_cancel (a b : Block) : xorblock (xorblock a b) b = a := by
  apply Subtype.ext
  rw [xorblock_val, xorblock_val]
  exact zipWith_xor_cancel a.val b.val (by rw [a.property, b.property])

theorem pad16_full (l : List Byte) (h : 16 ≤ l.length) : (pad16 l).val = l.take 16 := by
  simp only [pad16, BLOCK_SIZE, List.take_append_eq_append_take]
  have : 16 - l.length = 0 := by omega
  simp [this]

theorem pad16_val (b : Block) : pad16 b.val = b := by
  apply Subtype.ext
  have hb := b.property
  simp only [BLOCK_SIZE] at hb
  rw [pad16_full _ (by omega)]
  rw [List.take_of_length_le (by omega)]

theorem block_take (b : Block) (n : Nat) (h : 16 ≤ n) : b.val.take n = b.val := by
  have hb := b.property
  simp only [BLOCK_SIZE] at hb
  exact List.take_of_length_le (by omega)

theorem encrypt_loop_eq (P : AesImpl) (ctx : aes_ctx) (E : Block → Block)
    (hE : ∀ x, P.aes_enc_blk x ctx = some (E x)) (d : List krb5_crypto_iov) :
    ∀ (k : Nat) (tmp : Block) (pre rest : List Byte),
      (pre ++ rest).length = (iov_stream d).length → 16 * k ≤ rest.length →
      encrypt_loop P ctx k tmp
          { iov := iov_scatter d (pre ++ rest), in_pos := pre.length, out_pos := pre.length }
        = some (cbc_enc_iv E k tmp rest,
            { iov := iov_scatter d (pre ++ cbc_enc E k tmp rest ++ rest.drop (16 * k)),
              in_pos := pre.length + 16 * k, out_pos := pre.length + 16 * k }) := by
  intro k
  induction k with
  | zero => intro tmp pre rest _ _; simp [encrypt_loop, cbc_enc, cbc_enc_iv]
  | succ k ih =>
    intro tmp pre rest hlen hk
    have hb : (E (xorblock tmp (pad16 rest))).val.length = 16 := (E _).property
    have hlen2 : ((pre ++ (E (xorblock tmp (pad16 rest))).val) ++ rest.drop 16).length
        = (iov_stream d).length := by
      simp only [List.length_append, List.length_drop, hb] at hlen ⊢
      omega
    have hk2 : 16 * k ≤ (rest.drop 16).length := by
      simp only [List.length_drop]; omega
    have h := ih (E (xorblock tmp (pad16 rest))) (pre ++ (E (xorblock tmp (pad16 rest))).val)
      (rest.drop 16) hlen2 hk2
    simp only [List.length_append, hb, List.append_assoc, List.drop_drop] at h
    simp only [encrypt_loop, cursor_get_scatter d pre rest _ hlen, enc, hE,
      cursor_put_scatter d pre rest _ _ hlen, block_take _ rest.length (by omega),
      cbc_enc, cbc_enc_iv, BLOCK_SIZE, List.append_assoc]
    rw [h]
    have e1 : 16 * k + 16 = 16 * (k + 1) := by omega
    have e2 : 16 + 16 * k = 16 * (k + 1) := by omega
    simp only [e1, e2, Nat.add_assoc]

theorem decrypt_loop_eq (P : AesImpl) (ctx : aes_ctx) (D : Block → Block)
    (hD : ∀ x, P.aes_dec_blk x ctx = some (D x)) (d : List krb5_crypto_iov) :
    ∀ (k : Nat) (tmp : Block) (pre rest : List Byte),
      (pre ++ rest).length = (iov_stream d).length → 16 * k ≤ rest.length →
      decrypt_loop P ctx k tmp
          { iov := iov_scatter d (pre ++ rest), in_pos := pre.length, out_pos := pre.length }
        = some (cbc_dec_iv k tmp rest,
            { iov := iov_scatter d (pre ++ cbc_dec D k tmp rest ++ rest.drop (16 * k)),
              in_pos := pre.length + 16 * k, out_pos := pre.length + 16 * k }) := by
  intro k
  induction k with
  | zero => intro tmp pre rest _ _; simp [decrypt_loop, cbc_dec, cbc_dec_iv]
  | succ k ih =>
    intro tmp pre rest hlen hk
    have hb : (xorblock (D (pad16 rest)) tmp).val.length = 16 := (xorblock _ _).property
    have hlen2 : ((pre ++ (xorblock (D (pad16 rest)) tmp).val) ++ rest.drop 16).length
        = (iov_stream d).length := by
      simp only [List.length_append, List.length_drop, hb] at hlen ⊢
      omega
    have hk2 : 16 * k ≤ (rest.drop 16).length := by
      simp only [List.length_drop]; omega
    have h := ih (pad16 rest) (pre ++ (xorblock (D (pad16 rest)) tmp).val)
      (rest.drop 16) hlen2 hk2
    simp only [List.length_append, hb, List.append_assoc, List.drop_drop] at h
    simp only [decrypt_loop, cursor_get_scatter d pre rest _ hlen, dec, hD,
      cursor_put_scatter d pre rest _ _ hlen, block_take _ rest.length (by omega),
      cbc_dec, cbc_dec_iv, BLOCK_SIZE, List.append_assoc]
    rw [h]
    have e1 : 16 * k + 16 = 16 * (k + 1) := by omega
    have e2 : 16 + 16 * k = 16 * (k + 1) := by omega
    simp only [e1, e2, Nat.add_assoc]

theorem cbc_enc_length (E : Block → Block) :
    ∀ (k : Nat) (c : Block) (s : List Byte), (cbc_enc E k c s).length = 16 * k := by
  intro k
  induction k with
  | zero => intro c s; rfl
  | succ k ih =>
    intro c s
    have hb : (E (xorblock c (pad16 s))).val.length = 16 := (E _).property
    simp only [cbc_enc, List.length_append, hb, ih]
    omega

theorem cbc_dec_length (D : Block → Block) :
    ∀ (k : Nat) (c : Block) (s : List Byte), (cbc_dec D k c s).length = 16 * k := by
  intro k
  induction k with
  | zero => intro c s; rfl
  | succ k ih =>
    intro c s
    have hb : (xorblock (D (pad16 s)) c).val.length = 16 := (xorblock _ _).property
    simp only [cbc_dec, List.length_append, hb, ih]
    omega

theorem cursor_get_at (d : List krb5_crypto_iov) (pre rest : List Byte) (p q : Nat)
    (hp : p = pre.length) (h : (pre ++ rest).length = (iov_stream d).length) :
    k5_iov_cursor_get { iov := iov_scatter d (pre ++ rest), in_pos := p, out_pos := q }
      = ({ iov := iov_scatter d (pre ++ rest), in_pos := p + 16, out_pos := q },
          pad16 rest) := by
  subst hp
  exact cursor_get_scatter d pre rest q h

theorem cursor_put_at (d : List krb5_crypto_iov) (pre rest : List Byte) (p q : Nat)
    (b : Block) (hq : q = pre.length) (h : (pre ++ rest).length = (iov_stream d).length) :
    k5_iov_cursor_put { iov := iov_scatter d (pre ++ rest), in_pos := p, out_pos := q } b
      = { iov := iov_scatter d (pre ++ b.val.take rest.length ++ rest.drop 16), in_pos := p,
          out_pos := q + 16 } := by
  subst hq
  exact cursor_put_scatter d pre rest p b h

theorem cursor_get_stream (d : List krb5_crypto_iov) (s : List Byte) (p q : Nat)
    (h : s.length = (iov_stream d).length) :
    k5_iov_cursor_get { iov := iov_scatter d s, in_pos := p, out_pos := q }
      = ({ iov := iov_scatter d s, in_pos := p + 16, out_pos := q }, pad16 (s.drop p)) := by
  simp [k5_iov_cursor_get, iov_stream_scatter d _ h]

theorem cursor_put_stream (d : List krb5_crypto_iov) (s : List Byte) (p q : Nat) (b : Block)
    (h : s.length = (iov_stream d).length) :
    k5_iov_cursor_put { iov := iov_scatter d s, in_pos := p, out_pos := q } b
      = { iov := iov_scatter d (stream_write s q b), in_pos := p, out_pos := q + 16 } := by
  simp only [k5_iov_cursor_put, iov_stream_scatter d _ h, iov_scatter_scatter d _ _ h]

theorem final_write (pre rest : List Byte) (A B : Block) (q : Nat) (hq : q = pre.length)
    (h1 : 16 < rest.length) (h2 : rest.length ≤ 32) :
    stream_write (stream_write (pre ++ rest) q B) (q + 16) A
      = pre ++ B.val ++ A.val.take (rest.length - 16) := by
  subst hq
  have hB : B.val.length = 16 := B.property
  rw [stream_write_append, block_take B _ (by omega)]
  have e : pre.length + 16 = (pre ++ B.val).length := by simp [hB]
  rw [e, stream_write_append]
  have e2 : List.drop 16 (List.drop 16 rest) = [] := by
    apply List.drop_eq_nil_of_le
    simp only [List.length_drop]; omega
  simp [e2]

theorem drop_pre (pre rest : List Byte) (q : Nat) (hq : pre.length = q) :
    (pre ++ rest).drop q = rest := by
  subst hq
  simp

theorem drop_pre_add (pre rest : List Byte) (q j : Nat) (hq : pre.length = q) :
    (pre ++ rest).drop (q + j) = rest.drop j := by
  subst hq
  simp [List.drop_append_eq_append_drop]

theorem cursor_init_eq (data : List krb5_crypto_iov) :
    k5_iov_cursor_init data
      = { iov := iov_scatter data ([] ++ iov_stream data), in_pos := ([] : List Byte).length,
          out_pos := ([] : List Byte).length } := by
  simp [k5_iov_cursor_init, iov_scatter_stream]

theorem iv_of_eq (ivec : Option Block) :
    (match ivec with
      | some iv => iv
      | none => zeroBlock) = iv_of ivec := rfl

theorem encrypt_body_eq (P : AesImpl) (ctx : aes_ctx) (E : Block → Block)
    (hE : ∀ x, P.aes_enc_blk x ctx = some (E x)) (ivec : Option Block)
    (data : List krb5_crypto_iov) :
    encrypt_body P ctx ivec data
      = some (ivec.map (fun _ => cts_encrypt_iv E (iv_of ivec) (iov_stream data)),
          iov_scatter data (cts_encrypt E (iv_of ivec) (iov_stream data))) := by
  have hlen0 : (([] : List Byte) ++ iov_stream data).length = (iov_stream data).length := by
    simp
  by_cases h1 : ((iov_stream data).length + BLOCK_SIZE - 1) / BLOCK_SIZE = 1
  · have hL : (iov_stream data).length ≤ 16 := by simp only [BLOCK_SIZE] at h1; omega
    have hdrop : (iov_stream data).drop 16 = [] := List.drop_eq_nil_of_le hL
    have hiv : ivec.map (fun _ => iv_of ivec) = ivec := by cases ivec <;> rfl
    simp only [encrypt_body, iov_total_length_eq, h1, if_true, cts_encrypt, cts_encrypt_iv,
      gt_iff_lt, Nat.lt_irrefl, if_false, hiv]
    rw [cursor_init_eq, cursor_get_at data [] _ _ _ rfl hlen0]
    simp only [enc, hE]
    rw [cursor_put_at data [] _ _ _ _ rfl hlen0]
    simp [hdrop]
  · by_cases h2 : ((iov_stream data).length + BLOCK_SIZE - 1) / BLOCK_SIZE > 1
    · obtain ⟨k, hn⟩ : ∃ k, ((iov_stream data).length + BLOCK_SIZE - 1) / BLOCK_SIZE = k + 2 :=
        ⟨((iov_stream data).length + BLOCK_SIZE - 1) / BLOCK_SIZE - 2, by omega⟩
      have hk : 16 * k ≤ (iov_stream data).length := by
        simp only [BLOCK_SIZE] at hn; omega
      have hlen1 : ∀ c, (cbc_enc E k c (iov_stream data)
          ++ (iov_stream data).drop (16 * k)).length = (iov_stream data).length := by
        intro c
        simp only [List.length_append, cbc_enc_length, List.length_drop]
        omega
      have hr1 : 16 < ((iov_stream data).drop (16 * k)).length := by
        simp only [List.length_drop, BLOCK_SIZE] at hn ⊢; omega
      have hr2 : ((iov_stream data).drop (16 * k)).length ≤ 32 := by
        simp only [List.length_drop, BLOCK_SIZE] at hn ⊢; omega
      have c1 : ¬ (k + 2 = 1) := by omega
      have c2 : k + 2 > 1 := by omega
      simp only [encrypt_body, iov_total_length_eq, hn, c1, c2, if_false, if_true, cts_encrypt,
        cts_encrypt_iv, iv_of_eq, Nat.add_sub_cancel]
      rw [cursor_init_eq, encrypt_loop_eq P ctx E hE data _ _ [] _ hlen0 hk]
      simp only [List.length_nil, Nat.zero_add, List.nil_append]
      simp only [cursor_get_stream data _ _ _ (hlen1 _), enc, hE]
      rw [cursor_put_stream data _ _ _ _ (hlen1 _),
        cursor_put_stream data _ _ _ _ (by rw [stream_write_length]; exact hlen1 _)]
      rw [final_write _ _ _ _ _ (cbc_enc_length E _ _ _).symm hr1 hr2]
      simp only [drop_pre _ _ _ (cbc_enc_length E _ _ _),
        drop_pre_add _ _ _ 16 (cbc_enc_length E _ _ _), List.drop_drop, List.length_drop]
      have e : (iov_stream data).length - 16 * k - 16
          = (iov_stream data).length - (16 * k + 16) := by omega
      rw [e]
    · have hL : (iov_stream data).length = 0 := by simp only [BLOCK_SIZE] at h1 h2; omega
      have hiv : ivec.map (fun _ => iv_of ivec) = ivec := by cases ivec <;> rfl
      simp only [encrypt_body, iov_total_length_eq, h1, h2, if_false, cts_encrypt,
        cts_encrypt_iv, hiv, iov_scatter_stream]

theorem decrypt_body_eq (P : AesImpl) (ctx : aes_ctx) (D : Block → Block)
    (hD : ∀ x, P.aes_dec_blk x ctx = some (D x)) (ivec : Option Block)
    (data : List krb5_crypto_iov) :
    decrypt_body P ctx ivec data
      = some (ivec.map (fun _ => cts_decrypt_iv (iv_of ivec) (iov_stream data)),
          iov_scatter data (cts_decrypt D (iv_of ivec) (iov_stream data))) := by
  have hlen0 : (([] : List Byte) ++ iov_stream data).length = (iov_stream data).length := by
    simp
  by_cases h1 : ((iov_stream data).length + BLOCK_SIZE - 1) / BLOCK_SIZE = 1
  · have hL : (iov_stream data).length ≤ 16 := by simp only [BLOCK_SIZE] at h1; omega
    have hdrop : (iov_stream data).drop 16 = [] := List.drop_eq_nil_of_le hL
    have hiv : ivec.map (fun _ => iv_of ivec) = ivec := by cases ivec <;> rfl
    simp only [decrypt_body, iov_total_length_eq, h1, if_true, cts_decrypt, cts_decrypt_iv,
      gt_iff_lt, Nat.lt_irrefl, if_false, hiv]
    rw [cursor_init_eq, cursor_get_at data [] _ _ _ rfl hlen0]
    simp only [dec, hD]
    rw [cursor_put_at data [] _ _ _ _ rfl hlen0]
    simp [hdrop]
  · by_cases h2 : ((iov_stream data).length + BLOCK_SIZE - 1) / BLOCK_SIZE > 1
    · obtain ⟨k, hn⟩ : ∃ k, ((iov_stream data).length + BLOCK_SIZE - 1) / BLOCK_SIZE = k + 2 :=
        ⟨((iov_stream data).length + BLOCK_SIZE - 1) / BLOCK_SIZE - 2, by omega⟩
      have hk : 16 * k ≤ (iov_stream data).length := by
        simp only [BLOCK_SIZE] at hn; omega
      have hlen1 : ∀ c, (cbc_dec D k c (iov_stream data)
          ++ (iov_stream data).drop (16 * k)).length = (iov_stream data).length := by
        intro c
        simp only [List.length_append, cbc_dec_length, List.length_drop]
        omega
      have hr1 : 16 < ((iov_stream data).drop (16 * k)).length := by
        simp only [List.length_drop, BLOCK_SIZE] at hn ⊢; omega
      have hr2 : ((iov_stream data).drop (16 * k)).length ≤ 32 := by
        simp only [List.length_drop, BLOCK_SIZE] at hn ⊢; omega
      have c1 : ¬ (k + 2 = 1) := by omega
      have c2 : k + 2 > 1 := by omega
      simp only [decrypt_body, iov_total_length_eq, hn, c1, c2, if_false, if_true, cts_decrypt,
        cts_decrypt_iv, iv_of_eq, Nat.add_sub_cancel]
      rw [cursor_init_eq, decrypt_loop_eq P ctx D hD data _ _ [] _ hlen0 hk]
      simp only [List.length_nil, Nat.zero_add, List.nil_append]
      simp only [cursor_get_stream data _ _ _ (hlen1 _), dec, hD]
      rw [cursor_put_stream data _ _ _ _ (hlen1 _),
        cursor_put_stream data _ _ _ _ (by rw [stream_write_length]; exact hlen1 _)]
      rw [final_write _ _ _ _ _ (cbc_dec_length D _ _ _).symm hr1 hr2]
      simp only [drop_pre _ _ _ (cbc_dec_length D _ _ _),
        drop_pre_add _ _ _ 16 (cbc_dec_length D _ _ _), List.drop_drop, List.length_drop]
      have e : (iov_stream data).length - 16 * k - 16
          = (iov_stream data).length - (16 * k + 16) := by omega
      rw [e]
    · have hL : (iov_stream data).length = 0 := by simp only [BLOCK_SIZE] at h1 h2; omega
      have hiv : ivec.map (fun _ => iv_of ivec) = ivec := by cases ivec <;> rfl
      simp only [decrypt_body, iov_total_length_eq, h1, h2, if_false, cts_decrypt,
        cts_decrypt_iv, hiv, iov_scatter_stream]

theorem cache_get_cases (malloc : Option aes_key_info_cache) (key : krb5_key)
    (hA : AllocOK malloc key) :
    ∃ cache, aes_cache_get malloc key = some cache
      ∧ (key.cache = some cache
        ∨ (key.cache = none ∧ cache.enc_ctx.n_rnd = 0 ∧ cache.dec_ctx.n_rnd = 0)) := by
  cases hc : key.cache with
  | some c => exact ⟨c, by simp [aes_cache_get, hc], Or.inl rfl⟩
  | none =>
    cases hm : malloc with
    | none =>
      rcases hA with h | h
      · exact absurd hc h
      · exact absurd hm h
    | some c =>
      exact ⟨{ enc_ctx := { c.enc_ctx with n_rnd := 0 }, dec_ctx := { c.dec_ctx with n_rnd := 0 } },
        by simp [aes_cache_get, hc], Or.inr ⟨rfl, rfl, rfl⟩⟩

/-- Under the primitive's contract and a successful allocation, a call of
`krb5int_aes_encrypt` returns 0 and leaves the closed-form stream and IV; the
key keeps meeting the contract in both directions. -/
theorem encrypt_eq (P : AesImpl) (malloc : Option aes_key_info_cache) (key : krb5_key)
    (ivec : Option Block) (data : List krb5_crypto_iov) (E : Block → Block)
    (hK : EncKeyed P key E) (hA : AllocOK malloc key) :
    ∃ key', krb5int_aes_encrypt P malloc key ivec data
        = some { ret := 0, key := key',
                 ivec := ivec.map (fun _ => cts_encrypt_iv E (iv_of ivec) (iov_stream data)),
                 data := iov_scatter data (cts_encrypt E (iv_of ivec) (iov_stream data)) }
      ∧ EncKeyed P key' E ∧ key'.cache ≠ none
      ∧ ∀ D, DecKeyed P key D → DecKeyed P key' D := by
  obtain ⟨cache, hcache, hcase⟩ := cache_get_cases malloc key hA
  have hctx : ∃ ctx, (if cache.enc_ctx.n_rnd = 0 then P.aes_enc_key key.keyblock cache.enc_ctx
      else some cache.enc_ctx) = some ctx ∧ ∀ x, P.aes_enc_blk x ctx = some (E x) := by
    by_cases h0 : cache.enc_ctx.n_rnd = 0
    · obtain ⟨cx, h1, h2⟩ := hK.enc_key cache.enc_ctx
      exact ⟨cx, by simp [h0, h1], h2⟩
    · rcases hcase with h | ⟨_, h, _⟩
      · exact ⟨cache.enc_ctx, by simp [h0], hK.enc_cached cache h h0⟩
      · exact absurd h h0
  obtain ⟨ctx, hctx1, hE⟩ := hctx
  refine ⟨{ key with cache := some { cache with enc_ctx := ctx } }, ?_, ?_, by simp, ?_⟩
  · simp only [krb5int_aes_encrypt, hcache, hctx1, encrypt_body_eq P ctx E hE]
  · refine ⟨hK.enc_key, ?_⟩
    intro c hc _
    simp only [Option.some.injEq] at hc
    subst hc
    exact hE
  · intro D hD
    refine ⟨hD.dec_key, ?_⟩
    intro c hc hn
    simp only [Option.some.injEq] at hc
    subst hc
    rcases hcase with h | ⟨_, _, h⟩
    · exact hD.dec_cached cache h hn
    · exact absurd h hn

/-- Under the primitive's contract and a successful allocation, a call of
`krb5int_aes_decrypt` returns 0 and leaves the closed-form stream and IV; the
key keeps meeting the contract in both directions. -/
theorem decrypt_eq (P : AesImpl) (malloc : Option aes_key_info_cache) (key : krb5_key)
    (ivec : Option Block) (data : List krb5_crypto_iov) (D : Block → Block)
    (hK : DecKeyed P key D) (hA : AllocOK malloc key) :
    ∃ key', krb5int_aes_decrypt P malloc key ivec data
        = some { ret := 0, key := key',
                 ivec := ivec.map (fun _ => cts_decrypt_iv (iv_of ivec) (iov_stream data)),
                 data := iov_scatter data (cts_decrypt D (iv_of ivec) (iov_stream data)) }
      ∧ DecKeyed P key' D ∧ key'.cache ≠ none
      ∧ ∀ E, EncKeyed P key E → EncKeyed P key' E := by
  obtain ⟨cache, hcache, hcase⟩ := cache_get_cases malloc key hA
  have hctx : ∃ ctx, (if cache.dec_ctx.n_rnd = 0 then P.aes_dec_key key.keyblock cache.dec_ctx
      else some cache.dec_ctx) = some ctx ∧ ∀ x, P.aes_dec_blk x ctx = some (D x) := by
    by_cases h0 : cache.dec_ctx.n_rnd = 0
    · obtain ⟨cx, h1, h2⟩ := hK.dec_key cache.dec_ctx
      exact ⟨cx, by simp [h0, h1], h2⟩
    · rcases hcase with h | ⟨_, _, h⟩
      · exact ⟨cache.dec_ctx, by simp [h0], hK.dec_cached cache h h0⟩
      · exact absurd h h0
  obtain ⟨ctx, hctx1, hD⟩ := hctx
  refine ⟨{ key with cache := some { cache with dec_ctx := ctx } }, ?_, ?_, by simp, ?_⟩
  · simp only [krb5int_aes_decrypt, hcache, hctx1, decrypt_body_eq P ctx D hD]
  · refine ⟨hK.dec_key, ?_⟩
    intro c hc _
    simp only [Option.some.injEq] at hc
    subst hc
    exact hD
  · intro E hE
    refine ⟨hE.enc_key, ?_⟩
    intro c hc hn
    simp only [Option.some.injEq] at hc
    subst hc
    rcases hcase with h | ⟨_, h, _⟩
    · exact hE.enc_cached cache h hn
    · exact absurd h hn

/-! ## Lemmas: the algebra of ciphertext stealing -/

theorem zipWith_xor_cancel_left : ∀ (a b : List Byte), a.length = b.length →
    List.zipWith (fun x y => x ^^^ y) (List.zipWith (fun x y => x ^^^ y) a b) a = b
  | [], [], _ => rfl
  | [], _ :: _, h => by simp at h
  | _ :: _, [], h => by simp at h
  | x :: a, y :: b, h => by
    have h2 : a.length = b.length := by simpa using h
    simp [byte_xor_cancel_left, zipWith_xor_cancel_left a b h2]

theorem xorblock_cancel_left (a b : Block) : xorblock (xorblock a b) a = b := by
  apply Subtype.ext
  rw [xorblock_val, xorblock_val]
  exact zipWith_xor_cancel_left a.val b.val (by rw [a.property, b.property])

theorem block_length (b : Block) : b.val.length = 16 := b.property

theorem pad16_short (l : List Byte) (h : l.length ≤ 16) :
    (pad16 l).val = l ++ List.replicate (16 - l.length) 0 := by
  simp only [pad16, BLOCK_SIZE, List.take_append_eq_append_take, List.take_replicate]
  rw [List.take_of_length_le h]
  congr 2
  omega

theorem pad16_block_append (b : Block) (l : List Byte) : pad16 (b.val ++ l) = b := by
  apply Subtype.ext
  have hb : b.val.length = 16 := b.property
  rw [pad16_full _ (by simp [hb]), List.take_left' hb]

/-- The final block recovered by decryption: the first `r` bytes. -/
theorem cts_tail (A : Block) (Pn : List Byte) (r : Nat) (hr : Pn.length = r) (h16 : r ≤ 16) :
    (xorblock (xorblock A (pad16 Pn)) (pad16 (A.val.take r))).val.take r = Pn := by
  have hA : A.val.length = 16 := A.property
  have h1 : (A.val.take r).length = r := by simp [hA, h16]
  rw [xorblock_val, xorblock_val, pad16_short Pn (by omega),
    pad16_short (A.val.take r) (by omega), List.take_zipWith, List.take_zipWith,
    List.take_left' hr, List.take_left' h1]
  exact zipWith_xor_cancel_left _ _ (by rw [h1, hr])

/-- The stolen bytes put back: the block rebuilt by decryption is `A`. -/
theorem cts_steal (A : Block) (Pn : List Byte) (r : Nat) (hr : Pn.length = r) (h16 : r ≤ 16) :
    memcpy_block (xorblock (xorblock A (pad16 Pn)) (pad16 (A.val.take r)))
      (pad16 (A.val.take r)) r = A := by
  have hA : A.val.length = 16 := A.property
  have h1 : (A.val.take r).length = r := by simp [hA, h16]
  apply Subtype.ext
  show (pad16 (A.val.take r)).val.take r
      ++ (xorblock (xorblock A (pad16 Pn)) (pad16 (A.val.take r))).val.drop r = A.val
  rw [xorblock_val, xorblock_val, pad16_short Pn (by omega),
    pad16_short (A.val.take r) (by omega), List.drop_zipWith, List.drop_zipWith,
    List.drop_left' hr, List.drop_left' h1, List.take_left' h1, h1, hr,
    zipWith_xor_cancel _ _ (by simp [hA]), List.take_append_drop]

theorem cbc_dec_enc (E D : Block → Block) (hDE : ∀ x, D (E x) = x) :
    ∀ (k : Nat) (c : Block) (s rest : List Byte), 16 * k ≤ s.length →
      cbc_dec D k c (cbc_enc E k c s ++ rest) = s.take (16 * k) := by
  intro k
  induction k with
  | zero => intro c s rest _; simp [cbc_dec]
  | succ k ih =>
    intro c s rest h
    have h2 : 16 * k ≤ (s.drop 16).length := by simp only [List.length_drop]; omega
    have hb : (E (xorblock c (pad16 s))).val.length = 16 := (E _).property
    simp only [cbc_enc, cbc_dec, List.append_assoc, pad16_block_append, hDE,
      xorblock_cancel_left, BLOCK_SIZE, List.drop_left' hb, ih _ _ _ h2]
    rw [pad16_full s (by omega), ← List.take_add]
    congr 1
    omega

theorem cbc_dec_iv_enc (E : Block → Block) :
    ∀ (k : Nat) (c : Block) (s rest : List Byte),
      cbc_dec_iv k c (cbc_enc E k c s ++ rest) = cbc_enc_iv E k c s := by
  intro k
  induction k with
  | zero => intro c s rest; rfl
  | succ k ih =>
    intro c s rest
    have hb : (E (xorblock c (pad16 s))).val.length = 16 := (E _).property
    simp only [cbc_enc, cbc_dec_iv, cbc_enc_iv, List.append_assoc, pad16_block_append,
      BLOCK_SIZE, List.drop_left' hb, ih]

theorem cts_encrypt_length (E : Block → Block) (iv : Block) (s : List Byte) :
    (cts_encrypt E iv s).length = s.length := by
  by_cases h1 : (s.length + BLOCK_SIZE - 1) / BLOCK_SIZE = 1
  · have hb : (E (pad16 s)).val.length = 16 := (E _).property
    simp only [cts_encrypt, h1, if_true, List.length_take, hb]
    simp only [BLOCK_SIZE] at h1
    omega
  · by_cases h2 : (s.length + BLOCK_SIZE - 1) / BLOCK_SIZE > 1
    · simp only [cts_encrypt, h1, h2, if_false, if_true, List.length_append, cbc_enc_length,
        List.length_take, block_length]
      simp only [BLOCK_SIZE] at h1 h2 ⊢
      omega
    · simp only [cts_encrypt, h1, h2, if_false]

theorem nblocks_multi (L k : Nat) (h1 : 16 * k + 16 < L) (h2 : L ≤ 16 * k + 32) :
    (L + BLOCK_SIZE - 1) / BLOCK_SIZE = k + 2 := by
  simp only [BLOCK_SIZE]; omega

theorem cts_encrypt_multi (E : Block → Block) (iv : Block) (s : List Byte) (k : Nat)
    (h1 : 16 * k + 16 < s.length) (h2 : s.length ≤ 16 * k + 32) :
    cts_encrypt E iv s
      = cbc_enc E k iv s
        ++ (E (xorblock (E (xorblock (cbc_enc_iv E k iv s) (pad16 (s.drop (16 * k)))))
            (pad16 (s.drop (16 * k + 16))))).val
        ++ (E (xorblock (cbc_enc_iv E k iv s) (pad16 (s.drop (16 * k))))).val.take
            (s.length - (16 * k + 16)) := by
  have c1 : ¬ (k + 2 = 1) := by omega
  have c2 : k + 2 > 1 := by omega
  simp only [cts_encrypt, nblocks_multi _ k h1 h2, c1, c2, if_false, if_true,
    Nat.add_sub_cancel]

theorem cts_encrypt_iv_multi (E : Block → Block) (iv : Block) (s : List Byte) (k : Nat)
    (h1 : 16 * k + 16 < s.length) (h2 : s.length ≤ 16 * k + 32) :
    cts_encrypt_iv E iv s
      = E (xorblock (E (xorblock (cbc_enc_iv E k iv s) (pad16 (s.drop (16 * k)))))
            (pad16 (s.drop (16 * k + 16)))) := by
  have c2 : k + 2 > 1 := by omega
  simp only [cts_encrypt_iv, nblocks_multi _ k h1 h2, c2, if_true, Nat.add_sub_cancel]

theorem cts_decrypt_multi (D : Block → Block) (iv : Block) (s : List Byte) (k : Nat)
    (h1 : 16 * k + 16 < s.length) (h2 : s.length ≤ 16 * k + 32) :
    cts_decrypt D iv s
      = cbc_dec D k iv s
        ++ (xorblock (D (memcpy_block
              (xorblock (D (pad16 (s.drop (16 * k)))) (pad16 (s.drop (16 * k + 16))))
              (pad16 (s.drop (16 * k + 16))) (s.length - (16 * k + 16))))
            (cbc_dec_iv k iv s)).val
        ++ (xorblock (D (pad16 (s.drop (16 * k)))) (pad16 (s.drop (16 * k + 16)))).val.take
            (s.length - (16 * k + 16)) := by
  have c1 : ¬ (k + 2 = 1) := by omega
  have c2 : k + 2 > 1 := by omega
  have hr : (if s.length % BLOCK_SIZE ≠ 0 then s.length % BLOCK_SIZE else BLOCK_SIZE)
      = s.length - (16 * k + 16) := by
    simp only [BLOCK_SIZE]
    split <;> omega
  simp only [cts_decrypt, nblocks_multi _ k h1 h2, c1, c2, if_false, if_true,
    Nat.add_sub_cancel, hr]

theorem cts_decrypt_iv_multi (iv : Block) (s : List Byte) (k : Nat)
    (h1 : 16 * k + 16 < s.length) (h2 : s.length ≤ 16 * k + 32) :
    cts_decrypt_iv iv s = pad16 (s.drop (16 * k)) := by
  have c2 : k + 2 > 1 := by omega
  simp only [cts_decrypt_iv, nblocks_multi _ k h1 h2, c2, if_true, Nat.add_sub_cancel]

theorem multi_of_gt (L : Nat) (h : 16 < L) :
    ∃ k, 16 * k + 16 < L ∧ L ≤ 16 * k + 32 :=
  ⟨(L + 15) / 16 - 2, by omega, by omega⟩

/-- Decryption undoes encryption on streams of length 0 or at least 16. -/
theorem cts_round_trip (E D : Block → Block) (hDE : ∀ x, D (E x) = x) (iv : Block)
    (s : List Byte) (hL : s.length = 0 ∨ 16 ≤ s.length) :
    cts_decrypt D iv (cts_encrypt E iv s) = s := by
  rcases hL with h0 | h16
  · have hs : s = [] := List.eq_nil_of_length_eq_zero h0
    subst hs
    have e1 : cts_encrypt E iv [] = [] := by simp [cts_encrypt, BLOCK_SIZE]
    have e2 : cts_decrypt D iv [] = [] := by simp [cts_decrypt, BLOCK_SIZE]
    rw [e1, e2]
  · by_cases h : s.length = 16
    · have hn : (s.length + BLOCK_SIZE - 1) / BLOCK_SIZE = 1 := by simp [h, BLOCK_SIZE]
      have e1 : cts_encrypt E iv s = (E (pad16 s)).val := by
        simp only [cts_encrypt, hn, if_true, h]
        exact block_take _ 16 (Nat.le_refl _)
      have hn2 : ((E (pad16 s)).val.length + BLOCK_SIZE - 1) / BLOCK_SIZE = 1 := by
        simp [block_length, BLOCK_SIZE]
      rw [e1]
      simp only [cts_decrypt, hn2, if_true, pad16_val, hDE, block_length]
      rw [block_take _ 16 (Nat.le_refl _), pad16_full s (by omega)]
      exact List.take_of_length_le (by omega)
    · obtain ⟨k, h1, h2⟩ := multi_of_gt s.length (by omega)
      have hlen := cts_encrypt_length E iv s
      rw [cts_decrypt_multi D iv _ k (by rw [hlen]; exact h1) (by rw [hlen]; exact h2), hlen]
      rw [cts_encrypt_multi E iv s k h1 h2]
      have hc : (cbc_enc E k iv s).length = 16 * k := cbc_enc_length E k iv s
      simp only [List.append_assoc, cbc_dec_enc E D hDE k iv s _ (by omega),
        cbc_dec_iv_enc, List.drop_left' hc, drop_pre_add _ _ _ 16 hc, pad16_block_append, hDE,
        List.drop_left' (block_length _)]
      have hP : (s.drop (16 * k + 16)).length = s.length - (16 * k + 16) := by
        simp
      rw [cts_steal _ _ _ hP (by omega), cts_tail _ _ _ hP (by omega), hDE,
        xorblock_cancel_left, pad16_full _ (by simp only [List.length_drop]; omega)]
      have e : s.drop (16 * k + 16) = (s.drop (16 * k)).drop 16 := by
        rw [List.drop_drop]
      rw [e, List.take_append_drop, List.take_append_drop]

/-! ## Lemmas: calls in sequence, the toy primitive -/

theorem toyE_toyE (x : Block) : toyE (toyE x) = x := by
  apply Subtype.ext
  simp [toyE]

theorem toy_enc_keyed (key : krb5_key)
    (h : key.keyblock.length = 16 ∨ key.keyblock.length = 32) :
    EncKeyed toyImpl key toyE := by
  refine ⟨?_, ?_⟩
  · intro cx
    exact ⟨{ cx with n_rnd := 10, n_blk := 1 }, by simp [toyImpl, h], by simp [toyImpl]⟩
  · intro c _ hn x
    simp [toyImpl, hn]

theorem toy_dec_keyed (key : krb5_key)
    (h : key.keyblock.length = 16 ∨ key.keyblock.length = 32) :
    DecKeyed toyImpl key toyE := by
  refine ⟨?_, ?_⟩
  · intro cx
    exact ⟨{ cx with n_rnd := 10, n_blk := 2 }, by simp [toyImpl, h], by simp [toyImpl]⟩
  · intro c _ hn x
    simp [toyImpl, hn]

theorem toy_keyed (key : krb5_key)
    (h : key.keyblock.length = 16 ∨ key.keyblock.length = 32) :
    Keyed toyImpl key toyE toyE :=
  ⟨toy_enc_keyed key h, toy_dec_keyed key h⟩

/-- Encrypt then decrypt with the same key and the original IV, for a stream
of length 0 or at least 16: both calls return 0, the intermediate stream has
the length of the plaintext, and the buffer list is back to what it was. -/
theorem round_trip_calls (P : AesImpl) (malloc malloc2 : Option aes_key_info_cache)
    (key : krb5_key) (ivec : Option Block) (data : List krb5_crypto_iov)
    (E D : Block → Block) (hK : Keyed P key E D) (hA : AllocOK malloc key)
    (hDE : ∀ x, D (E x) = x)
    (hL : (iov_stream data).length = 0 ∨ 16 ≤ (iov_stream data).length) :
    ∃ r1 r2, krb5int_aes_encrypt P malloc key ivec data = some r1 ∧ r1.ret = 0
      ∧ (iov_stream r1.data).length = (iov_stream data).length
      ∧ krb5int_aes_decrypt P malloc2 r1.key ivec r1.data = some r2 ∧ r2.ret = 0
      ∧ r2.data = data := by
  obtain ⟨key1, h1, _, hc1, hD1⟩ := encrypt_eq P malloc key ivec data E hK.enc hA
  have hlen := cts_encrypt_length E (iv_of ivec) (iov_stream data)
  obtain ⟨key2, h2, _, _⟩ := decrypt_eq P malloc2 key1 ivec
    (iov_scatter data (cts_encrypt E (iv_of ivec) (iov_stream data))) D (hD1 D hK.dec)
    (Or.inl hc1)
  refine ⟨_, _, h1, rfl, ?_, h2, rfl, ?_⟩
  · simp only [iov_stream_scatter data _ hlen, hlen]
  · simp only [iov_stream_scatter data _ hlen, iov_scatter_scatter data _ _ hlen,
      cts_round_trip E D hDE _ _ hL, iov_scatter_stream]

/-! ## The claims -/

/-- C1 (as amended): for every key, every IV (absent or any 16 bytes) and
every plaintext stream, with a block primitive satisfying
`Decrypt (Encrypt x) = x`, `krb5int_aes_encrypt` returns 0 and leaves a
ciphertext of exactly the plaintext's length L; and when L = 0 or L ≥ 16,
`krb5int_aes_decrypt` with the same key and the original IV returns 0 and
leaves the original plaintext byte for byte. -/
theorem C1_round_trip (P : AesImpl) (malloc malloc2 : Option aes_key_info_cache)
    (key : krb5_key) (ivec : Option Block) (data : List krb5_crypto_iov)
    (E D : Block → Block) (hK : Keyed P key E D) (hA : AllocOK malloc key)
    (hDE : ∀ x, D (E x) = x) :
    ∃ r1, krb5int_aes_encrypt P malloc key ivec data = some r1 ∧ r1.ret = 0
      ∧ (iov_stream r1.data).length = (iov_stream data).length
      ∧ ((iov_stream data).length = 0 ∨ 16 ≤ (iov_stream data).length →
          ∃ r2, krb5int_aes_decrypt P malloc2 r1.key ivec r1.data = some r2 ∧ r2.ret = 0
            ∧ iov_stream r2.data = iov_stream data ∧ r2.data = data) := by
  obtain ⟨key1, h1, _, _⟩ := encrypt_eq P malloc key ivec data E hK.enc hA
  have hlen := cts_encrypt_length E (iv_of ivec) (iov_stream data)
  refine ⟨_, h1, rfl, ?_, ?_⟩
  · simp only [iov_stream_scatter data _ hlen, hlen]
  · intro hL
    obtain ⟨r1, r2, e1, _, _, e2, hr2, hd⟩ :=
      round_trip_calls P malloc malloc2 key ivec data E D hK hA hDE hL
    rw [h1] at e1
    cases e1
    exact ⟨r2, e2, hr2, by rw [hd], hd⟩

/-- C1, witness: the toy primitive, a fresh 16-byte key, a zero IV and a
20-byte plaintext split over two data regions around a sign-only region. -/
theorem C1_round_trip_witness :
    ∃ r1, krb5int_aes_encrypt toyImpl toyMalloc toyKey (some zeroBlock)
        [⟨false, [1, 2, 3]⟩, ⟨true, [9, 9]⟩, ⟨false, List.replicate 17 7⟩] = some r1
      ∧ r1.ret = 0
      ∧ (iov_stream r1.data).length
          = (iov_stream [⟨false, [1, 2, 3]⟩, ⟨true, [9, 9]⟩, ⟨false, List.replicate 17 7⟩]).length
      ∧ ((iov_stream [⟨false, [1, 2, 3]⟩, ⟨true, [9, 9]⟩,
              ⟨false, List.replicate 17 7⟩]).length = 0
          ∨ 16 ≤ (iov_stream [⟨false, [1, 2, 3]⟩, ⟨true, [9, 9]⟩,
              ⟨false, List.replicate 17 7⟩]).length →
          ∃ r2, krb5int_aes_decrypt toyImpl none r1.key (some zeroBlock) r1.data = some r2
            ∧ r2.ret = 0
            ∧ iov_stream r2.data
              = iov_stream [⟨false, [1, 2, 3]⟩, ⟨true, [9, 9]⟩, ⟨false, List.replicate 17 7⟩]
            ∧ r2.data = [⟨false, [1, 2, 3]⟩, ⟨true, [9, 9]⟩, ⟨false, List.replicate 17 7⟩]) :=
  C1_round_trip toyImpl toyMalloc none toyKey (some zeroBlock)
    [⟨false, [1, 2, 3]⟩, ⟨true, [9, 9]⟩, ⟨false, List.replicate 17 7⟩] toyE toyE
    (toy_keyed toyKey (Or.inl (by decide))) (Or.inr (by decide)) toyE_toyE

/-- C1, counterexample: with the toy primitive, which satisfies
`Decrypt (Encrypt x) = x`, a fresh key and no IV, the one-byte plaintext `[1]`
encrypts to the one byte `[0]`, and decrypting that returns `[0]`, not `[1]`:
the round trip fails for a stream of length 1. -/
theorem C1_short_stream_counterexample :
    (∀ x : Block, toyE (toyE x) = x) ∧ Keyed toyImpl toyKey toyE toyE
      ∧ AllocOK toyMalloc toyKey
      ∧ (krb5int_aes_encrypt toyImpl toyMalloc toyKey none [⟨false, [1]⟩]).map
          (fun r => (r.ret, iov_stream r.data)) = some (0, [0])
      ∧ ((krb5int_aes_encrypt toyImpl toyMalloc toyKey none [⟨false, [1]⟩]).bind
          (fun r => krb5int_aes_decrypt toyImpl toyMalloc r.key none r.data)).map
          (fun r => (r.ret, iov_stream r.data)) = some (0, [0])
      ∧ iov_stream [⟨false, [1]⟩] = [1] ∧ ([0] : List Byte) ≠ [1] :=
  ⟨toyE_toyE, toy_keyed toyKey (Or.inl (by decide)), Or.inr (by decide), by decide, by decide,
    by decide, by decide⟩

/-- C2: for every key, every IV (absent or present) and every plaintext of
length L ≥ 16, with a block primitive satisfying `Decrypt (Encrypt x) = x`,
`krb5int_aes_encrypt` returns 0 and leaves a ciphertext of length exactly L,
and `krb5int_aes_decrypt` with the same key and the original IV returns 0 and
recovers every plaintext byte, the tail of a last short block included. -/
theorem C2_round_trip_stealing (P : AesImpl) (malloc malloc2 : Option aes_key_info_cache)
    (key : krb5_key) (ivec : Option Block) (data : List krb5_crypto_iov)
    (E D : Block → Block) (hK : Keyed P key E D) (hA : AllocOK malloc key)
    (hDE : ∀ x, D (E x) = x) (hL : 16 ≤ (iov_stream data).length) :
    ∃ r1 r2, krb5int_aes_encrypt P malloc key ivec data = some r1 ∧ r1.ret = 0
      ∧ (iov_stream r1.data).length = (iov_stream data).length
      ∧ krb5int_aes_decrypt P malloc2 r1.key ivec r1.data = some r2 ∧ r2.ret = 0
      ∧ iov_stream r2.data = iov_stream data := by
  obtain ⟨r1, r2, e1, hr1, hl, e2, hr2, hd⟩ :=
    round_trip_calls P malloc malloc2 key ivec data E D hK hA hDE (Or.inr hL)
  exact ⟨r1, r2, e1, hr1, hl, e2, hr2, by rw [hd]⟩

/-- C2, witness: the toy primitive, a fresh 16-byte key, no IV and a 35-byte
plaintext (two full blocks and a 3-byte tail). -/
theorem C2_round_trip_stealing_witness :
    ∃ r1 r2, krb5int_aes_encrypt toyImpl toyMalloc toyKey none
        [⟨false, List.replicate 30 5 ++ [1, 2, 3, 4, 5]⟩] = some r1 ∧ r1.ret = 0
      ∧ (iov_stream r1.data).length
          = (iov_stream [⟨false, List.replicate 30 5 ++ [1, 2, 3, 4, 5]⟩]).length
      ∧ krb5int_aes_decrypt toyImpl none r1.key none r1.data = some r2 ∧ r2.ret = 0
      ∧ iov_stream r2.data = iov_stream [⟨false, List.replicate 30 5 ++ [1, 2, 3, 4, 5]⟩] :=
  C2_round_trip_stealing toyImpl toyMalloc none toyKey none
    [⟨false, List.replicate 30 5 ++ [1, 2, 3, 4, 5]⟩] toyE toyE
    (toy_keyed toyKey (Or.inl (by decide))) (Or.inr (by decide)) toyE_toyE (by decide)

/-! ## Lemmas: CBC over a split stream -/

theorem cbc_enc_add (E : Block → Block) :
    ∀ (j k : Nat) (c : Block) (s : List Byte),
      cbc_enc E (j + k) c s
        = cbc_enc E j c s ++ cbc_enc E k (cbc_enc_iv E j c s) (s.drop (16 * j)) := by
  intro j
  induction j with
  | zero => intro k c s; simp [cbc_enc, cbc_enc_iv]
  | succ j ih =>
    intro k c s
    have e : j + 1 + k = (j + k) + 1 := by omega
    rw [e]
    simp only [cbc_enc, cbc_enc_iv, ih, List.append_assoc, BLOCK_SIZE, List.drop_drop]
    have e2 : 16 * j + 16 = 16 * (j + 1) := by omega
    have e3 : 16 + 16 * j = 16 * (j + 1) := by omega
    simp only [e2, e3]

theorem cbc_enc_iv_add (E : Block → Block) :
    ∀ (j k : Nat) (c : Block) (s : List Byte),
      cbc_enc_iv E (j + k) c s = cbc_enc_iv E k (cbc_enc_iv E j c s) (s.drop (16 * j)) := by
  intro j
  induction j with
  | zero => intro k c s; simp [cbc_enc_iv]
  | succ j ih =>
    intro k c s
    have e : j + 1 + k = (j + k) + 1 := by omega
    rw [e]
    simp only [cbc_enc_iv, ih, BLOCK_SIZE, List.drop_drop]
    have e2 : 16 * j + 16 = 16 * (j + 1) := by omega
    have e3 : 16 + 16 * j = 16 * (j + 1) := by omega
    simp only [e2, e3]

theorem pad16_take (s : List Byte) (m : Nat) (h : 16 ≤ m) : pad16 (s.take m) = pad16 s := by
  apply Subtype.ext
  simp only [pad16, BLOCK_SIZE, List.take_append_eq_append_take, List.take_take,
    List.length_take]
  have e1 : min 16 m = 16 := by omega
  rw [e1]
  by_cases hs : s.length ≤ m
  · have e2 : min m s.length = s.length := by omega
    rw [e2]
  · have e2 : min m s.length = m := by omega
    have e3 : 16 - m = 0 := by omega
    have e4 : 16 - s.length = 0 := by omega
    rw [e2, e3, e4]

theorem cbc_enc_take (E : Block → Block) :
    ∀ (k : Nat) (c : Block) (s : List Byte) (m : Nat), 16 * k ≤ m →
      cbc_enc E k c (s.take m) = cbc_enc E k c s := by
  intro k
  induction k with
  | zero => intro c s m _; rfl
  | succ k ih =>
    intro c s m h
    have h2 : 16 * k ≤ m - 16 := by omega
    simp only [cbc_enc, BLOCK_SIZE, pad16_take s m (by omega), List.drop_take, ih _ _ _ h2]

theorem cbc_enc_iv_take (E : Block → Block) :
    ∀ (k : Nat) (c : Block) (s : List Byte) (m : Nat), 16 * k ≤ m →
      cbc_enc_iv E k c (s.take m) = cbc_enc_iv E k c s := by
  intro k
  induction k with
  | zero => intro c s m _; rfl
  | succ k ih =>
    intro c s m h
    have h2 : 16 * k ≤ m - 16 := by omega
    simp only [cbc_enc_iv, BLOCK_SIZE, pad16_take s m (by omega), List.drop_take, ih _ _ _ h2]

/-- The stream a call leaves for a whole number `j + 2` of blocks: CBC over
the first `j` blocks, then CBC blocks `j + 2` and `j + 1` in that order. -/
theorem cts_encrypt_blocks (E : Block → Block) (iv : Block) (s : List Byte) (j : Nat)
    (h : 16 * j + 32 ≤ s.length) :
    cts_encrypt E iv (s.take (16 * j + 32))
      = cbc_enc E j iv s ++ (cbc_enc_iv E (j + 2) iv s).val
        ++ (cbc_enc_iv E (j + 1) iv s).val := by
  have hl : (s.take (16 * j + 32)).length = 16 * j + 32 := by
    simp only [List.length_take]; omega
  rw [cts_encrypt_multi E iv _ j (by omega) (by omega), hl]
  have e1 : j + 2 = j + 1 + 1 := rfl
  have e3 : 16 * j + 32 - (16 * j + 16) = 16 := by omega
  rw [cbc_enc_take E j iv s _ (by omega), cbc_enc_iv_take E j iv s _ (by omega), e1,
    cbc_enc_iv_add E (j + 1) 1, cbc_enc_iv_add E j 1, e3, block_take _ 16 (Nat.le_refl _)]
  simp only [cbc_enc_iv, List.drop_take]
  have p1 : 16 * j + 32 - 16 * j = 32 := by omega
  have p2 : 16 * j + 32 - (16 * j + 16) = 16 := by omega
  have p3 : 16 * (j + 1) = 16 * j + 16 := by omega
  rw [p1, p2, p3, pad16_take _ 32 (by omega), pad16_take _ 16 (by omega)]

theorem cts_encrypt_iv_blocks (E : Block → Block) (iv : Block) (s : List Byte) (j : Nat)
    (h : 16 * j + 32 ≤ s.length) :
    cts_encrypt_iv E iv (s.take (16 * j + 32)) = cbc_enc_iv E (j + 2) iv s := by
  have hl : (s.take (16 * j + 32)).length = 16 * j + 32 := by
    simp only [List.length_take]; omega
  rw [cts_encrypt_iv_multi E iv _ j (by omega) (by omega)]
  have e1 : j + 2 = j + 1 + 1 := rfl
  rw [cbc_enc_iv_take E j iv s _ (by omega), e1,
    cbc_enc_iv_add E (j + 1) 1, cbc_enc_iv_add E j 1]
  simp only [cbc_enc_iv, List.drop_take]
  have p1 : 16 * j + 32 - 16 * j = 32 := by omega
  have p2 : 16 * j + 32 - (16 * j + 16) = 16 := by omega
  have p3 : 16 * (j + 1) = 16 * j + 16 := by omega
  rw [p1, p2, p3, pad16_take _ 32 (by omega), pad16_take _ 16 (by omega)]

/-- The stream a call leaves, split after `m` blocks that are followed by
more than one block: CBC over the first `m` blocks, then what a call started
from the chaining value reached leaves for the rest of the stream. -/
theorem cts_encrypt_split (E : Block → Block) (iv : Block) (s : List Byte) (m : Nat)
    (h : 16 * m + 16 < s.length) :
    cts_encrypt E iv s
      = cbc_enc E m iv s ++ cts_encrypt E (cbc_enc_iv E m iv s) (s.drop (16 * m)) := by
  have hl : (s.drop (16 * m)).length = s.length - 16 * m := by simp
  obtain ⟨k, h1, h2⟩ := multi_of_gt (s.drop (16 * m)).length (by omega)
  rw [cts_encrypt_multi E _ (s.drop (16 * m)) k h1 h2,
    cts_encrypt_multi E iv s (m + k) (by omega) (by omega), cbc_enc_add, cbc_enc_iv_add]
  simp only [List.drop_drop, List.append_assoc, hl]
  have p1 : 16 * m + 16 * k = 16 * (m + k) := by omega
  have p2 : 16 * m + (16 * k + 16) = 16 * (m + k) + 16 := by omega
  have p3 : s.length - 16 * m - (16 * k + 16) = s.length - (16 * (m + k) + 16) := by omega
  rw [p1, p2, p3]

theorem cts_encrypt_iv_split (E : Block → Block) (iv : Block) (s : List Byte) (m : Nat)
    (h : 16 * m + 16 < s.length) :
    cts_encrypt_iv E iv s = cts_encrypt_iv E (cbc_enc_iv E m iv s) (s.drop (16 * m)) := by
  have hl : (s.drop (16 * m)).length = s.length - 16 * m := by simp
  obtain ⟨k, h1, h2⟩ := multi_of_gt (s.drop (16 * m)).length (by omega)
  rw [cts_encrypt_iv_multi E _ (s.drop (16 * m)) k h1 h2,
    cts_encrypt_iv_multi E iv s (m + k) (by omega) (by omega), cbc_enc_iv_add]
  simp only [List.drop_drop]
  have p1 : 16 * m + 16 * k = 16 * (m + k) := by omega
  have p2 : 16 * m + (16 * k + 16) = 16 * (m + k) + 16 := by omega
  rw [p1, p2]

theorem swap_blocks (Y A B Z : List Byte) (q : Nat) (hY : Y.length = q) (hA : A.length = 16)
    (hB : B.length = 16) :
    (Y ++ (A ++ (B ++ Z))).take q ++ ((Y ++ (A ++ (B ++ Z))).drop (q + 16)).take 16
        ++ ((Y ++ (A ++ (B ++ Z))).drop q).take 16 ++ (Y ++ (A ++ (B ++ Z))).drop (q + 32)
      = Y ++ B ++ A ++ Z := by
  have e1 : (Y ++ (A ++ (B ++ Z))).drop (q + 16) = B ++ Z := by
    rw [drop_pre_add _ _ _ 16 hY, List.drop_left' hA]
  have e2 : (Y ++ (A ++ (B ++ Z))).drop (q + 32) = Z := by
    have e : q + 32 = q + 16 + 16 := by omega
    rw [e, ← List.drop_drop, e1, List.drop_left' hB]
  rw [e1, e2, List.take_left' hY, List.drop_left' hY, List.take_left' hA, List.take_left' hB]

/-- Two calls chained through the returned IV against one call, on streams:
the concatenated outputs are the one-call output with the two 16-byte blocks
that end at the split point exchanged. -/
theorem cts_chain_swapped (E : Block → Block) (iv : Block) (S : List Byte) (s : Nat)
    (hs : s % 16 = 0) (h32 : 32 ≤ s) (hL : s + 16 < S.length) :
    cts_encrypt E iv (S.take s) ++ cts_encrypt E (cts_encrypt_iv E iv (S.take s)) (S.drop s)
      = (cts_encrypt E iv S).take (s - 32) ++ ((cts_encrypt E iv S).drop (s - 16)).take 16
        ++ ((cts_encrypt E iv S).drop (s - 32)).take 16 ++ (cts_encrypt E iv S).drop s := by
  obtain ⟨j, hj⟩ : ∃ j, s = 16 * j + 32 := ⟨s / 16 - 2, by omega⟩
  subst hj
  have e0 : 16 * j + 32 = 16 * (j + 2) := by omega
  have hsplit := cts_encrypt_split E iv S (j + 2) (by omega)
  rw [← e0] at hsplit
  have hX : cbc_enc E (j + 2) iv S
      = cbc_enc E j iv S ++ ((cbc_enc_iv E (j + 1) iv S).val
          ++ (cbc_enc_iv E (j + 2) iv S).val) := by
    have e1 : j + 2 = j + 1 + 1 := rfl
    have e2 : cbc_enc_iv E (j + 1 + 1) iv S
        = E (xorblock (cbc_enc_iv E (j + 1) iv S) (pad16 (S.drop (16 * (j + 1))))) := by
      rw [cbc_enc_iv_add E (j + 1) 1]; rfl
    have e3 : cbc_enc_iv E (j + 1) iv S
        = E (xorblock (cbc_enc_iv E j iv S) (pad16 (S.drop (16 * j)))) := by
      rw [cbc_enc_iv_add E j 1]; rfl
    rw [e1, cbc_enc_add E (j + 1) 1, cbc_enc_add E j 1, e2, List.append_assoc]
    simp only [cbc_enc, List.append_nil, ← e3]
  rw [cts_encrypt_blocks E iv S j (by omega), cts_encrypt_iv_blocks E iv S j (by omega),
    hsplit, hX]
  have p1 : 16 * j + 32 - 32 = 16 * j := by omega
  have p2 : 16 * j + 32 - 16 = 16 * j + 16 := by omega
  simp only [List.append_assoc, p1, p2]
  have h := swap_blocks (cbc_enc E j iv S) (cbc_enc_iv E (j + 1) iv S).val
    (cbc_enc_iv E (j + 2) iv S).val
    (cts_encrypt E (cbc_enc_iv E (j + 2) iv S) (S.drop (16 * j + 32))) (16 * j)
    (cbc_enc_length E j iv S) (block_length _) (block_length _)
  simp only [List.append_assoc] at h
  rw [h]

/-- C3 (as amended): for every key, every present IV, every plaintext of
length L and every split point s that is a multiple of 16 with s ≥ 32 and
L - s > 16, encrypting the first s bytes with the IV and then the rest with
the IV returned by the first call yields, concatenated, the ciphertext of the
one-call encryption of the whole plaintext with its two 16-byte blocks at
offsets s - 32 and s - 16 exchanged. -/
theorem C3_chaining_swapped (P : AesImpl) (malloc malloc2 : Option aes_key_info_cache)
    (key : krb5_key) (iv : Block) (data1 data2 data : List krb5_crypto_iov) (s : Nat)
    (E : Block → Block) (hK : EncKeyed P key E) (hA : AllocOK malloc key)
    (hs : s % 16 = 0) (h32 : 32 ≤ s) (hL : s + 16 < (iov_stream data).length)
    (h1 : iov_stream data1 = (iov_stream data).take s)
    (h2 : iov_stream data2 = (iov_stream data).drop s) :
    ∃ r1 r2 r, krb5int_aes_encrypt P malloc key (some iv) data1 = some r1 ∧ r1.ret = 0
      ∧ krb5int_aes_encrypt P malloc2 r1.key r1.ivec data2 = some r2 ∧ r2.ret = 0
      ∧ krb5int_aes_encrypt P malloc key (some iv) data = some r ∧ r.ret = 0
      ∧ iov_stream r1.data ++ iov_stream r2.data
        = (iov_stream r.data).take (s - 32) ++ ((iov_stream r.data).drop (s - 16)).take 16
          ++ ((iov_stream r.data).drop (s - 32)).take 16 ++ (iov_stream r.data).drop s := by
  obtain ⟨key1, e1, hK1, hc1, _⟩ := encrypt_eq P malloc key (some iv) data1 E hK hA
  obtain ⟨key2, e2, _, _⟩ := encrypt_eq P malloc2 key1
    (some (cts_encrypt_iv E iv (iov_stream data1))) data2 E hK1 (Or.inl hc1)
  obtain ⟨key3, e3, _, _⟩ := encrypt_eq P malloc key (some iv) data E hK hA
  refine ⟨_, _, _, e1, rfl, e2, rfl, e3, rfl, ?_⟩
  simp only [iv_of]
  rw [iov_stream_scatter data1 _ (cts_encrypt_length E _ _),
    iov_stream_scatter data2 _ (cts_encrypt_length E _ _),
    iov_stream_scatter data _ (cts_encrypt_length E _ _), h1, h2]
  exact cts_chain_swapped E iv (iov_stream data) s hs h32 hL

/-- C3, witness: the toy primitive, a fresh 16-byte key, a zero IV, a 70-byte
plaintext and the split point 32. -/
theorem C3_chaining_swapped_witness :
    ∃ r1 r2 r, krb5int_aes_encrypt toyImpl toyMalloc toyKey (some zeroBlock)
          [⟨false, List.replicate 32 3⟩] = some r1 ∧ r1.ret = 0
      ∧ krb5int_aes_encrypt toyImpl none r1.key r1.ivec [⟨false, List.replicate 38 3⟩] = some r2
      ∧ r2.ret = 0
      ∧ krb5int_aes_encrypt toyImpl toyMalloc toyKey (some zeroBlock)
          [⟨false, List.replicate 70 3⟩] = some r ∧ r.ret = 0
      ∧ iov_stream r1.data ++ iov_stream r2.data
        = (iov_stream r.data).take (32 - 32) ++ ((iov_stream r.data).drop (32 - 16)).take 16
          ++ ((iov_stream r.data).drop (32 - 32)).take 16 ++ (iov_stream r.data).drop 32 :=
  C3_chaining_swapped toyImpl toyMalloc none toyKey zeroBlock [⟨false, List.replicate 32 3⟩]
    [⟨false, List.replicate 38 3⟩] [⟨false, List.replicate 70 3⟩] 32 toyE
    (toy_enc_keyed toyKey (Or.inl (by decide))) (Or.inr (by decide)) (by decide) (by decide)
    (by decide) (by decide) (by decide)

/-- C3, counterexample: with the toy primitive (which reverses a block), a
fresh key and a zero IV, the 64-byte plaintext `1, 0, ..., 0` encrypted in one
call gives the blocks `0..01, 10..0, 10..0, 0..01`; encrypted as bytes 0..32
and then bytes 32..64 with the IV the first call returned, it gives
`10..0, 0..01` and `10..0, 0..01`. The concatenation differs from the
one-call ciphertext in its first byte. -/
theorem C3_chaining_counterexample :
    Keyed toyImpl toyKey toyE toyE ∧ AllocOK toyMalloc toyKey
      ∧ (krb5int_aes_encrypt toyImpl toyMalloc toyKey (some zeroBlock)
            [⟨false, 1 :: List.replicate 63 0⟩]).map (fun r => (r.ret, iov_stream r.data))
          = some (0, List.replicate 15 0 ++ [1] ++ (1 :: List.replicate 15 0)
              ++ (1 :: List.replicate 15 0) ++ (List.replicate 15 0 ++ [1]))
      ∧ (krb5int_aes_encrypt toyImpl toyMalloc toyKey (some zeroBlock)
            [⟨false, 1 :: List.replicate 31 0⟩]).map
            (fun r => (r.ret, iov_stream r.data, r.ivec.map Subtype.val))
          = some (0, (1 :: List.replicate 15 0) ++ (List.replicate 15 0 ++ [1]),
              some (1 :: List.replicate 15 0))
      ∧ ((krb5int_aes_encrypt toyImpl toyMalloc toyKey (some zeroBlock)
            [⟨false, 1 :: List.replicate 31 0⟩]).bind
            (fun r1 => krb5int_aes_encrypt toyImpl toyMalloc r1.key r1.ivec
              [⟨false, List.replicate 32 0⟩])).map (fun r => (r.ret, iov_stream r.data))
          = some (0, (1 :: List.replicate 15 0) ++ (List.replicate 15 0 ++ [1]))
      ∧ ((1 :: List.replicate 15 0) ++ (List.replicate 15 0 ++ [1])
            ++ ((1 :: List.replicate 15 0) ++ (List.replicate 15 0 ++ [1])) : List Byte)
          ≠ List.replicate 15 0 ++ [1] ++ (1 :: List.replicate 15 0)
              ++ (1 :: List.replicate 15 0) ++ (List.replicate 15 0 ++ [1]) :=
  ⟨toy_keyed toyKey (Or.inl (by decide)), Or.inr (by decide), by decide, by decide, by decide,
    by decide⟩

/-! ## Lemmas: the closed forms block by block -/

theorem spec_C_eq (E : Block → Block) (c : Block) (s : List Byte) :
    ∀ k, spec_C E c s k = cbc_enc_iv E k c s := by
  intro k
  induction k with
  | zero => rfl
  | succ k ih =>
    rw [cbc_enc_iv_add E k 1]
    simp only [spec_C, ih, spec_block, Nat.add_sub_cancel, cbc_enc_iv]

theorem cbc_enc_block (E : Block → Block) (k i : Nat) (c : Block) (s rest : List Byte)
    (h1 : 1 ≤ i) (h2 : i ≤ k) :
    stream_block (cbc_enc E k c s ++ rest) i = (spec_C E c s i).val := by
  obtain ⟨j, hj⟩ : ∃ j, i = j + 1 := ⟨i - 1, by omega⟩
  obtain ⟨m, hm⟩ : ∃ m, k = j + 1 + m := ⟨k - i, by omega⟩
  subst hj
  subst hm
  rw [spec_C_eq, cbc_enc_add E (j + 1) m, cbc_enc_add E j 1, cbc_enc_iv_add E j 1]
  simp only [stream_block, Nat.add_sub_cancel, cbc_enc, cbc_enc_iv, List.append_nil,
    List.append_assoc]
  rw [List.drop_left' (cbc_enc_length E j c s), List.take_left' (block_length _)]

/-- The stream `krb5int_aes_encrypt` leaves for more than 16 bytes, block by
block, in the words of the specification. -/
theorem cts_encrypt_blockwise (E : Block → Block) (iv : Block) (S : List Byte) (n r : Nat)
    (A B : Block) (hL : 16 < S.length) (hn : n = (S.length + 15) / 16)
    (hr : r = if S.length % 16 = 0 then 16 else S.length % 16)
    (hA : A = E (xorblock (spec_C E iv S (n - 2)) (spec_block S (n - 1))))
    (hB : B = E (xorblock A (spec_block S n))) :
    (∀ i, 1 ≤ i → i ≤ n - 2 → stream_block (cts_encrypt E iv S) i = (spec_C E iv S i).val)
      ∧ stream_block (cts_encrypt E iv S) (n - 1) = B.val
      ∧ (cts_encrypt E iv S).drop (16 * (n - 1)) = A.val.take r
      ∧ cts_encrypt_iv E iv S = B := by
  obtain ⟨k, h1, h2⟩ := multi_of_gt S.length hL
  have hnk : n = k + 2 := by omega
  subst hnk
  have hrk : r = S.length - (16 * k + 16) := by
    rw [hr]; split <;> omega
  have e1 : k + 2 - 2 = k := rfl
  have e2 : k + 2 - 1 = k + 1 := rfl
  have e3 : 16 * (k + 1) = 16 * k + 16 := by omega
  simp only [e1, e2, spec_block, Nat.add_sub_cancel, spec_C_eq, e3] at hA hB
  rw [cts_encrypt_multi E iv S k h1 h2, cts_encrypt_iv_multi E iv S k h1 h2, ← hA, ← hB, ← hrk]
  refine ⟨?_, ?_, ?_, rfl⟩
  · intro i hi1 hi2
    rw [List.append_assoc]
    exact cbc_enc_block E k i iv S _ hi1 hi2
  · simp only [stream_block, e2, Nat.add_sub_cancel, List.append_assoc]
    rw [List.drop_left' (cbc_enc_length E k iv S), List.take_left' (block_length _)]
  · simp only [e2, e3, List.append_assoc]
    rw [drop_pre_add _ _ _ 16 (cbc_enc_length E k iv S), List.drop_left' (block_length _)]

/-- C4: for every key, starting IV `C_0` (zero if absent) and plaintext of
length L > 16, with n = ceil(L/16) and r = L mod 16 (16 when L is a multiple
of 16), `krb5int_aes_encrypt` returns 0 and its output holds at each position
i = 1..n-2 the block `C_i = Encrypt(C_{i-1} XOR P_i)`, at position n-1 the
full block `B = Encrypt(A XOR pad16(P_n))`, and at position n the first r
bytes of `A = Encrypt(C_{n-2} XOR P_{n-1})`. -/
theorem C4_encrypt_output (P : AesImpl) (malloc : Option aes_key_info_cache) (key : krb5_key)
    (ivec : Option Block) (data : List krb5_crypto_iov) (E : Block → Block) (n r : Nat)
    (A B : Block) (hK : EncKeyed P key E) (hAlloc : AllocOK malloc key)
    (hL : 16 < (iov_stream data).length) (hn : n = ((iov_stream data).length + 15) / 16)
    (hr : r = if (iov_stream data).length % 16 = 0 then 16 else (iov_stream data).length % 16)
    (hA : A = E (xorblock (spec_C E (iv_of ivec) (iov_stream data) (n - 2))
      (spec_block (iov_stream data) (n - 1))))
    (hB : B = E (xorblock A (spec_block (iov_stream data) n))) :
    ∃ res, krb5int_aes_encrypt P malloc key ivec data = some res ∧ res.ret = 0
      ∧ (∀ i, 1 ≤ i → i ≤ n - 2 →
          stream_block (iov_stream res.data) i
            = (spec_C E (iv_of ivec) (iov_stream data) i).val)
      ∧ stream_block (iov_stream res.data) (n - 1) = B.val
      ∧ (iov_stream res.data).drop (16 * (n - 1)) = A.val.take r := by
  obtain ⟨key1, e1, _, _⟩ := encrypt_eq P malloc key ivec data E hK hAlloc
  obtain ⟨h1, h2, h3, _⟩ :=
    cts_encrypt_blockwise E (iv_of ivec) (iov_stream data) n r A B hL hn hr hA hB
  refine ⟨_, e1, rfl, ?_⟩
  simp only [iov_stream_scatter data _ (cts_encrypt_length E _ _)]
  exact ⟨h1, h2, h3⟩

/-- C4, witness: the toy primitive, a fresh 16-byte key, no IV and a 53-byte
plaintext (n = 4 blocks, r = 5). -/
theorem C4_encrypt_output_witness :
    ∃ res, krb5int_aes_encrypt toyImpl toyMalloc toyKey none
        [⟨false, List.replicate 50 2 ++ [1, 2, 3]⟩] = some res ∧ res.ret = 0
      ∧ (∀ i, 1 ≤ i → i ≤ 4 - 2 →
          stream_block (iov_stream res.data) i
            = (spec_C toyE (iv_of none)
                (iov_stream [⟨false, List.replicate 50 2 ++ [1, 2, 3]⟩]) i).val)
      ∧ stream_block (iov_stream res.data) (4 - 1)
          = (toyE (xorblock
              (toyE (xorblock
                (spec_C toyE (iv_of none)
                  (iov_stream [⟨false, List.replicate 50 2 ++ [1, 2, 3]⟩]) (4 - 2))
                (spec_block (iov_stream [⟨false, List.replicate 50 2 ++ [1, 2, 3]⟩]) (4 - 1))))
              (spec_block (iov_stream [⟨false, List.replicate 50 2 ++ [1, 2, 3]⟩]) 4))).val
      ∧ (iov_stream res.data).drop (16 * (4 - 1))
          = (toyE (xorblock
                (spec_C toyE (iv_of none)
                  (iov_stream [⟨false, List.replicate 50 2 ++ [1, 2, 3]⟩]) (4 - 2))
                (spec_block (iov_stream [⟨false, List.replicate 50 2 ++ [1, 2, 3]⟩])
                  (4 - 1)))).val.take 5 :=
  C4_encrypt_output toyImpl toyMalloc toyKey none
    [⟨false, List.replicate 50 2 ++ [1, 2, 3]⟩] toyE 4 5 _ _
    (toy_enc_keyed toyKey (Or.inl (by decide))) (Or.inr (by decide)) (by decide) (by decide)
    (by decide) rfl rfl

theorem cts_decrypt_length (D : Block → Block) (iv : Block) (s : List Byte) :
    (cts_decrypt D iv s).length = s.length := by
  by_cases h1 : (s.length + BLOCK_SIZE - 1) / BLOCK_SIZE = 1
  · simp only [cts_decrypt, h1, if_true, List.length_take, block_length]
    simp only [BLOCK_SIZE] at h1
    omega
  · by_cases h2 : (s.length + BLOCK_SIZE - 1) / BLOCK_SIZE > 1
    · simp only [cts_decrypt, h1, h2, if_false, if_true, List.length_append, cbc_dec_length,
        List.length_take, block_length]
      simp only [BLOCK_SIZE] at h1 h2 ⊢
      omega
    · simp only [cts_decrypt, h1, h2, if_false]

theorem cbc_dec_add (D : Block → Block) :
    ∀ (j k : Nat) (c : Block) (s : List Byte),
      cbc_dec D (j + k) c s
        = cbc_dec D j c s ++ cbc_dec D k (cbc_dec_iv j c s) (s.drop (16 * j)) := by
  intro j
  induction j with
  | zero => intro k c s; simp [cbc_dec, cbc_dec_iv]
  | succ j ih =>
    intro k c s
    have e : j + 1 + k = (j + k) + 1 := by omega
    rw [e]
    simp only [cbc_dec, cbc_dec_iv, ih, List.append_assoc, BLOCK_SIZE, List.drop_drop]
    have e2 : 16 * j + 16 = 16 * (j + 1) := by omega
    have e3 : 16 + 16 * j = 16 * (j + 1) := by omega
    simp only [e2, e3]

theorem cbc_dec_iv_eq : ∀ (k : Nat) (c : Block) (s : List Byte),
    cbc_dec_iv k c s = spec_Cin c s k := by
  intro k
  induction k with
  | zero => intro c s; rfl
  | succ k ih =>
    intro c s
    simp only [cbc_dec_iv, ih, spec_Cin, spec_block, BLOCK_SIZE, Nat.add_sub_cancel,
      List.drop_drop]
    by_cases hk : k = 0
    · subst hk; simp
    · have e : 16 + 16 * (k - 1) = 16 * k := by omega
      simp [hk, e]

theorem cbc_dec_block (D : Block → Block) (k i : Nat) (c : Block) (s rest : List Byte)
    (h1 : 1 ≤ i) (h2 : i ≤ k) :
    stream_block (cbc_dec D k c s ++ rest) i
      = (xorblock (D (spec_block s i)) (spec_Cin c s (i - 1))).val := by
  obtain ⟨j, hj⟩ : ∃ j, i = j + 1 := ⟨i - 1, by omega⟩
  obtain ⟨m, hm⟩ : ∃ m, k = j + 1 + m := ⟨k - i, by omega⟩
  subst hj
  subst hm
  rw [cbc_dec_add D (j + 1) m, cbc_dec_add D j 1]
  simp only [stream_block, Nat.add_sub_cancel, cbc_dec, List.append_nil,
    List.append_assoc, cbc_dec_iv_eq, spec_block]
  rw [List.drop_left' (cbc_dec_length D j c s), List.take_left' (block_length _)]

theorem zipWith_xor_zeros : ∀ (a : List Byte) (m : Nat), a.length ≤ m →
    List.zipWith (fun x y => x ^^^ y) a (List.replicate m 0) = a
  | [], _, _ => by simp
  | x :: a, 0, h => by simp at h
  | x :: a, m + 1, h => by
    have h2 : a.length ≤ m := by simpa using h
    simp only [List.replicate_succ, List.zipWith_cons_cons, zipWith_xor_zeros a m h2]
    rw [byte_xor_zero]

/-- The block rebuilt by decryption: the transmitted bytes followed by the
trailing bytes of `D1`. -/
theorem memcpy_steal_val (D1 : Block) (Ain : List Byte) (r : Nat) (hr : Ain.length = r)
    (h16 : r ≤ 16) :
    (memcpy_block (xorblock D1 (pad16 Ain)) (pad16 Ain) r).val = Ain ++ D1.val.drop r := by
  show (pad16 Ain).val.take r ++ (xorblock D1 (pad16 Ain)).val.drop r = _
  rw [xorblock_val, pad16_short Ain (by omega), List.drop_zipWith, List.drop_left' hr,
    List.take_left' hr, hr,
    zipWith_xor_zeros _ _ (by simp only [List.length_drop, block_length]; omega)]

/-- The stream `krb5int_aes_decrypt` leaves for more than 16 bytes, block by
block, in the words of the specification. -/
theorem cts_decrypt_blockwise (D : Block → Block) (iv : Block) (S : List Byte) (n r : Nat)
    (Bin D1 Afull : Block) (Ain : List Byte) (hL : 16 < S.length)
    (hn : n = (S.length + 15) / 16)
    (hr : r = if S.length % 16 = 0 then 16 else S.length % 16)
    (hBin : Bin.val = stream_block S (n - 1)) (hAin : Ain = S.drop (16 * (n - 1)))
    (hD1 : D1 = D Bin) (hAfull : Afull.val = Ain ++ D1.val.drop r) :
    (∀ i, 1 ≤ i → i ≤ n - 2 →
        stream_block (cts_decrypt D iv S) i
          = (xorblock (D (spec_block S i)) (spec_Cin iv S (i - 1))).val)
      ∧ stream_block (cts_decrypt D iv S) (n - 1)
          = (xorblock (D Afull) (spec_Cin iv S (n - 2))).val
      ∧ (cts_decrypt D iv S).drop (16 * (n - 1)) = (xorblock D1 (pad16 Ain)).val.take r
      ∧ cts_decrypt_iv iv S = Bin := by
  obtain ⟨k, h1, h2⟩ := multi_of_gt S.length hL
  have hnk : n = k + 2 := by omega
  subst hnk
  have hrk : S.length - (16 * k + 16) = r := by
    rw [hr]; split <;> omega
  have e1 : k + 2 - 2 = k := rfl
  have e2 : k + 2 - 1 = k + 1 := rfl
  have e3 : 16 * (k + 1) = 16 * k + 16 := by omega
  simp only [e1, e2, e3, stream_block, Nat.add_sub_cancel] at hBin hAin ⊢
  have hB : pad16 (S.drop (16 * k)) = Bin := by
    apply Subtype.ext
    rw [hBin, pad16_full _ (by simp only [List.length_drop]; omega)]
  have hAl : Ain.length = r := by rw [hAin, List.length_drop, hrk]
  have hAf : memcpy_block (xorblock D1 (pad16 Ain)) (pad16 Ain) r = Afull := by
    apply Subtype.ext
    rw [hAfull, memcpy_steal_val D1 Ain r hAl (by omega)]
  rw [cts_decrypt_multi D iv S k h1 h2, cts_decrypt_iv_multi iv S k h1 h2, hrk, hB, ← hAin,
    ← hD1, hAf, cbc_dec_iv_eq]
  refine ⟨?_, ?_, ?_, rfl⟩
  · intro i hi1 hi2
    rw [List.append_assoc]
    exact cbc_dec_block D k i iv S _ hi1 hi2
  · simp only [List.append_assoc]
    rw [List.drop_left' (cbc_dec_length D k iv S), List.take_left' (block_length _)]
  · simp only [List.append_assoc]
    rw [drop_pre_add _ _ _ 16 (cbc_dec_length D k iv S), List.drop_left' (block_length _)]

/-- C5: for every key, starting IV `C_0` (zero if absent) and every input of
length L > 16, with n = ceil(L/16), r = L mod 16 (16 when L is a multiple of
16), `Bin` the 16 bytes at position n-1 and `Ain` the r bytes at position n,
`krb5int_aes_decrypt` returns 0 and its output holds at each position
i = 1..n-2 the block `Decrypt(C_i) XOR C_{i-1}`, at position n-1 the block
`Decrypt(A_full) XOR C_{n-2}`, where `A_full` is `Ain` followed by the
trailing 16-r bytes of `D1 = Decrypt(Bin)`, and at position n the first r
bytes of `D1 XOR pad16(Ain)`. -/
theorem C5_decrypt_output (P : AesImpl) (malloc : Option aes_key_info_cache) (key : krb5_key)
    (ivec : Option Block) (data : List krb5_crypto_iov) (D : Block → Block) (n r : Nat)
    (Bin D1 Afull : Block) (Ain : List Byte) (hK : DecKeyed P key D)
    (hAlloc : AllocOK malloc key) (hL : 16 < (iov_stream data).length)
    (hn : n = ((iov_stream data).length + 15) / 16)
    (hr : r = if (iov_stream data).length % 16 = 0 then 16 else (iov_stream data).length % 16)
    (hBin : Bin.val = stream_block (iov_stream data) (n - 1))
    (hAin : Ain = (iov_stream data).drop (16 * (n - 1)))
    (hD1 : D1 = D Bin) (hAfull : Afull.val = Ain ++ D1.val.drop r) :
    ∃ res, krb5int_aes_decrypt P malloc key ivec data = some res ∧ res.ret = 0
      ∧ (∀ i, 1 ≤ i → i ≤ n - 2 →
          stream_block (iov_stream res.data) i
            = (xorblock (D (spec_block (iov_stream data) i))
                (spec_Cin (iv_of ivec) (iov_stream data) (i - 1))).val)
      ∧ stream_block (iov_stream res.data) (n - 1)
          = (xorblock (D Afull) (spec_Cin (iv_of ivec) (iov_stream data) (n - 2))).val
      ∧ (iov_stream res.data).drop (16 * (n - 1)) = (xorblock D1 (pad16 Ain)).val.take r := by
  obtain ⟨key1, e1, _, _⟩ := decrypt_eq P malloc key ivec data D hK hAlloc
  obtain ⟨h1, h2, h3, _⟩ := cts_decrypt_blockwise D (iv_of ivec) (iov_stream data) n r Bin D1
    Afull Ain hL hn hr hBin hAin hD1 hAfull
  have hlen : (cts_decrypt D (iv_of ivec) (iov_stream data)).length
      = (iov_stream data).length := cts_decrypt_length D _ _
  refine ⟨_, e1, rfl, ?_⟩
  simp only [iov_stream_scatter data _ hlen]
  exact ⟨h1, h2, h3⟩

/-- C5, witness: the toy primitive, a fresh 16-byte key, a zero IV and a
35-byte input (n = 3 blocks, r = 3). -/
theorem C5_decrypt_output_witness :
    ∃ res, krb5int_aes_decrypt toyImpl toyMalloc toyKey (some zeroBlock)
        [⟨false, List.replicate 32 4 ++ [1, 2, 3]⟩] = some res ∧ res.ret = 0
      ∧ (∀ i, 1 ≤ i → i ≤ 3 - 2 →
          stream_block (iov_stream res.data) i
            = (xorblock (toyE (spec_block (iov_stream [⟨false, List.replicate 32 4 ++ [1, 2, 3]⟩]) i))
                (spec_Cin (iv_of (some zeroBlock))
                  (iov_stream [⟨false, List.replicate 32 4 ++ [1, 2, 3]⟩]) (i - 1))).val)
      ∧ stream_block (iov_stream res.data) (3 - 1)
          = (xorblock (toyE (memcpy_block (toyE (pad16 (List.replicate 16 4))) (pad16 [1, 2, 3]) 3))
              (spec_Cin (iv_of (some zeroBlock))
                (iov_stream [⟨false, List.replicate 32 4 ++ [1, 2, 3]⟩]) (3 - 2))).val
      ∧ (iov_stream res.data).drop (16 * (3 - 1))
          = (xorblock (toyE (pad16 (List.replicate 16 4))) (pad16 [1, 2, 3])).val.take 3 :=
  C5_decrypt_output toyImpl toyMalloc toyKey (some zeroBlock)
    [⟨false, List.replicate 32 4 ++ [1, 2, 3]⟩] toyE 3 3 (pad16 (List.replicate 16 4))
    (toyE (pad16 (List.replicate 16 4)))
    (memcpy_block (toyE (pad16 (List.replicate 16 4))) (pad16 [1, 2, 3]) 3) [1, 2, 3]
    (toy_dec_keyed toyKey (Or.inl (by decide))) (Or.inr (by decide)) (by decide) (by decide)
    (by decide) (by decide) (by decide) rfl (by decide)

/-! ## Lemmas: one block, no block -/

theorem cts_encrypt_single (E : Block → Block) (iv p : Block) :
    cts_encrypt E iv p.val = (E p).val := by
  have hn : (p.val.length + BLOCK_SIZE - 1) / BLOCK_SIZE = 1 := by
    simp [block_length, BLOCK_SIZE]
  simp only [cts_encrypt, hn, if_true, pad16_val, block_length]
  exact block_take _ 16 (Nat.le_refl _)

theorem cts_decrypt_single (D : Block → Block) (iv c : Block) :
    cts_decrypt D iv c.val = (D c).val := by
  have hn : (c.val.length + BLOCK_SIZE - 1) / BLOCK_SIZE = 1 := by
    simp [block_length, BLOCK_SIZE]
  simp only [cts_decrypt, hn, if_true, pad16_val, block_length]
  exact block_take _ 16 (Nat.le_refl _)

theorem cts_iv_short (E : Block → Block) (iv : Block) (s : List Byte) (h : s.length ≤ 16) :
    cts_encrypt_iv E iv s = iv ∧ cts_decrypt_iv iv s = iv := by
  have hn : ¬ ((s.length + BLOCK_SIZE - 1) / BLOCK_SIZE > 1) := by
    simp only [BLOCK_SIZE]; omega
  simp only [cts_encrypt_iv, cts_decrypt_iv, hn, if_false, and_self]

theorem option_map_iv_of (ivec : Option Block) : ivec.map (fun _ => iv_of ivec) = ivec := by
  cases ivec <;> rfl

/-- C6: for every key, every 16-byte plaintext `p` and every two IVs (present
with any bytes, or absent), `krb5int_aes_encrypt` returns 0 and leaves the
same 16-byte ciphertext, the direct block encryption `Encrypt p`; and
`krb5int_aes_decrypt` of a 16-byte input `p` leaves `Decrypt p` whatever the
IV. -/
theorem C6_single_block_ignores_iv (P : AesImpl) (malloc : Option aes_key_info_cache)
    (key : krb5_key) (iv1 iv2 : Option Block) (data : List krb5_crypto_iov) (p : Block)
    (E D : Block → Block) (hK : Keyed P key E D) (hAlloc : AllocOK malloc key)
    (hp : iov_stream data = p.val) :
    (∃ r1 r2, krb5int_aes_encrypt P malloc key iv1 data = some r1
        ∧ krb5int_aes_encrypt P malloc key iv2 data = some r2 ∧ r1.ret = 0 ∧ r2.ret = 0
        ∧ iov_stream r1.data = (E p).val ∧ iov_stream r2.data = (E p).val
        ∧ r1.data = r2.data)
      ∧ (∃ r1 r2, krb5int_aes_decrypt P malloc key iv1 data = some r1
        ∧ krb5int_aes_decrypt P malloc key iv2 data = some r2 ∧ r1.ret = 0 ∧ r2.ret = 0
        ∧ iov_stream r1.data = (D p).val ∧ iov_stream r2.data = (D p).val
        ∧ r1.data = r2.data) := by
  obtain ⟨_, e1, _, _⟩ := encrypt_eq P malloc key iv1 data E hK.enc hAlloc
  obtain ⟨_, e2, _, _⟩ := encrypt_eq P malloc key iv2 data E hK.enc hAlloc
  obtain ⟨_, d1, _, _⟩ := decrypt_eq P malloc key iv1 data D hK.dec hAlloc
  obtain ⟨_, d2, _, _⟩ := decrypt_eq P malloc key iv2 data D hK.dec hAlloc
  have hl : ∀ b : Block, b.val.length = (iov_stream data).length := by
    intro b; rw [hp, block_length, block_length]
  refine ⟨⟨_, _, e1, e2, rfl, rfl, ?_, ?_, ?_⟩, ⟨_, _, d1, d2, rfl, rfl, ?_, ?_, ?_⟩⟩
  · simp only [hp, cts_encrypt_single, iov_stream_scatter data _ (hl _)]
  · simp only [hp, cts_encrypt_single, iov_stream_scatter data _ (hl _)]
  · simp only [hp, cts_encrypt_single]
  · simp only [hp, cts_decrypt_single, iov_stream_scatter data _ (hl _)]
  · simp only [hp, cts_decrypt_single, iov_stream_scatter data _ (hl _)]
  · simp only [hp, cts_decrypt_single]

/-- C6, witness: the toy primitive, a fresh 16-byte key, the 16-byte block
`1, 0, ..., 0` in two data regions, once with no IV and once with the IV
`0, ..., 0, 1`. -/
theorem C6_single_block_ignores_iv_witness :
    (∃ r1 r2, krb5int_aes_encrypt toyImpl toyMalloc toyKey none
          [⟨false, [1, 0, 0]⟩, ⟨false, List.replicate 13 0⟩] = some r1
        ∧ krb5int_aes_encrypt toyImpl toyMalloc toyKey
          (some (toyE (pad16 [1]))) [⟨false, [1, 0, 0]⟩, ⟨false, List.replicate 13 0⟩] = some r2
        ∧ r1.ret = 0 ∧ r2.ret = 0
        ∧ iov_stream r1.data = (toyE (pad16 [1])).val
        ∧ iov_stream r2.data = (toyE (pad16 [1])).val ∧ r1.data = r2.data)
      ∧ (∃ r1 r2, krb5int_aes_decrypt toyImpl toyMalloc toyKey none
          [⟨false, [1, 0, 0]⟩, ⟨false, List.replicate 13 0⟩] = some r1
        ∧ krb5int_aes_decrypt toyImpl toyMalloc toyKey
          (some (toyE (pad16 [1]))) [⟨false, [1, 0, 0]⟩, ⟨false, List.replicate 13 0⟩] = some r2
        ∧ r1.ret = 0 ∧ r2.ret = 0
        ∧ iov_stream r1.data = (toyE (pad16 [1])).val
        ∧ iov_stream r2.data = (toyE (pad16 [1])).val ∧ r1.data = r2.data) :=
  C6_single_block_ignores_iv toyImpl toyMalloc toyKey none (some (toyE (pad16 [1])))
    [⟨false, [1, 0, 0]⟩, ⟨false, List.replicate 13 0⟩] (pad16 [1]) toyE toyE
    (toy_keyed toyKey (Or.inl (by decide))) (Or.inr (by decide)) (by decide)

/-- C7: for every key, every IV and every buffer list whose total data length
is 0, `krb5int_aes_encrypt` and `krb5int_aes_decrypt` return 0 and leave
every buffer byte and every IV byte as they were. -/
theorem C7_zero_length_noop (P : AesImpl) (malloc : Option aes_key_info_cache)
    (key : krb5_key) (ivec : Option Block) (data : List krb5_crypto_iov)
    (E D : Block → Block) (hK : Keyed P key E D) (hAlloc : AllocOK malloc key)
    (h0 : iov_total_length data = 0) :
    (∃ r, krb5int_aes_encrypt P malloc key ivec data = some r ∧ r.ret = 0
        ∧ r.data = data ∧ r.ivec = ivec)
      ∧ (∃ r, krb5int_aes_decrypt P malloc key ivec data = some r ∧ r.ret = 0
        ∧ r.data = data ∧ r.ivec = ivec) := by
  obtain ⟨_, e1, _, _⟩ := encrypt_eq P malloc key ivec data E hK.enc hAlloc
  obtain ⟨_, d1, _, _⟩ := decrypt_eq P malloc key ivec data D hK.dec hAlloc
  rw [iov_total_length_eq] at h0
  have hs : iov_stream data = [] := List.eq_nil_of_length_eq_zero h0
  have hc : cts_encrypt E (iv_of ivec) [] = [] := by simp [cts_encrypt, BLOCK_SIZE]
  have hd : cts_decrypt D (iv_of ivec) [] = [] := by simp [cts_decrypt, BLOCK_SIZE]
  have hiv := cts_iv_short E (iv_of ivec) [] (by simp)
  refine ⟨⟨_, e1, rfl, ?_, ?_⟩, ⟨_, d1, rfl, ?_, ?_⟩⟩
  · simp only [hs, hc]
    rw [← hs, iov_scatter_stream]
  · simp only [hs, hiv.1, option_map_iv_of]
  · simp only [hs, hd]
    rw [← hs, iov_scatter_stream]
  · simp only [hs, hiv.2, option_map_iv_of]

/-- C7, witness: the toy primitive, a fresh 16-byte key, an IV `1, 0, ..., 0`
and a buffer list of one sign-only region and one empty data region. -/
theorem C7_zero_length_noop_witness :
    (∃ r, krb5int_aes_encrypt toyImpl toyMalloc toyKey (some (pad16 [1]))
          [⟨true, [5, 6]⟩, ⟨false, []⟩] = some r ∧ r.ret = 0
        ∧ r.data = [⟨true, [5, 6]⟩, ⟨false, []⟩] ∧ r.ivec = some (pad16 [1]))
      ∧ (∃ r, krb5int_aes_decrypt toyImpl toyMalloc toyKey (some (pad16 [1]))
          [⟨true, [5, 6]⟩, ⟨false, []⟩] = some r ∧ r.ret = 0
        ∧ r.data = [⟨true, [5, 6]⟩, ⟨false, []⟩] ∧ r.ivec = some (pad16 [1])) :=
  C7_zero_length_noop toyImpl toyMalloc toyKey (some (pad16 [1]))
    [⟨true, [5, 6]⟩, ⟨false, []⟩] toyE toyE
    (toy_keyed toyKey (Or.inl (by decide))) (Or.inr (by decide)) (by decide)

/-! ## Lemmas: zero blocks, the returned IV -/

theorem xorblock_zero (a : Block) : xorblock a zeroBlock = a := by
  apply Subtype.ext
  rw [xorblock_val]
  exact zipWith_xor_zeros a.val 16 (by rw [block_length])

theorem cts_encrypt_seventeen_zeros (E : Block → Block) :
    cts_encrypt E zeroBlock (List.replicate 17 0)
      = (E (E zeroBlock)).val ++ (E zeroBlock).val.take 1 := by
  have e1 : pad16 (List.replicate 17 0) = zeroBlock := by decide
  have e2 : pad16 [0] = zeroBlock := by decide
  have e3 : (List.replicate 17 0 : List Byte).drop (16 * 0 + 16) = [0] := by decide
  have e4 : (List.replicate 17 0 : List Byte).drop (16 * 0) = List.replicate 17 0 := rfl
  have e5 : (List.replicate 17 0 : List Byte).length - (16 * 0 + 16) = 1 := by decide
  rw [cts_encrypt_multi E zeroBlock _ 0 (by decide) (by decide)]
  simp only [cbc_enc, cbc_enc_iv, e1, e2, e3, e4, e5, xorblock_zero, List.nil_append]

/-- Decrypting what encryption left returns the IV encryption returned. -/
theorem cts_decrypt_iv_encrypt (E : Block → Block) (iv : Block) (S : List Byte)
    (hL : 16 < S.length) :
    cts_decrypt_iv iv (cts_encrypt E iv S) = cts_encrypt_iv E iv S := by
  obtain ⟨k, h1, h2⟩ := multi_of_gt S.length hL
  have hlen := cts_encrypt_length E iv S
  rw [cts_decrypt_iv_multi iv _ k (by rw [hlen]; exact h1) (by rw [hlen]; exact h2),
    cts_encrypt_multi E iv S k h1 h2, cts_encrypt_iv_multi E iv S k h1 h2, List.append_assoc,
    List.drop_left' (cbc_enc_length E k iv S), pad16_block_append]

/-- C8: with a key of 16 zero bytes, an IV of 16 zero bytes and a plaintext
of 17 zero bytes, `krb5int_aes_encrypt` returns 0 and leaves 17 bytes whose
first 16 are `B = Encrypt(A XOR 0^16)` with `A = Encrypt(0^16)`, that is
`Encrypt(Encrypt(0^16))`, and whose 17th is the first byte of `A`; and, given
`Decrypt (Encrypt x) = x`, `krb5int_aes_decrypt` of exactly these 17 bytes
with the same key and zero IV returns 0 and leaves 17 zero bytes. -/
theorem C8_seventeen_zero_bytes (P : AesImpl) (malloc malloc2 : Option aes_key_info_cache)
    (key : krb5_key) (data : List krb5_crypto_iov) (E D : Block → Block)
    (hkey : key.keyblock = List.replicate 16 0)
    (hdata : iov_stream data = List.replicate 17 0)
    (hK : Keyed P key E D) (hAlloc : AllocOK malloc key) (hDE : ∀ x, D (E x) = x) :
    ∃ r1 r2, krb5int_aes_encrypt P malloc key (some zeroBlock) data = some r1 ∧ r1.ret = 0
      ∧ (iov_stream r1.data).length = 17
      ∧ (iov_stream r1.data).take 16 = (E (xorblock (E zeroBlock) zeroBlock)).val
      ∧ E (xorblock (E zeroBlock) zeroBlock) = E (E zeroBlock)
      ∧ (iov_stream r1.data).drop 16 = (E zeroBlock).val.take 1
      ∧ krb5int_aes_decrypt P malloc2 r1.key (some zeroBlock) r1.data = some r2 ∧ r2.ret = 0
      ∧ iov_stream r2.data = List.replicate 17 0 := by
  have _ := hkey
  obtain ⟨key1, e1, _, _⟩ := encrypt_eq P malloc key (some zeroBlock) data E hK.enc hAlloc
  obtain ⟨r1, r2, f1, _, _, f2, hr2, hd⟩ := round_trip_calls P malloc malloc2 key
    (some zeroBlock) data E D hK hAlloc hDE (Or.inr (by rw [hdata]; decide))
  rw [e1] at f1
  cases f1
  have hs : iov_stream (iov_scatter data (cts_encrypt E (iv_of (some zeroBlock))
      (iov_stream data))) = (E (E zeroBlock)).val ++ (E zeroBlock).val.take 1 := by
    rw [iov_stream_scatter data _ (cts_encrypt_length E _ _), hdata]
    exact cts_encrypt_seventeen_zeros E
  refine ⟨_, r2, e1, rfl, ?_, ?_, ?_, ?_, f2, hr2, ?_⟩
  · rw [hs]
    simp [block_length]
  · simp only [hs, xorblock_zero, List.take_left' (block_length _)]
  · rw [xorblock_zero]
  · simp only [hs, List.drop_left' (block_length _)]
  · rw [hd, hdata]

/-- C8, witness: the toy primitive, the fresh key of 16 zero bytes and the
17 zero bytes in one data region. -/
theorem C8_seventeen_zero_bytes_witness :
    ∃ r1 r2, krb5int_aes_encrypt toyImpl toyMalloc toyKey (some zeroBlock)
        [⟨false, List.replicate 17 0⟩] = some r1 ∧ r1.ret = 0
      ∧ (iov_stream r1.data).length = 17
      ∧ (iov_stream r1.data).take 16 = (toyE (xorblock (toyE zeroBlock) zeroBlock)).val
      ∧ toyE (xorblock (toyE zeroBlock) zeroBlock) = toyE (toyE zeroBlock)
      ∧ (iov_stream r1.data).drop 16 = (toyE zeroBlock).val.take 1
      ∧ krb5int_aes_decrypt toyImpl none r1.key (some zeroBlock) r1.data = some r2
      ∧ r2.ret = 0
      ∧ iov_stream r2.data = List.replicate 17 0 :=
  C8_seventeen_zero_bytes toyImpl toyMalloc none toyKey [⟨false, List.replicate 17 0⟩] toyE toyE
    rfl (by decide) (toy_keyed toyKey (Or.inl (by decide))) (Or.inr (by decide)) toyE_toyE

/-! ## Lemmas: the absent IV -/

theorem encrypt_body_absent_iv (P : AesImpl) (ctx : aes_ctx) (data : List krb5_crypto_iov) :
    (encrypt_body P ctx none data).map Prod.snd
      = (encrypt_body P ctx (some zeroBlock) data).map Prod.snd := by
  unfold encrypt_body
  dsimp only
  split_ifs
  · cases enc P (k5_iov_cursor_get (k5_iov_cursor_init data)).2 ctx <;> rfl
  · cases encrypt_loop P ctx ((iov_total_length data + BLOCK_SIZE - 1) / BLOCK_SIZE - 2)
      zeroBlock (k5_iov_cursor_init data) with
    | none => rfl
    | some p =>
      dsimp only
      cases enc P (xorblock p.1 (k5_iov_cursor_get p.2).2) ctx with
      | none => rfl
      | some t =>
        dsimp only
        cases enc P (xorblock t (k5_iov_cursor_get (k5_iov_cursor_get p.2).1).2) ctx <;> rfl
  · rfl

theorem decrypt_body_absent_iv (P : AesImpl) (ctx : aes_ctx) (data : List krb5_crypto_iov) :
    (decrypt_body P ctx none data).map Prod.snd
      = (decrypt_body P ctx (some zeroBlock) data).map Prod.snd := by
  unfold decrypt_body
  dsimp only
  by_cases h1 : (iov_total_length data + BLOCK_SIZE - 1) / BLOCK_SIZE = 1
  · simp only [h1, if_true]
    cases dec P (k5_iov_cursor_get (k5_iov_cursor_init data)).2 ctx <;> rfl
  · by_cases h2 : (iov_total_length data + BLOCK_SIZE - 1) / BLOCK_SIZE > 1
    · simp only [h1, h2, if_true, if_false]
      cases decrypt_loop P ctx ((iov_total_length data + BLOCK_SIZE - 1) / BLOCK_SIZE - 2)
        zeroBlock (k5_iov_cursor_init data) with
      | none => rfl
      | some p =>
        dsimp only
        cases dec P (k5_iov_cursor_get p.2).2 ctx with
        | none => rfl
        | some t =>
          dsimp only
          cases dec P (memcpy_block (xorblock t (k5_iov_cursor_get (k5_iov_cursor_get p.2).1).2)
            (k5_iov_cursor_get (k5_iov_cursor_get p.2).1).2
            (if iov_total_length data % BLOCK_SIZE ≠ 0 then iov_total_length data % BLOCK_SIZE
              else BLOCK_SIZE)) ctx <;> rfl
    · simp only [h1, h2, if_false]
      rfl

/-- C9: for every key and every data stream, `krb5int_aes_encrypt` and
`krb5int_aes_decrypt` have the same outcome with no IV (`ivec = NULL`) as
with an IV of 16 zero bytes: the same abort or return, the same returned
code, the same key cache and exactly the same data bytes; and a successful
`aes_init_state` produces such an IV, 16 zero bytes. -/
theorem C9_absent_iv_is_zero_iv (P : AesImpl) (malloc : Option aes_key_info_cache)
    (key : krb5_key) (data : List krb5_crypto_iov) (fresh kb : List Byte) (usage : Int)
    (state : krb5_data) :
    (krb5int_aes_encrypt P malloc key none data).map (fun r => (r.ret, r.key, r.data))
        = (krb5int_aes_encrypt P malloc key (some zeroBlock) data).map
            (fun r => (r.ret, r.key, r.data))
      ∧ (krb5int_aes_decrypt P malloc key none data).map (fun r => (r.ret, r.key, r.data))
        = (krb5int_aes_decrypt P malloc key (some zeroBlock) data).map
            (fun r => (r.ret, r.key, r.data))
      ∧ aes_init_state (some fresh) kb usage state
        = (0, { length := 16, data := some zeroBlock.val }) := by
  refine ⟨?_, ?_, ?_⟩
  · unfold krb5int_aes_encrypt
    cases aes_cache_get malloc key with
    | none => rfl
    | some cache =>
      dsimp only
      cases (if cache.enc_ctx.n_rnd = 0 then P.aes_enc_key key.keyblock cache.enc_ctx
          else some cache.enc_ctx) with
      | none => rfl
      | some ctx =>
        dsimp only
        have h := encrypt_body_absent_iv P ctx data
        cases h1 : encrypt_body P ctx none data with
        | none =>
          cases h2 : encrypt_body P ctx (some zeroBlock) data with
          | none => rfl
          | some q => rw [h1, h2] at h; simp at h
        | some p =>
          cases h2 : encrypt_body P ctx (some zeroBlock) data with
          | none => rw [h1, h2] at h; simp at h
          | some q =>
            rw [h1, h2] at h
            simp only [Option.map_some', Option.some.injEq] at h
            simp only [Option.map_some', h]
  · unfold krb5int_aes_decrypt
    cases aes_cache_get malloc key with
    | none => rfl
    | some cache =>
      dsimp only
      cases (if cache.dec_ctx.n_rnd = 0 then P.aes_dec_key key.keyblock cache.dec_ctx
          else some cache.dec_ctx) with
      | none => rfl
      | some ctx =>
        dsimp only
        have h := decrypt_body_absent_iv P ctx data
        cases h1 : decrypt_body P ctx none data with
        | none =>
          cases h2 : decrypt_body P ctx (some zeroBlock) data with
          | none => rfl
          | some q => rw [h1, h2] at h; simp at h
        | some p =>
          cases h2 : decrypt_body P ctx (some zeroBlock) data with
          | none => rw [h1, h2] at h; simp at h
          | some q =>
            rw [h1, h2] at h
            simp only [Option.map_some', Option.some.injEq] at h
            simp only [Option.map_some', h]
  · rfl

/-- C10: for every key, present IV and plaintext of length L > 16,
`krb5int_aes_encrypt` returns 0 and overwrites the IV buffer with
`B = Encrypt(A XOR pad16(P_n))`, which is exactly the 16 ciphertext bytes
written at position n-1; `krb5int_aes_decrypt` on any input of length L > 16
returns 0 and overwrites the IV buffer with the 16 input bytes at position
n-1; hence decrypting the ciphertext that encrypt produced returns the same
chaining IV that encrypt returned. -/
theorem C10_returned_iv (P : AesImpl) (malloc malloc2 : Option aes_key_info_cache)
    (key : krb5_key) (iv : Block) (data : List krb5_crypto_iov) (E D : Block → Block)
    (n : Nat) (A B : Block) (hK : Keyed P key E D) (hAlloc : AllocOK malloc key)
    (hL : 16 < (iov_stream data).length) (hn : n = ((iov_stream data).length + 15) / 16)
    (hA : A = E (xorblock (spec_C E iv (iov_stream data) (n - 2))
      (spec_block (iov_stream data) (n - 1))))
    (hB : B = E (xorblock A (spec_block (iov_stream data) n))) :
    (∃ r1, krb5int_aes_encrypt P malloc key (some iv) data = some r1 ∧ r1.ret = 0
        ∧ r1.ivec = some B ∧ B.val = stream_block (iov_stream r1.data) (n - 1)
        ∧ ∃ r3, krb5int_aes_decrypt P malloc2 r1.key (some iv) r1.data = some r3
          ∧ r3.ret = 0 ∧ r3.ivec = r1.ivec)
      ∧ (∃ r2 Bin, krb5int_aes_decrypt P malloc key (some iv) data = some r2 ∧ r2.ret = 0
        ∧ r2.ivec = some Bin ∧ Bin.val = stream_block (iov_stream data) (n - 1)) := by
  obtain ⟨key1, e1, _, hc1, hD1⟩ := encrypt_eq P malloc key (some iv) data E hK.enc hAlloc
  obtain ⟨_, e3, _, _⟩ := decrypt_eq P malloc2 key1 (some iv)
    (iov_scatter data (cts_encrypt E (iv_of (some iv)) (iov_stream data))) D (hD1 D hK.dec)
    (Or.inl hc1)
  obtain ⟨_, e2, _, _⟩ := decrypt_eq P malloc key (some iv) data D hK.dec hAlloc
  obtain ⟨_, hb2, _, hb4⟩ := cts_encrypt_blockwise E iv (iov_stream data) n _ A B hL hn rfl
    hA hB
  obtain ⟨k, h1, h2⟩ := multi_of_gt (iov_stream data).length hL
  have hnk : n = k + 2 := by omega
  refine ⟨⟨_, e1, rfl, ?_, ?_, _, e3, rfl, ?_⟩, ⟨_, _, e2, rfl, rfl, ?_⟩⟩
  · simp only [iv_of, Option.map_some', hb4]
  · simp only [iv_of, iov_stream_scatter data _ (cts_encrypt_length E _ _), hb2]
  · simp only [iv_of, Option.map_some', iov_stream_scatter data _ (cts_encrypt_length E _ _),
      cts_decrypt_iv_encrypt E iv _ hL]
  · subst hnk
    have e : k + 2 - 1 = k + 1 := rfl
    simp only [iv_of, cts_decrypt_iv_multi iv _ k h1 h2, stream_block, e, Nat.add_sub_cancel]
    exact pad16_full _ (by simp only [List.length_drop]; omega)

/-- C10, witness: the toy primitive, a fresh 16-byte key, a zero IV and a
35-byte stream (n = 3). -/
theorem C10_returned_iv_witness :
    (∃ r1, krb5int_aes_encrypt toyImpl toyMalloc toyKey (some zeroBlock)
          [⟨false, List.replicate 32 4 ++ [1, 2, 3]⟩] = some r1 ∧ r1.ret = 0
        ∧ r1.ivec = some (toyE (xorblock
            (toyE (xorblock
              (spec_C toyE zeroBlock (iov_stream [⟨false, List.replicate 32 4 ++ [1, 2, 3]⟩])
                (3 - 2))
              (spec_block (iov_stream [⟨false, List.replicate 32 4 ++ [1, 2, 3]⟩]) (3 - 1))))
            (spec_block (iov_stream [⟨false, List.replicate 32 4 ++ [1, 2, 3]⟩]) 3)))
        ∧ (toyE (xorblock
            (toyE (xorblock
              (spec_C toyE zeroBlock (iov_stream [⟨false, List.replicate 32 4 ++ [1, 2, 3]⟩])
                (3 - 2))
              (spec_block (iov_stream [⟨false, List.replicate 32 4 ++ [1, 2, 3]⟩]) (3 - 1))))
            (spec_block (iov_stream [⟨false, List.replicate 32 4 ++ [1, 2, 3]⟩]) 3))).val
          = stream_block (iov_stream r1.data) (3 - 1)
        ∧ ∃ r3, krb5int_aes_decrypt toyImpl none r1.key (some zeroBlock) r1.data = some r3
          ∧ r3.ret = 0 ∧ r3.ivec = r1.ivec)
      ∧ (∃ r2 Bin, krb5int_aes_decrypt toyImpl toyMalloc toyKey (some zeroBlock)
          [⟨false, List.replicate 32 4 ++ [1, 2, 3]⟩] = some r2 ∧ r2.ret = 0
        ∧ r2.ivec = some Bin
        ∧ Bin.val
          = stream_block (iov_stream [⟨false, List.replicate 32 4 ++ [1, 2, 3]⟩]) (3 - 1)) :=
  C10_returned_iv toyImpl toyMalloc none toyKey zeroBlock
    [⟨false, List.replicate 32 4 ++ [1, 2, 3]⟩] toyE toyE 3 _ _
    (toy_keyed toyKey (Or.inl (by decide))) (Or.inr (by decide)) (by decide) (by decide)
    rfl rfl

/-! ## Lemmas: the key cache across calls -/

theorem encrypt_loop_congr (P Q : AesImpl) (h : P.aes_enc_blk = Q.aes_enc_blk)
    (ctx : aes_ctx) :
    ∀ (k : Nat) (tmp : Block) (c : iov_cursor),
      encrypt_loop P ctx k tmp c = encrypt_loop Q ctx k tmp c := by
  intro k
  induction k with
  | zero => intro tmp c; rfl
  | succ k ih =>
    intro tmp c
    simp only [encrypt_loop, enc, h, ih]

theorem decrypt_loop_congr (P Q : AesImpl) (h : P.aes_dec_blk = Q.aes_dec_blk)
    (ctx : aes_ctx) :
    ∀ (k : Nat) (tmp : Block) (c : iov_cursor),
      decrypt_loop P ctx k tmp c = decrypt_loop Q ctx k tmp c := by
  intro k
  induction k with
  | zero => intro tmp c; rfl
  | succ k ih =>
    intro tmp c
    simp only [decrypt_loop, dec, h, ih]

/-- A call of `krb5int_aes_encrypt` only uses the encryption half of the
block primitive. -/
theorem encrypt_congr (P Q : AesImpl) (h1 : P.aes_enc_key = Q.aes_enc_key)
    (h2 : P.aes_enc_blk = Q.aes_enc_blk) (malloc : Option aes_key_info_cache)
    (key : krb5_key) (ivec : Option Block) (data : List krb5_crypto_iov) :
    krb5int_aes_encrypt P malloc key ivec data = krb5int_aes_encrypt Q malloc key ivec data := by
  have hb : ∀ ctx, encrypt_body P ctx ivec data = encrypt_body Q ctx ivec data := by
    intro ctx
    simp only [encrypt_body, enc, h2, encrypt_loop_congr P Q h2]
  simp only [krb5int_aes_encrypt, h1, hb]

/-- A call of `krb5int_aes_decrypt` only uses the decryption half of the
block primitive. -/
theorem decrypt_congr (P Q : AesImpl) (h1 : P.aes_dec_key = Q.aes_dec_key)
    (h2 : P.aes_dec_blk = Q.aes_dec_blk) (malloc : Option aes_key_info_cache)
    (key : krb5_key) (ivec : Option Block) (data : List krb5_crypto_iov) :
    krb5int_aes_decrypt P malloc key ivec data = krb5int_aes_decrypt Q malloc key ivec data := by
  have hb : ∀ ctx, decrypt_body P ctx ivec data = decrypt_body Q ctx ivec data := by
    intro ctx
    simp only [decrypt_body, dec, h2, decrypt_loop_congr P Q h2]
  simp only [krb5int_aes_decrypt, h1, hb]

/-- What a returning `krb5int_aes_encrypt` leaves of the key: the key bytes,
and a cache that is the one the call worked on with a new encryption
schedule, or no cache when the allocation failed. -/
theorem encrypt_key (P : AesImpl) (malloc : Option aes_key_info_cache) (key : krb5_key)
    (ivec : Option Block) (data : List krb5_crypto_iov) (r : aes_result)
    (h : krb5int_aes_encrypt P malloc key ivec data = some r) :
    r.key.keyblock = key.keyblock
      ∧ ((aes_cache_get malloc key = none ∧ r.ret = ENOMEM ∧ r.key = key ∧ r.ivec = ivec
            ∧ r.data = data)
        ∨ (∃ cache ctx, aes_cache_get malloc key = some cache ∧ r.ret = 0
            ∧ (if cache.enc_ctx.n_rnd = 0 then P.aes_enc_key key.keyblock cache.enc_ctx
                else some cache.enc_ctx) = some ctx
            ∧ r.key.cache = some { cache with enc_ctx := ctx })) := by
  unfold krb5int_aes_encrypt at h
  cases hc : aes_cache_get malloc key with
  | none =>
    rw [hc] at h
    simp only [Option.some.injEq] at h
    subst h
    exact ⟨rfl, Or.inl ⟨rfl, rfl, rfl, rfl, rfl⟩⟩
  | some cache =>
    rw [hc] at h
    dsimp only at h
    cases hx : (if cache.enc_ctx.n_rnd = 0 then P.aes_enc_key key.keyblock cache.enc_ctx
        else some cache.enc_ctx) with
    | none => rw [hx] at h; simp at h
    | some ctx =>
      rw [hx] at h
      dsimp only at h
      cases hb : encrypt_body P ctx ivec data with
      | none => rw [hb] at h; simp at h
      | some q =>
        rw [hb] at h
        simp only [Option.some.injEq] at h
        subst h
        exact ⟨rfl, Or.inr ⟨cache, ctx, rfl, rfl, hx, rfl⟩⟩

/-- What a returning `krb5int_aes_decrypt` leaves of the key. -/
theorem decrypt_key (P : AesImpl) (malloc : Option aes_key_info_cache) (key : krb5_key)
    (ivec : Option Block) (data : List krb5_crypto_iov) (r : aes_result)
    (h : krb5int_aes_decrypt P malloc key ivec data = some r) :
    r.key.keyblock = key.keyblock
      ∧ ((aes_cache_get malloc key = none ∧ r.ret = ENOMEM ∧ r.key = key ∧ r.ivec = ivec
            ∧ r.data = data)
        ∨ (∃ cache ctx, aes_cache_get malloc key = some cache ∧ r.ret = 0
            ∧ (if cache.dec_ctx.n_rnd = 0 then P.aes_dec_key key.keyblock cache.dec_ctx
                else some cache.dec_ctx) = some ctx
            ∧ r.key.cache = some { cache with dec_ctx := ctx })) := by
  unfold krb5int_aes_decrypt at h
  cases hc : aes_cache_get malloc key with
  | none =>
    rw [hc] at h
    simp only [Option.some.injEq] at h
    subst h
    exact ⟨rfl, Or.inl ⟨rfl, rfl, rfl, rfl, rfl⟩⟩
  | some cache =>
    rw [hc] at h
    dsimp only at h
    cases hx : (if cache.dec_ctx.n_rnd = 0 then P.aes_dec_key key.keyblock cache.dec_ctx
        else some cache.dec_ctx) with
    | none => rw [hx] at h; simp at h
    | some ctx =>
      rw [hx] at h
      dsimp only at h
      cases hb : decrypt_body P ctx ivec data with
      | none => rw [hb] at h; simp at h
      | some q =>
        rw [hb] at h
        simp only [Option.some.injEq] at h
        subst h
        exact ⟨rfl, Or.inr ⟨cache, ctx, rfl, rfl, hx, rfl⟩⟩

/-- The cache a call works on, by cases: the key's own, or a fresh one with
both round counts zero, or none. -/
theorem cache_get_eq (malloc : Option aes_key_info_cache) (key : krb5_key)
    (cache : aes_key_info_cache) (h : aes_cache_get malloc key = some cache) :
    key.cache = some cache
      ∨ (key.cache = none ∧ cache.enc_ctx.n_rnd = 0 ∧ cache.dec_ctx.n_rnd = 0) := by
  unfold aes_cache_get at h
  cases hk : key.cache with
  | some c =>
    rw [hk] at h
    exact Or.inl h
  | none =>
    rw [hk] at h
    cases hm : malloc with
    | none => rw [hm] at h; simp at h
    | some c =>
      rw [hm] at h
      simp only [Option.some.injEq] at h
      subst h
      exact Or.inr ⟨rfl, rfl, rfl⟩

theorem cache_get_none (malloc : Option aes_key_info_cache) (key : krb5_key)
    (h : aes_cache_get malloc key = none) : key.cache = none ∧ malloc = none := by
  unfold aes_cache_get at h
  cases hk : key.cache with
  | some c => rw [hk] at h; simp at h
  | none =>
    cases hm : malloc with
    | none => exact ⟨rfl, rfl⟩
    | some c => rw [hk, hm] at h; simp at h

/-- The decryption schedule after a returning `krb5int_aes_encrypt` is the
one of the cache the call worked on. -/
theorem encrypt_keeps_dec_ctx (P : AesImpl) (malloc : Option aes_key_info_cache)
    (key : krb5_key) (ivec : Option Block) (data : List krb5_crypto_iov) (r : aes_result)
    (h : krb5int_aes_encrypt P malloc key ivec data = some r) :
    (∀ c, key.cache = some c → ∃ c', r.key.cache = some c' ∧ c'.dec_ctx = c.dec_ctx)
      ∧ (key.cache = none →
          r.key.cache = none ∨ ∃ c', r.key.cache = some c' ∧ c'.dec_ctx.n_rnd = 0) := by
  obtain ⟨_, h1 | ⟨cache, ctx, hc, _, _, hk⟩⟩ := encrypt_key P malloc key ivec data r h
  · obtain ⟨hn, _, hkey, _, _⟩ := h1
    have hkn := (cache_get_none malloc key hn).1
    refine ⟨?_, ?_⟩
    · intro c hc; rw [hkn] at hc; simp at hc
    · intro _; left; rw [hkey, hkn]
  · refine ⟨?_, ?_⟩
    · intro c hkc
      rcases cache_get_eq malloc key cache hc with h2 | ⟨h2, _, _⟩
      · rw [hkc] at h2
        simp only [Option.some.injEq] at h2
        subst h2
        exact ⟨_, hk, rfl⟩
      · rw [hkc] at h2; simp at h2
    · intro hkn
      right
      rcases cache_get_eq malloc key cache hc with h2 | ⟨_, _, h3⟩
      · rw [hkn] at h2; simp at h2
      · exact ⟨_, hk, h3⟩

/-- The encryption schedule after a returning `krb5int_aes_decrypt` is the
one of the cache the call worked on. -/
theorem decrypt_keeps_enc_ctx (P : AesImpl) (malloc : Option aes_key_info_cache)
    (key : krb5_key) (ivec : Option Block) (data : List krb5_crypto_iov) (r : aes_result)
    (h : krb5int_aes_decrypt P malloc key ivec data = some r) :
    (∀ c, key.cache = some c → ∃ c', r.key.cache = some c' ∧ c'.enc_ctx = c.enc_ctx)
      ∧ (key.cache = none →
          r.key.cache = none ∨ ∃ c', r.key.cache = some c' ∧ c'.enc_ctx.n_rnd = 0) := by
  obtain ⟨_, h1 | ⟨cache, ctx, hc, _, _, hk⟩⟩ := decrypt_key P malloc key ivec data r h
  · obtain ⟨hn, _, hkey, _, _⟩ := h1
    have hkn := (cache_get_none malloc key hn).1
    refine ⟨?_, ?_⟩
    · intro c hc; rw [hkn] at hc; simp at hc
    · intro _; left; rw [hkey, hkn]
  · refine ⟨?_, ?_⟩
    · intro c hkc
      rcases cache_get_eq malloc key cache hc with h2 | ⟨h2, _, _⟩
      · rw [hkc] at h2
        simp only [Option.some.injEq] at h2
        subst h2
        exact ⟨_, hk, rfl⟩
      · rw [hkc] at h2; simp at h2
    · intro hkn
      right
      rcases cache_get_eq malloc key cache hc with h2 | ⟨_, h3, _⟩
      · rw [hkn] at h2; simp at h2
      · exact ⟨_, hk, h3⟩

/-- Encrypt-only calls keep a decryption schedule that has round count zero
(or no cache) that way, and count no call of `aes_dec_key`. -/
theorem run_encrypt_only (P : AesImpl) :
    ∀ (calls : List aes_call) (t t' : key_trace),
      (∀ c ∈ calls, is_encrypt c = true) →
      (t.key.cache = none ∨ ∃ c, t.key.cache = some c ∧ c.dec_ctx.n_rnd = 0) →
      run_calls P calls t = some t' →
      (t'.key.cache = none ∨ ∃ c, t'.key.cache = some c ∧ c.dec_ctx.n_rnd = 0)
        ∧ t'.dec_key_calls = t.dec_key_calls := by
  intro calls
  induction calls with
  | nil =>
    intro t t' _ hinv h
    simp only [run_calls, Option.some.injEq] at h
    subst h
    exact ⟨hinv, rfl⟩
  | cons c cs ih =>
    intro t t' hall hinv h
    have hc : is_encrypt c = true := hall c (List.mem_cons_self _ _)
    cases c with
    | decrypt m iv d => simp [is_encrypt] at hc
    | encrypt m iv d =>
      simp only [run_calls, run_call] at h
      cases hr : krb5int_aes_encrypt P m t.key iv d with
      | none => rw [hr] at h; simp at h
      | some r =>
        rw [hr] at h
        dsimp only at h
        obtain ⟨f1, f2⟩ := encrypt_keeps_dec_ctx P m t.key iv d r hr
        have hinv' : r.key.cache = none ∨ ∃ c, r.key.cache = some c ∧ c.dec_ctx.n_rnd = 0 := by
          rcases hinv with hn | ⟨c, hc1, hc2⟩
          · exact f2 hn
          · obtain ⟨c', e1, e2⟩ := f1 c hc1
            exact Or.inr ⟨c', e1, by rw [e2]; exact hc2⟩
        obtain ⟨g1, g2⟩ := ih _ t' (fun x hx => hall x (List.mem_cons_of_mem _ hx)) hinv' h
        refine ⟨g1, ?_⟩
        rw [g2]
        simp [calls_aes_dec_key]

/-- C11: for every key, a `krb5int_aes_encrypt` call never calls the
decrypt-schedule expansion, since its outcome is the same whatever
`aes_dec_key` and `aes_dec_blk` are (even ones that always fail), and when it
returns it leaves the decrypt schedule as it was, with round count 0 if the
cache was just created; symmetrically `krb5int_aes_decrypt` never calls the
encrypt-schedule expansion and leaves the encrypt schedule as it was. So
after any sequence of encrypt-only calls on a key without cache no call of
`aes_dec_key` has been made and the decrypt schedule, if there is a cache, has
round count 0. -/
theorem C11_schedule_isolation (P : AesImpl) (malloc : Option aes_key_info_cache)
    (key : krb5_key) (ivec : Option Block) (data : List krb5_crypto_iov) :
    (∀ f g, krb5int_aes_encrypt P malloc key ivec data
        = krb5int_aes_encrypt { P with aes_dec_key := f, aes_dec_blk := g } malloc key ivec data)
      ∧ calls_aes_dec_key key (.encrypt malloc ivec data) = false
      ∧ (∀ r, krb5int_aes_encrypt P malloc key ivec data = some r →
          (∀ c, key.cache = some c → ∃ c', r.key.cache = some c' ∧ c'.dec_ctx = c.dec_ctx)
          ∧ (key.cache = none →
              r.key.cache = none ∨ ∃ c', r.key.cache = some c' ∧ c'.dec_ctx.n_rnd = 0))
      ∧ (∀ f g, krb5int_aes_decrypt P malloc key ivec data
        = krb5int_aes_decrypt { P with aes_enc_key := f, aes_enc_blk := g } malloc key ivec data)
      ∧ calls_aes_enc_key key (.decrypt malloc ivec data) = false
      ∧ (∀ r, krb5int_aes_decrypt P malloc key ivec data = some r →
          (∀ c, key.cache = some c → ∃ c', r.key.cache = some c' ∧ c'.enc_ctx = c.enc_ctx)
          ∧ (key.cache = none →
              r.key.cache = none ∨ ∃ c', r.key.cache = some c' ∧ c'.enc_ctx.n_rnd = 0))
      ∧ (∀ calls t, key.cache = none → (∀ c ∈ calls, is_encrypt c = true) →
          run_calls P calls { key := key, enc_key_calls := 0, dec_key_calls := 0 } = some t →
          (t.key.cache = none ∨ ∃ c, t.key.cache = some c ∧ c.dec_ctx.n_rnd = 0)
            ∧ t.dec_key_calls = 0) := by
  refine ⟨?_, rfl, ?_, ?_, rfl, ?_, ?_⟩
  · intro f g
    exact encrypt_congr P { P with aes_dec_key := f, aes_dec_blk := g } rfl rfl malloc key ivec
      data
  · intro r h
    exact encrypt_keeps_dec_ctx P malloc key ivec data r h
  · intro f g
    exact decrypt_congr P { P with aes_enc_key := f, aes_enc_blk := g } rfl rfl malloc key ivec
      data
  · intro r h
    exact decrypt_keeps_enc_ctx P malloc key ivec data r h
  · intro calls t hk hall h
    exact run_encrypt_only P calls _ t hall (Or.inl hk) h

/-- C11, a run: three encrypt-only calls on the fresh toy key return, the
first expanding the encryption schedule, and leave the decrypt schedule with
round count 0 and no call of `aes_dec_key`. -/
theorem C11_schedule_isolation_witness :
    run_calls toyImpl
          [.encrypt toyMalloc none [⟨false, List.replicate 20 1⟩],
           .encrypt none (some zeroBlock) [⟨false, List.replicate 16 2⟩],
           .encrypt none none []]
          { key := toyKey, enc_key_calls := 0, dec_key_calls := 0 }
        = some { key := { keyblock := List.replicate 16 0,
                          cache := some { enc_ctx := { k_sch := [], n_rnd := 10, n_blk := 1 },
                                          dec_ctx := { k_sch := [], n_rnd := 0, n_blk := 0 } } },
                 enc_key_calls := 1, dec_key_calls := 0 }
      ∧ (∃ c : aes_key_info_cache,
          some { enc_ctx := { k_sch := [], n_rnd := 10, n_blk := 1 },
                 dec_ctx := { k_sch := [], n_rnd := 0, n_blk := 0 } } = some c
          ∧ c.dec_ctx.n_rnd = 0) :=
  have h : run_calls toyImpl
          [.encrypt toyMalloc none [⟨false, List.replicate 20 1⟩],
           .encrypt none (some zeroBlock) [⟨false, List.replicate 16 2⟩],
           .encrypt none none []]
          { key := toyKey, enc_key_calls := 0, dec_key_calls := 0 }
        = some { key := { keyblock := List.replicate 16 0,
                          cache := some { enc_ctx := { k_sch := [], n_rnd := 10, n_blk := 1 },
                                          dec_ctx := { k_sch := [], n_rnd := 0, n_blk := 0 } } },
                 enc_key_calls := 1, dec_key_calls := 0 } := by decide
  ⟨h, ((C11_schedule_isolation toyImpl none toyKey none []).2.2.2.2.2.2 _ _ rfl (by decide)
      h).1.resolve_left (by decide)⟩

/-! ## Lemmas: schedules are built once -/

/-- One returning call and the encryption schedule: a call that reaches
`aes_enc_key` leaves a schedule with a nonzero round count (when successful
expansions do), and a call on a key whose schedule is built does not reach
`aes_enc_key` and leaves the schedule as it is. -/
theorem run_call_enc (P : AesImpl)
    (hE : ∀ k cx cx', P.aes_enc_key k cx = some cx' → cx'.n_rnd ≠ 0)
    (key : krb5_key) (c : aes_call) (r : aes_result) (h : run_call P key c = some r) :
    (calls_aes_enc_key key c = true → ∃ c', r.key.cache = some c' ∧ c'.enc_ctx.n_rnd ≠ 0)
      ∧ (∀ c0, key.cache = some c0 → c0.enc_ctx.n_rnd ≠ 0 →
          calls_aes_enc_key key c = false
            ∧ ∃ c', r.key.cache = some c' ∧ c'.enc_ctx = c0.enc_ctx) := by
  cases c with
  | encrypt m iv d =>
    simp only [run_call] at h
    obtain ⟨_, h1 | ⟨cache, ctx, hc, _, hx, hk⟩⟩ := encrypt_key P m key iv d r h
    · obtain ⟨hn, _, _, _, _⟩ := h1
      have hkn := (cache_get_none m key hn).1
      refine ⟨?_, ?_⟩
      · intro hcall; simp [calls_aes_enc_key, hn] at hcall
      · intro c0 hc0; rw [hkn] at hc0; simp at hc0
    · refine ⟨?_, ?_⟩
      · intro hcall
        simp only [calls_aes_enc_key, hc, decide_eq_true_eq] at hcall
        rw [if_pos hcall] at hx
        exact ⟨_, hk, hE _ _ _ hx⟩
      · intro c0 hc0 hn0
        rcases cache_get_eq m key cache hc with h2 | ⟨h2, _, _⟩
        · rw [hc0] at h2
          simp only [Option.some.injEq] at h2
          subst h2
          rw [if_neg hn0] at hx
          simp only [Option.some.injEq] at hx
          subst hx
          exact ⟨by simp [calls_aes_enc_key, hc, hn0], _, hk, rfl⟩
        · rw [hc0] at h2; simp at h2
  | decrypt m iv d =>
    simp only [run_call] at h
    obtain ⟨f1, _⟩ := decrypt_keeps_enc_ctx P m key iv d r h
    refine ⟨?_, ?_⟩
    · intro hcall; simp [calls_aes_enc_key] at hcall
    · intro c0 hc0 _
      exact ⟨rfl, f1 c0 hc0⟩

/-- One returning call and the decryption schedule. -/
theorem run_call_dec (P : AesImpl)
    (hD : ∀ k cx cx', P.aes_dec_key k cx = some cx' → cx'.n_rnd ≠ 0)
    (key : krb5_key) (c : aes_call) (r : aes_result) (h : run_call P key c = some r) :
    (calls_aes_dec_key key c = true → ∃ c', r.key.cache = some c' ∧ c'.dec_ctx.n_rnd ≠ 0)
      ∧ (∀ c0, key.cache = some c0 → c0.dec_ctx.n_rnd ≠ 0 →
          calls_aes_dec_key key c = false
            ∧ ∃ c', r.key.cache = some c' ∧ c'.dec_ctx = c0.dec_ctx) := by
  cases c with
  | decrypt m iv d =>
    simp only [run_call] at h
    obtain ⟨_, h1 | ⟨cache, ctx, hc, _, hx, hk⟩⟩ := decrypt_key P m key iv d r h
    · obtain ⟨hn, _, _, _, _⟩ := h1
      have hkn := (cache_get_none m key hn).1
      refine ⟨?_, ?_⟩
      · intro hcall; simp [calls_aes_dec_key, hn] at hcall
      · intro c0 hc0; rw [hkn] at hc0; simp at hc0
    · refine ⟨?_, ?_⟩
      · intro hcall
        simp only [calls_aes_dec_key, hc, decide_eq_true_eq] at hcall
        rw [if_pos hcall] at hx
        exact ⟨_, hk, hD _ _ _ hx⟩
      · intro c0 hc0 hn0
        rcases cache_get_eq m key cache hc with h2 | ⟨h2, _, _⟩
        · rw [hc0] at h2
          simp only [Option.some.injEq] at h2
          subst h2
          rw [if_neg hn0] at hx
          simp only [Option.some.injEq] at hx
          subst hx
          exact ⟨by simp [calls_aes_dec_key, hc, hn0], _, hk, rfl⟩
        · rw [hc0] at h2; simp at h2
  | encrypt m iv d =>
    simp only [run_call] at h
    obtain ⟨f1, _⟩ := encrypt_keeps_dec_ctx P m key iv d r h
    refine ⟨?_, ?_⟩
    · intro hcall; simp [calls_aes_dec_key] at hcall
    · intro c0 hc0 _
      exact ⟨rfl, f1 c0 hc0⟩

/-- Over a run, the count of `aes_enc_key` calls stays at most one, and is one
only with a built schedule in the cache. -/
theorem run_calls_enc_once (P : AesImpl)
    (hE : ∀ k cx cx', P.aes_enc_key k cx = some cx' → cx'.n_rnd ≠ 0) :
    ∀ (calls : List aes_call) (t t' : key_trace),
      t.enc_key_calls ≤ 1 →
      (t.enc_key_calls = 1 → ∃ c, t.key.cache = some c ∧ c.enc_ctx.n_rnd ≠ 0) →
      run_calls P calls t = some t' →
      t'.enc_key_calls ≤ 1
        ∧ (t'.enc_key_calls = 1 → ∃ c, t'.key.cache = some c ∧ c.enc_ctx.n_rnd ≠ 0) := by
  intro calls
  induction calls with
  | nil =>
    intro t t' h1 h2 h
    simp only [run_calls, Option.some.injEq] at h
    subst h
    exact ⟨h1, h2⟩
  | cons c cs ih =>
    intro t t' h1 h2 h
    simp only [run_calls] at h
    cases hr : run_call P t.key c with
    | none => rw [hr] at h; simp at h
    | some r =>
      rw [hr] at h
      dsimp only at h
      obtain ⟨g1, g2⟩ := run_call_enc P hE t.key c r hr
      refine ih _ t' ?_ ?_ h
      · by_cases hcall : calls_aes_enc_key t.key c = true
        · have h0 : t.enc_key_calls = 0 := by
            by_contra hne
            obtain ⟨c0, e1, e2⟩ := h2 (by omega)
            have := (g2 c0 e1 e2).1
            rw [hcall] at this
            simp at this
          simp [hcall, h0]
        · simp [hcall, h1]
      · intro hone
        by_cases hcall : calls_aes_enc_key t.key c = true
        · exact g1 hcall
        · simp only [hcall, if_false, Nat.add_zero, Bool.false_eq_true] at hone
          obtain ⟨c0, e1, e2⟩ := h2 hone
          obtain ⟨c', e3, e4⟩ := (g2 c0 e1 e2).2
          exact ⟨c', e3, by rw [e4]; exact e2⟩

/-- Over a run, the count of `aes_dec_key` calls stays at most one, and is one
only with a built schedule in the cache. -/
theorem run_calls_dec_once (P : AesImpl)
    (hD : ∀ k cx cx', P.aes_dec_key k cx = some cx' → cx'.n_rnd ≠ 0) :
    ∀ (calls : List aes_call) (t t' : key_trace),
      t.dec_key_calls ≤ 1 →
      (t.dec_key_calls = 1 → ∃ c, t.key.cache = some c ∧ c.dec_ctx.n_rnd ≠ 0) →
      run_calls P calls t = some t' →
      t'.dec_key_calls ≤ 1
        ∧ (t'.dec_key_calls = 1 → ∃ c, t'.key.cache = some c ∧ c.dec_ctx.n_rnd ≠ 0) := by
  intro calls
  induction calls with
  | nil =>
    intro t t' h1 h2 h
    simp only [run_calls, Option.some.injEq] at h
    subst h
    exact ⟨h1, h2⟩
  | cons c cs ih =>
    intro t t' h1 h2 h
    simp only [run_calls] at h
    cases hr : run_call P t.key c with
    | none => rw [hr] at h; simp at h
    | some r =>
      rw [hr] at h
      dsimp only at h
      obtain ⟨g1, g2⟩ := run_call_dec P hD t.key c r hr
      refine ih _ t' ?_ ?_ h
      · by_cases hcall : calls_aes_dec_key t.key c = true
        · have h0 : t.dec_key_calls = 0 := by
            by_contra hne
            obtain ⟨c0, e1, e2⟩ := h2 (by omega)
            have := (g2 c0 e1 e2).1
            rw [hcall] at this
            simp at this
          simp [hcall, h0]
        · simp [hcall, h1]
      · intro hone
        by_cases hcall : calls_aes_dec_key t.key c = true
        · exact g1 hcall
        · simp only [hcall, if_false, Nat.add_zero, Bool.false_eq_true] at hone
          obtain ⟨c0, e1, e2⟩ := h2 hone
          obtain ⟨c', e3, e4⟩ := (g2 c0 e1 e2).2
          exact ⟨c', e3, by rw [e4]; exact e2⟩

/-- A built encryption schedule survives every run unchanged, with no further
call of `aes_enc_key`. -/
theorem run_calls_enc_kept (P : AesImpl)
    (hE : ∀ k cx cx', P.aes_enc_key k cx = some cx' → cx'.n_rnd ≠ 0) :
    ∀ (calls : List aes_call) (t t' : key_trace) (c : aes_key_info_cache),
      t.key.cache = some c → c.enc_ctx.n_rnd ≠ 0 → run_calls P calls t = some t' →
      t'.enc_key_calls = t.enc_key_calls
        ∧ ∃ c', t'.key.cache = some c' ∧ c'.enc_ctx = c.enc_ctx := by
  intro calls
  induction calls with
  | nil =>
    intro t t' c h1 _ h
    simp only [run_calls, Option.some.injEq] at h
    subst h
    exact ⟨rfl, c, h1, rfl⟩
  | cons x xs ih =>
    intro t t' c h1 h2 h
    simp only [run_calls] at h
    cases hr : run_call P t.key x with
    | none => rw [hr] at h; simp at h
    | some r =>
      rw [hr] at h
      dsimp only at h
      obtain ⟨_, g2⟩ := run_call_enc P hE t.key x r hr
      obtain ⟨e0, c1, e1, e2⟩ := g2 c h1 h2
      obtain ⟨f1, c2, f2, f3⟩ := ih _ t' c1 e1 (by rw [e2]; exact h2) h
      refine ⟨?_, c2, f2, by rw [f3, e2]⟩
      rw [f1]
      simp [e0]

/-- A built decryption schedule survives every run unchanged, with no further
call of `aes_dec_key`. -/
theorem run_calls_dec_kept (P : AesImpl)
    (hD : ∀ k cx cx', P.aes_dec_key k cx = some cx' → cx'.n_rnd ≠ 0) :
    ∀ (calls : List aes_call) (t t' : key_trace) (c : aes_key_info_cache),
      t.key.cache = some c → c.dec_ctx.n_rnd ≠ 0 → run_calls P calls t = some t' →
      t'.dec_key_calls = t.dec_key_calls
        ∧ ∃ c', t'.key.cache = some c' ∧ c'.dec_ctx = c.dec_ctx := by
  intro calls
  induction calls with
  | nil =>
    intro t t' c h1 _ h
    simp only [run_calls, Option.some.injEq] at h
    subst h
    exact ⟨rfl, c, h1, rfl⟩
  | cons x xs ih =>
    intro t t' c h1 h2 h
    simp only [run_calls] at h
    cases hr : run_call P t.key x with
    | none => rw [hr] at h; simp at h
    | some r =>
      rw [hr] at h
      dsimp only at h
      obtain ⟨_, g2⟩ := run_call_dec P hD t.key x r hr
      obtain ⟨e0, c1, e1, e2⟩ := g2 c h1 h2
      obtain ⟨f1, c2, f2, f3⟩ := ih _ t' c1 e1 (by rw [e2]; exact h2) h
      refine ⟨?_, c2, f2, by rw [f3, e2]⟩
      rw [f1]
      simp [e0]

/-- C12: assuming a successful expansion leaves a nonzero round count in the
schedule, in every state `t` reached from a key with no cache by a sequence
of `krb5int_aes_encrypt` and `krb5int_aes_decrypt` calls, each direction's
expansion function has been called at most once; and once a direction's
schedule is built, every later sequence of calls leaves it unchanged and
calls its expansion no more. -/
theorem C12_schedules_write_once (P : AesImpl) (calls : List aes_call) (key : krb5_key)
    (t : key_trace)
    (hE : ∀ k cx cx', P.aes_enc_key k cx = some cx' → cx'.n_rnd ≠ 0)
    (hD : ∀ k cx cx', P.aes_dec_key k cx = some cx' → cx'.n_rnd ≠ 0)
    (hkey : key.cache = none)
    (hrun : run_calls P calls { key := key, enc_key_calls := 0, dec_key_calls := 0 } = some t) :
    t.enc_key_calls ≤ 1 ∧ t.dec_key_calls ≤ 1
      ∧ (∀ later t' c, run_calls P later t = some t' → t.key.cache = some c →
          (c.enc_ctx.n_rnd ≠ 0 →
            t'.enc_key_calls = t.enc_key_calls
              ∧ ∃ c', t'.key.cache = some c' ∧ c'.enc_ctx = c.enc_ctx)
          ∧ (c.dec_ctx.n_rnd ≠ 0 →
            t'.dec_key_calls = t.dec_key_calls
              ∧ ∃ c', t'.key.cache = some c' ∧ c'.dec_ctx = c.dec_ctx)) := by
  have _ := hkey
  refine ⟨?_, ?_, ?_⟩
  · exact (run_calls_enc_once P hE calls _ t (Nat.zero_le _)
      (fun h => absurd h Nat.zero_ne_one) hrun).1
  · exact (run_calls_dec_once P hD calls _ t (Nat.zero_le _)
      (fun h => absurd h Nat.zero_ne_one) hrun).1
  · intro later t' c hl hc
    exact ⟨fun hn => run_calls_enc_kept P hE later t t' c hc hn hl,
      fun hn => run_calls_dec_kept P hD later t t' c hc hn hl⟩

theorem toy_enc_key_rounds (k : List Byte) (cx cx' : aes_ctx)
    (h : toyImpl.aes_enc_key k cx = some cx') : cx'.n_rnd ≠ 0 := by
  simp only [toyImpl] at h
  split at h
  · simp only [Option.some.injEq] at h
    subst h
    exact Nat.succ_ne_zero 9
  · simp at h

theorem toy_dec_key_rounds (k : List Byte) (cx cx' : aes_ctx)
    (h : toyImpl.aes_dec_key k cx = some cx') : cx'.n_rnd ≠ 0 := by
  simp only [toyImpl] at h
  split at h
  · simp only [Option.some.injEq] at h
    subst h
    exact Nat.succ_ne_zero 9
  · simp at h

/-- C12, witness: the toy primitive and the fresh toy key; after an encrypt,
a decrypt and another encrypt each expansion has been called once. -/
theorem C12_schedules_write_once_witness :
    (1 : Nat) ≤ 1 ∧ (1 : Nat) ≤ 1
      ∧ (∀ later t' (c : aes_key_info_cache), run_calls toyImpl later
            { key := { keyblock := List.replicate 16 0,
                       cache := some { enc_ctx := { k_sch := [], n_rnd := 10, n_blk := 1 },
                                       dec_ctx := { k_sch := [], n_rnd := 10, n_blk := 2 } } },
              enc_key_calls := 1, dec_key_calls := 1 } = some t' →
          some { enc_ctx := { k_sch := [], n_rnd := 10, n_blk := 1 },
                 dec_ctx := { k_sch := [], n_rnd := 10, n_blk := 2 } } = some c →
          (c.enc_ctx.n_rnd ≠ 0 →
            t'.enc_key_calls = 1 ∧ ∃ c', t'.key.cache = some c' ∧ c'.enc_ctx = c.enc_ctx)
          ∧ (c.dec_ctx.n_rnd ≠ 0 →
            t'.dec_key_calls = 1 ∧ ∃ c', t'.key.cache = some c' ∧ c'.dec_ctx = c.dec_ctx)) :=
  C12_schedules_write_once toyImpl
    [.encrypt toyMalloc none [⟨false, List.replicate 20 1⟩],
     .decrypt none (some zeroBlock) [⟨false, List.replicate 33 2⟩],
     .encrypt none none [⟨false, List.replicate 16 3⟩]]
    toyKey
    { key := { keyblock := List.replicate 16 0,
               cache := some { enc_ctx := { k_sch := [], n_rnd := 10, n_blk := 1 },
                               dec_ctx := { k_sch := [], n_rnd := 10, n_blk := 2 } } },
      enc_key_calls := 1, dec_key_calls := 1 }
    toy_enc_key_rounds toy_dec_key_rounds rfl (by decide)

/-- C13: for every key that has no cache, every IV and every data stream, if
the cache allocation fails then `krb5int_aes_encrypt` and
`krb5int_aes_decrypt` return `ENOMEM` and leave the key (still without cache),
the IV and every data byte as they were; and whatever the key and the
allocation, a call that returns returns 0 or `ENOMEM`, the latter only after
a failed allocation. -/
theorem C13_cache_allocation_failure (P : AesImpl) (key : krb5_key) (ivec : Option Block)
    (data : List krb5_crypto_iov) (hkey : key.cache = none) :
    krb5int_aes_encrypt P none key ivec data
        = some { ret := ENOMEM, key := key, ivec := ivec, data := data }
      ∧ krb5int_aes_decrypt P none key ivec data
        = some { ret := ENOMEM, key := key, ivec := ivec, data := data }
      ∧ (∀ malloc k iv d r, krb5int_aes_encrypt P malloc k iv d = some r →
          r.ret = 0 ∨ (r.ret = ENOMEM ∧ k.cache = none ∧ malloc = none))
      ∧ (∀ malloc k iv d r, krb5int_aes_decrypt P malloc k iv d = some r →
          r.ret = 0 ∨ (r.ret = ENOMEM ∧ k.cache = none ∧ malloc = none)) := by
  refine ⟨?_, ?_, ?_, ?_⟩
  · simp [krb5int_aes_encrypt, aes_cache_get, hkey]
  · simp [krb5int_aes_decrypt, aes_cache_get, hkey]
  · intro malloc k iv d r h
    obtain ⟨_, ⟨hn, hr, _⟩ | ⟨_, _, _, hr, _⟩⟩ := encrypt_key P malloc k iv d r h
    · exact Or.inr ⟨hr, cache_get_none malloc k hn⟩
    · exact Or.inl hr
  · intro malloc k iv d r h
    obtain ⟨_, ⟨hn, hr, _⟩ | ⟨_, _, _, hr, _⟩⟩ := decrypt_key P malloc k iv d r h
    · exact Or.inr ⟨hr, cache_get_none malloc k hn⟩
    · exact Or.inl hr

/-- C13, witness: the toy primitive, the fresh toy key, an IV and 20 bytes
of data. -/
theorem C13_cache_allocation_failure_witness :
    krb5int_aes_encrypt toyImpl none toyKey (some zeroBlock) [⟨false, List.replicate 20 1⟩]
        = some { ret := ENOMEM, key := toyKey, ivec := some zeroBlock,
                 data := [⟨false, List.replicate 20 1⟩] }
      ∧ krb5int_aes_decrypt toyImpl none toyKey (some zeroBlock) [⟨false, List.replicate 20 1⟩]
        = some { ret := ENOMEM, key := toyKey, ivec := some zeroBlock,
                 data := [⟨false, List.replicate 20 1⟩] }
      ∧ (∀ malloc k iv d r, krb5int_aes_encrypt toyImpl malloc k iv d = some r →
          r.ret = 0 ∨ (r.ret = ENOMEM ∧ k.cache = none ∧ malloc = none))
      ∧ (∀ malloc k iv d r, krb5int_aes_decrypt toyImpl malloc k iv d = some r →
          r.ret = 0 ∨ (r.ret = ENOMEM ∧ k.cache = none ∧ malloc = none)) :=
  C13_cache_allocation_failure toyImpl toyKey (some zeroBlock) [⟨false, List.replicate 20 1⟩]
    rfl

/-- C14 (as amended): for every key, usage and state object, if the 16-byte
allocation in `aes_init_state` fails then it returns `ENOMEM` and leaves the
state object with length 16 and a null data pointer, whatever it held before;
if the allocation succeeds it returns 0 with length 16 and all 16 bytes
zero. -/
theorem C14_init_state (fresh key : List Byte) (usage : Int) (state : krb5_data) :
    aes_init_state none key usage state = (ENOMEM, { length := 16, data := none })
      ∧ aes_init_state (some fresh) key usage state
        = (0, { length := 16, data := some (List.replicate 16 0) }) :=
  ⟨rfl, rfl⟩

/-- C14, counterexample: a state object that holds three bytes is not left as
it was by a failed allocation: it comes back with length 16 and a null data
pointer. -/
theorem C14_state_changed_counterexample :
    aes_init_state none (List.replicate 16 0) 0 { length := 3, data := some [1, 2, 3] }
        = (ENOMEM, { length := 16, data := none })
      ∧ ({ length := 16, data := none } : krb5_data) ≠ { length := 3, data := some [1, 2, 3] } :=
  ⟨rfl, by decide⟩

/-- C15: `krb5int_enc_aes128` declares block size 16 and key lengths 16/16,
`krb5int_enc_aes256` declares block size 16 and key lengths 32/32, and the
two tables are otherwise identical: both bind `krb5int_aes_encrypt`,
`krb5int_aes_decrypt`, `aes_init_state`, `krb5int_default_free_state` and
`aes_key_cleanup`. -/
theorem C15_provider_descriptors :
    krb5int_enc_aes128.block_size = 16
      ∧ krb5int_enc_aes128.min_key_length = 16 ∧ krb5int_enc_aes128.max_key_length = 16
      ∧ krb5int_enc_aes256.block_size = 16
      ∧ krb5int_enc_aes256.min_key_length = 32 ∧ krb5int_enc_aes256.max_key_length = 32
      ∧ krb5int_enc_aes128.encrypt = .krb5int_aes_encrypt
      ∧ krb5int_enc_aes256.encrypt = .krb5int_aes_encrypt
      ∧ krb5int_enc_aes128.decrypt = .krb5int_aes_decrypt
      ∧ krb5int_enc_aes256.decrypt = .krb5int_aes_decrypt
      ∧ krb5int_enc_aes128.init_state = .aes_init_state
      ∧ krb5int_enc_aes256.init_state = .aes_init_state
      ∧ krb5int_enc_aes128.free_state = .krb5int_default_free_state
      ∧ krb5int_enc_aes256.free_state = .krb5int_default_free_state
      ∧ krb5int_enc_aes128.key_cleanup = .aes_key_cleanup
      ∧ krb5int_enc_aes256.key_cleanup = .aes_key_cleanup
      ∧ { krb5int_enc_aes256 with min_key_length := 16, max_key_length := 16 }
        = krb5int_enc_aes128 := by
  decide

/-! ## Lemmas: one short block -/

theorem cts_short (E : Block → Block) (iv : Block) (s : List Byte) (h0 : 0 < s.length)
    (h16 : s.length ≤ 16) :
    cts_encrypt E iv s = (E (pad16 s)).val.take s.length
      ∧ cts_decrypt E iv s = (E (pad16 s)).val.take s.length := by
  have hn : (s.length + BLOCK_SIZE - 1) / BLOCK_SIZE = 1 := by
    simp only [BLOCK_SIZE]; omega
  simp only [cts_encrypt, cts_decrypt, hn, if_true, and_self]

theorem pad16_eq_of_val (s : List Byte) (p : Block) (h16 : s.length ≤ 16)
    (hp : p.val = s ++ List.replicate (16 - s.length) 0) : pad16 s = p := by
  apply Subtype.ext
  rw [pad16_short s h16, hp]

/-- C16: for every key, every IV and every plaintext of length L with
0 < L < 16, `krb5int_aes_encrypt` returns 0 and leaves exactly the first L
bytes of `Encrypt p`, where `p` is the plaintext followed by 16-L zero bytes,
with no IV mixed in; and `krb5int_aes_decrypt` of an L-byte input leaves the
first L bytes of `Decrypt p`, `p` being the input followed by 16-L zero
bytes. -/
theorem C16_short_single_block (P : AesImpl) (malloc : Option aes_key_info_cache)
    (key : krb5_key) (ivec : Option Block) (data : List krb5_crypto_iov) (p : Block)
    (E D : Block → Block) (hK : Keyed P key E D) (hAlloc : AllocOK malloc key)
    (h0 : 0 < (iov_stream data).length) (h16 : (iov_stream data).length < 16)
    (hp : p.val = iov_stream data ++ List.replicate (16 - (iov_stream data).length) 0) :
    (∃ r, krb5int_aes_encrypt P malloc key ivec data = some r ∧ r.ret = 0
        ∧ iov_stream r.data = (E p).val.take (iov_stream data).length)
      ∧ (∃ r, krb5int_aes_decrypt P malloc key ivec data = some r ∧ r.ret = 0
        ∧ iov_stream r.data = (D p).val.take (iov_stream data).length) := by
  obtain ⟨_, e1, _, _⟩ := encrypt_eq P malloc key ivec data E hK.enc hAlloc
  obtain ⟨_, d1, _, _⟩ := decrypt_eq P malloc key ivec data D hK.dec hAlloc
  have hpad := pad16_eq_of_val (iov_stream data) p (by omega) hp
  refine ⟨⟨_, e1, rfl, ?_⟩, ⟨_, d1, rfl, ?_⟩⟩
  · rw [iov_stream_scatter data _ (cts_encrypt_length E _ _),
      (cts_short E (iv_of ivec) (iov_stream data) h0 (by omega)).1, hpad]
  · rw [iov_stream_scatter data _ (cts_decrypt_length D _ _),
      (cts_short D (iv_of ivec) (iov_stream data) h0 (by omega)).2, hpad]

/-- C16, witness: the toy primitive, the fresh toy key, an IV `9, 0, ..., 0`
and the three bytes `1, 2, 3`. -/
theorem C16_short_single_block_witness :
    (∃ r, krb5int_aes_encrypt toyImpl toyMalloc toyKey (some (pad16 [9]))
          [⟨false, [1, 2, 3]⟩] = some r ∧ r.ret = 0
        ∧ iov_stream r.data
          = (toyE (pad16 [1, 2, 3])).val.take (iov_stream [⟨false, [1, 2, 3]⟩]).length)
      ∧ (∃ r, krb5int_aes_decrypt toyImpl toyMalloc toyKey (some (pad16 [9]))
          [⟨false, [1, 2, 3]⟩] = some r ∧ r.ret = 0
        ∧ iov_stream r.data
          = (toyE (pad16 [1, 2, 3])).val.take (iov_stream [⟨false, [1, 2, 3]⟩]).length) :=
  C16_short_single_block toyImpl toyMalloc toyKey (some (pad16 [9])) [⟨false, [1, 2, 3]⟩]
    (pad16 [1, 2, 3]) toyE toyE (toy_keyed toyKey (Or.inl (by decide))) (Or.inr (by decide))
    (by decide) (by decide) (by decide)

/-- C17: for every key, every present IV and every data stream of length L
with 0 < L ≤ 16, `krb5int_aes_encrypt` and `krb5int_aes_decrypt` return 0
and leave all 16 bytes of the caller's IV buffer as they were. -/
theorem C17_single_block_keeps_iv (P : AesImpl) (malloc : Option aes_key_info_cache)
    (key : krb5_key) (iv : Block) (data : List krb5_crypto_iov) (E D : Block → Block)
    (hK : Keyed P key E D) (hAlloc : AllocOK malloc key)
    (h0 : 0 < (iov_stream data).length) (h16 : (iov_stream data).length ≤ 16) :
    (∃ r, krb5int_aes_encrypt P malloc key (some iv) data = some r ∧ r.ret = 0
        ∧ r.ivec = some iv)
      ∧ (∃ r, krb5int_aes_decrypt P malloc key (some iv) data = some r ∧ r.ret = 0
        ∧ r.ivec = some iv) := by
  have _ := h0
  obtain ⟨_, e1, _, _⟩ := encrypt_eq P malloc key (some iv) data E hK.enc hAlloc
  obtain ⟨_, d1, _, _⟩ := decrypt_eq P malloc key (some iv) data D hK.dec hAlloc
  have hiv := cts_iv_short E iv (iov_stream data) h16
  refine ⟨⟨_, e1, rfl, ?_⟩, ⟨_, d1, rfl, ?_⟩⟩
  · simp only [iv_of, Option.map_some', hiv.1]
  · simp only [iv_of, Option.map_some', hiv.2]

/-- C17, witness: the toy primitive, the fresh toy key, the IV `9, 0, ..., 0`
and a 16-byte stream. -/
theorem C17_single_block_keeps_iv_witness :
    (∃ r, krb5int_aes_encrypt toyImpl toyMalloc toyKey (some (pad16 [9]))
          [⟨false, List.replicate 16 5⟩] = some r ∧ r.ret = 0 ∧ r.ivec = some (pad16 [9]))
      ∧ (∃ r, krb5int_aes_decrypt toyImpl toyMalloc toyKey (some (pad16 [9]))
          [⟨false, List.replicate 16 5⟩] = some r ∧ r.ret = 0 ∧ r.ivec = some (pad16 [9])) :=
  C17_single_block_keeps_iv toyImpl toyMalloc toyKey (pad16 [9]) [⟨false, List.replicate 16 5⟩]
    toyE toyE (toy_keyed toyKey (Or.inl (by decide))) (Or.inr (by decide)) (by decide)
    (by decide)

/-! ## Lemmas: encryption undoes decryption -/

theorem zipWith_xor_cancel_mid : ∀ (a b : List Byte), a.length = b.length →
    List.zipWith (fun x y => x ^^^ y) a (List.zipWith (fun x y => x ^^^ y) b a) = b
  | [], [], _ => rfl
  | [], _ :: _, h => by simp at h
  | _ :: _, [], h => by simp at h
  | x :: a, y :: b, h => by
    have h2 : a.length = b.length := by simpa using h
    have e : x ^^^ (y ^^^ x) = y := by
      apply Fin.ext
      rw [fin_xor_val, fin_xor_val, Nat.xor_comm y.val, ← Nat.xor_assoc, Nat.xor_self,
        Nat.zero_xor]
    simp [e, zipWith_xor_cancel_mid a b h2]

theorem xorblock_cancel_mid (c a : Block) : xorblock c (xorblock a c) = a := by
  apply Subtype.ext
  rw [xorblock_val, xorblock_val]
  exact zipWith_xor_cancel_mid c.val a.val (by rw [c.property, a.property])

theorem cbc_enc_dec (E D : Block → Block) (hED : ∀ x, E (D x) = x) :
    ∀ (k : Nat) (c : Block) (s rest : List Byte), 16 * k ≤ s.length →
      cbc_enc E k c (cbc_dec D k c s ++ rest) = s.take (16 * k) := by
  intro k
  induction k with
  | zero => intro c s rest _; simp [cbc_enc]
  | succ k ih =>
    intro c s rest h
    have h2 : 16 * k ≤ (s.drop 16).length := by simp only [List.length_drop]; omega
    have hb : (xorblock (D (pad16 s)) c).val.length = 16 := block_length _
    simp only [cbc_enc, cbc_dec, List.append_assoc, pad16_block_append, xorblock_cancel_mid,
      hED, BLOCK_SIZE, List.drop_left' hb, ih _ _ _ h2]
    rw [pad16_full s (by omega), ← List.take_add]
    congr 1
    omega

theorem cbc_enc_iv_dec (E D : Block → Block) (hED : ∀ x, E (D x) = x) :
    ∀ (k : Nat) (c : Block) (s rest : List Byte),
      cbc_enc_iv E k c (cbc_dec D k c s ++ rest) = cbc_dec_iv k c s := by
  intro k
  induction k with
  | zero => intro c s rest; rfl
  | succ k ih =>
    intro c s rest
    have hb : (xorblock (D (pad16 s)) c).val.length = 16 := block_length _
    simp only [cbc_dec, cbc_dec_iv, cbc_enc_iv, List.append_assoc, pad16_block_append,
      xorblock_cancel_mid, hED, BLOCK_SIZE, List.drop_left' hb, ih]

/-- The block that encryption chains from the rebuilt block `A_full` and the
recovered tail is `D1` again. -/
theorem cts_unsteal (D1 : Block) (T : List Byte) (r : Nat) (hr : T.length = r)
    (h16 : r ≤ 16) :
    xorblock (memcpy_block (xorblock D1 (pad16 T)) (pad16 T) r)
      (pad16 ((xorblock D1 (pad16 T)).val.take r)) = D1 := by
  have hD : D1.val.length = 16 := block_length _
  have h1 : (D1.val.take r).length = r := by simp [hD, h16]
  have h2 : (D1.val.drop r).length = 16 - r := by simp [hD]
  have hx : (xorblock D1 (pad16 T)).val.take r
      = List.zipWith (fun x y => x ^^^ y) (D1.val.take r) T := by
    rw [xorblock_val, pad16_short T (by omega), List.take_zipWith, List.take_left' hr]
  have hxl : (List.zipWith (fun x y => x ^^^ y) (D1.val.take r) T).length = r := by
    simp [h1, hr]
  apply Subtype.ext
  rw [xorblock_val, memcpy_steal_val D1 T r hr h16, hx, pad16_short _ (by omega), hxl,
    List.zipWith_append _ _ _ _ _ (by rw [hr, hxl]), zipWith_xor_cancel_mid _ _ (by rw [hr, h1]),
    zipWith_xor_zeros _ _ (by omega), List.take_append_drop]

/-- Encryption undoes decryption on streams of length 0 or at least 16. -/
theorem cts_round_trip_back (E D : Block → Block) (hED : ∀ x, E (D x) = x) (iv : Block)
    (s : List Byte) (hL : s.length = 0 ∨ 16 ≤ s.length) :
    cts_encrypt E iv (cts_decrypt D iv s) = s := by
  rcases hL with h0 | h16
  · have hs : s = [] := List.eq_nil_of_length_eq_zero h0
    subst hs
    have e1 : cts_encrypt E iv [] = [] := by simp [cts_encrypt, BLOCK_SIZE]
    have e2 : cts_decrypt D iv [] = [] := by simp [cts_decrypt, BLOCK_SIZE]
    rw [e2, e1]
  · by_cases h : s.length = 16
    · have hs : s = (pad16 s).val := by
        rw [pad16_full s (by omega)]
        exact (List.take_of_length_le (by omega)).symm
      rw [hs, cts_decrypt_single, cts_encrypt_single, hED]
    · obtain ⟨k, h1, h2⟩ := multi_of_gt s.length (by omega)
      have hlen := cts_decrypt_length D iv s
      rw [cts_encrypt_multi E iv _ k (by rw [hlen]; exact h1) (by rw [hlen]; exact h2), hlen]
      rw [cts_decrypt_multi D iv s k h1 h2]
      have hc : (cbc_dec D k iv s).length = 16 * k := cbc_dec_length D k iv s
      have hT : (s.drop (16 * k + 16)).length = s.length - (16 * k + 16) := by simp
      simp only [List.append_assoc, cbc_enc_dec E D hED k iv s _ (by omega),
        cbc_enc_iv_dec E D hED, List.drop_left' hc, drop_pre_add _ _ _ 16 hc,
        pad16_block_append, List.drop_left' (block_length _), xorblock_cancel_mid, hED]
      rw [cts_unsteal _ _ _ hT (by omega), hED, memcpy_steal_val _ _ _ hT (by omega),
        List.take_left' hT, pad16_full _ (by simp only [List.length_drop]; omega)]
      have e : s.drop (16 * k + 16) = (s.drop (16 * k)).drop 16 := by
        rw [List.drop_drop]
      rw [e, List.take_append_drop, List.take_append_drop]

/-- Decrypt then encrypt with the same key and the original IV, for a stream
of length 0 or at least 16: both calls return 0, the intermediate stream has
the length of the input, and the buffer list is back to what it was. -/
theorem round_trip_back_calls (P : AesImpl) (malloc malloc2 : Option aes_key_info_cache)
    (key : krb5_key) (ivec : Option Block) (data : List krb5_crypto_iov)
    (E D : Block → Block) (hK : Keyed P key E D) (hA : AllocOK malloc key)
    (hED : ∀ x, E (D x) = x)
    (hL : (iov_stream data).length = 0 ∨ 16 ≤ (iov_stream data).length) :
    ∃ r1 r2, krb5int_aes_decrypt P malloc key ivec data = some r1 ∧ r1.ret = 0
      ∧ (iov_stream r1.data).length = (iov_stream data).length
      ∧ krb5int_aes_encrypt P malloc2 r1.key ivec r1.data = some r2 ∧ r2.ret = 0
      ∧ r2.data = data := by
  obtain ⟨key1, h1, _, hc1, hE1⟩ := decrypt_eq P malloc key ivec data D hK.dec hA
  have hlen := cts_decrypt_length D (iv_of ivec) (iov_stream data)
  obtain ⟨key2, h2, _, _⟩ := encrypt_eq P malloc2 key1 ivec
    (iov_scatter data (cts_decrypt D (iv_of ivec) (iov_stream data))) E (hE1 E hK.enc)
    (Or.inl hc1)
  refine ⟨_, _, h1, rfl, ?_, h2, rfl, ?_⟩
  · simp only [iov_stream_scatter data _ hlen, hlen]
  · simp only [iov_stream_scatter data _ hlen, iov_scatter_scatter data _ _ hlen,
      cts_round_trip_back E D hED _ _ hL, iov_scatter_stream]

/-- C18: for every key, every IV and every input of length L ≥ 16 (any byte
string), assuming `Encrypt (Decrypt x) = x` for the block primitive,
`krb5int_aes_decrypt` returns 0 and leaves a stream of length L, and
`krb5int_aes_encrypt` applied with the same key and the original IV to it
returns the input byte for byte; when also `Decrypt (Encrypt x) = x`, the
same holds with the two calls exchanged, so that on streams of each length
L ≥ 16 the two operations are inverse to each other. -/
theorem C18_decrypt_undone_by_encrypt (P : AesImpl)
    (malloc malloc2 : Option aes_key_info_cache) (key : krb5_key) (ivec : Option Block)
    (data : List krb5_crypto_iov) (E D : Block → Block) (hK : Keyed P key E D)
    (hA : AllocOK malloc key) (hED : ∀ x, E (D x) = x)
    (hL : 16 ≤ (iov_stream data).length) :
    (∃ r1 r2, krb5int_aes_decrypt P malloc key ivec data = some r1 ∧ r1.ret = 0
        ∧ (iov_stream r1.data).length = (iov_stream data).length
        ∧ krb5int_aes_encrypt P malloc2 r1.key ivec r1.data = some r2 ∧ r2.ret = 0
        ∧ iov_stream r2.data = iov_stream data)
      ∧ ((∀ x, D (E x) = x) →
          ∃ r1 r2, krb5int_aes_encrypt P malloc key ivec data = some r1 ∧ r1.ret = 0
            ∧ (iov_stream r1.data).length = (iov_stream data).length
            ∧ krb5int_aes_decrypt P malloc2 r1.key ivec r1.data = some r2 ∧ r2.ret = 0
            ∧ iov_stream r2.data = iov_stream data) := by
  refine ⟨?_, ?_⟩
  · obtain ⟨r1, r2, e1, hr1, hl, e2, hr2, hd⟩ :=
      round_trip_back_calls P malloc malloc2 key ivec data E D hK hA hED (Or.inr hL)
    exact ⟨r1, r2, e1, hr1, hl, e2, hr2, by rw [hd]⟩
  · intro hDE
    obtain ⟨r1, r2, e1, hr1, hl, e2, hr2, hd⟩ :=
      round_trip_calls P malloc malloc2 key ivec data E D hK hA hDE (Or.inr hL)
    exact ⟨r1, r2, e1, hr1, hl, e2, hr2, by rw [hd]⟩

/-- C18, witness: the toy primitive, the fresh toy key, no IV and a 35-byte
input. -/
theorem C18_decrypt_undone_by_encrypt_witness :
    (∃ r1 r2, krb5int_aes_decrypt toyImpl toyMalloc toyKey none
          [⟨false, List.replicate 30 5 ++ [1, 2, 3, 4, 5]⟩] = some r1 ∧ r1.ret = 0
        ∧ (iov_stream r1.data).length
          = (iov_stream [⟨false, List.replicate 30 5 ++ [1, 2, 3, 4, 5]⟩]).length
        ∧ krb5int_aes_encrypt toyImpl none r1.key none r1.data = some r2 ∧ r2.ret = 0
        ∧ iov_stream r2.data = iov_stream [⟨false, List.replicate 30 5 ++ [1, 2, 3, 4, 5]⟩])
      ∧ ((∀ x, toyE (toyE x) = x) →
          ∃ r1 r2, krb5int_aes_encrypt toyImpl toyMalloc toyKey none
              [⟨false, List.replicate 30 5 ++ [1, 2, 3, 4, 5]⟩] = some r1 ∧ r1.ret = 0
            ∧ (iov_stream r1.data).length
              = (iov_stream [⟨false, List.replicate 30 5 ++ [1, 2, 3, 4, 5]⟩]).length
            ∧ krb5int_aes_decrypt toyImpl none r1.key none r1.data = some r2 ∧ r2.ret = 0
            ∧ iov_stream r2.data
              = iov_stream [⟨false, List.replicate 30 5 ++ [1, 2, 3, 4, 5]⟩]) :=
  C18_decrypt_undone_by_encrypt toyImpl toyMalloc none toyKey none
    [⟨false, List.replicate 30 5 ++ [1, 2, 3, 4, 5]⟩] toyE toyE
    (toy_keyed toyKey (Or.inl (by decide))) (Or.inr (by decide)) toyE_toyE (by decide)

/-- C19: for every key, present IV, plaintext of length L and split point s
that is a multiple of 16 with s ≥ 32 and L - s > 16, let `r1` be the result
of encrypting the first s bytes with the IV, `r2` the result of encrypting
the rest with the IV `r1` returned, and `r` the result of encrypting the
whole plaintext with the IV. Then the output of `r2` is the last L - s bytes
of the output of `r`, the IV of `r2` is the IV of `r`, and the output of
`r1` is the first s bytes of the output of `r` with its last two 16-byte
blocks exchanged. -/
theorem C19_split_call (P : AesImpl) (malloc malloc2 : Option aes_key_info_cache)
    (key : krb5_key) (iv : Block) (data1 data2 data : List krb5_crypto_iov) (s : Nat)
    (E : Block → Block) (hK : EncKeyed P key E) (hA : AllocOK malloc key)
    (hs : s % 16 = 0) (h32 : 32 ≤ s) (hL : s + 16 < (iov_stream data).length)
    (h1 : iov_stream data1 = (iov_stream data).take s)
    (h2 : iov_stream data2 = (iov_stream data).drop s) :
    ∃ r1 r2 r, krb5int_aes_encrypt P malloc key (some iv) data1 = some r1 ∧ r1.ret = 0
      ∧ krb5int_aes_encrypt P malloc2 r1.key r1.ivec data2 = some r2 ∧ r2.ret = 0
      ∧ krb5int_aes_encrypt P malloc key (some iv) data = some r ∧ r.ret = 0
      ∧ iov_stream r2.data = (iov_stream r.data).drop s
      ∧ (iov_stream r2.data).length = (iov_stream data).length - s
      ∧ r2.ivec = r.ivec
      ∧ iov_stream r1.data
        = (iov_stream r.data).take (s - 32) ++ ((iov_stream r.data).drop (s - 16)).take 16
          ++ ((iov_stream r.data).drop (s - 32)).take 16 := by
  obtain ⟨key1, e1, hK1, hc1, _⟩ := encrypt_eq P malloc key (some iv) data1 E hK hA
  obtain ⟨key2, e2, _, _⟩ := encrypt_eq P malloc2 key1
    (some (cts_encrypt_iv E iv (iov_stream data1))) data2 E hK1 (Or.inl hc1)
  obtain ⟨key3, e3, _, _⟩ := encrypt_eq P malloc key (some iv) data E hK hA
  obtain ⟨j, hj⟩ : ∃ j, s = 16 * j + 32 := ⟨s / 16 - 2, by omega⟩
  subst hj
  have e0 : 16 * j + 32 = 16 * (j + 2) := by omega
  have hsplit := cts_encrypt_split E iv (iov_stream data) (j + 2) (by omega)
  have hivsplit := cts_encrypt_iv_split E iv (iov_stream data) (j + 2) (by omega)
  rw [← e0] at hsplit hivsplit
  have hX : (cbc_enc E (j + 2) iv (iov_stream data)).length = 16 * j + 32 := by
    rw [cbc_enc_length]; omega
  have hchain := cts_chain_swapped E iv (iov_stream data) (16 * j + 32) hs h32 hL
  refine ⟨_, _, _, e1, rfl, e2, rfl, e3, rfl, ?_, ?_, ?_, ?_⟩
  · simp only [iv_of]
    rw [iov_stream_scatter data2 _ (cts_encrypt_length E _ _),
      iov_stream_scatter data _ (cts_encrypt_length E _ _), h1, h2,
      cts_encrypt_iv_blocks E iv _ j (by omega), hsplit, List.drop_left' hX]
  · rw [iov_stream_scatter data2 _ (cts_encrypt_length E _ _), cts_encrypt_length, h2,
      List.length_drop]
  · simp only [iv_of, Option.map_some', Option.some.injEq]
    rw [h1, h2, cts_encrypt_iv_blocks E iv _ j (by omega), hivsplit]
  · simp only [iv_of]
    rw [iov_stream_scatter data1 _ (cts_encrypt_length E _ _),
      iov_stream_scatter data _ (cts_encrypt_length E _ _), h1]
    rw [cts_encrypt_iv_blocks E iv _ j (by omega), hsplit] at hchain
    have hc2 : (cts_encrypt E iv (iov_stream data)).drop (16 * j + 32)
        = cts_encrypt E (cbc_enc_iv E (j + 2) iv (iov_stream data))
            ((iov_stream data).drop (16 * j + 32)) := by
      rw [hsplit, List.drop_left' hX]
    rw [← hsplit, hc2] at hchain
    exact List.append_cancel_right hchain

/-- C19, witness: the toy primitive, the fresh toy key, a zero IV, a 70-byte
plaintext and the split point 32. -/
theorem C19_split_call_witness :
    ∃ r1 r2 r, krb5int_aes_encrypt toyImpl toyMalloc toyKey (some zeroBlock)
          [⟨false, List.replicate 32 3⟩] = some r1 ∧ r1.ret = 0
      ∧ krb5int_aes_encrypt toyImpl none r1.key r1.ivec [⟨false, List.replicate 38 3⟩] = some r2
      ∧ r2.ret = 0
      ∧ krb5int_aes_encrypt toyImpl toyMalloc toyKey (some zeroBlock)
          [⟨false, List.replicate 70 3⟩] = some r ∧ r.ret = 0
      ∧ iov_stream r2.data = (iov_stream r.data).drop 32
      ∧ (iov_stream r2.data).length = (iov_stream [⟨false, List.replicate 70 3⟩]).length - 32
      ∧ r2.ivec = r.ivec
      ∧ iov_stream r1.data
        = (iov_stream r.data).take (32 - 32) ++ ((iov_stream r.data).drop (32 - 16)).take 16
          ++ ((iov_stream r.data).drop (32 - 32)).take 16 :=
  C19_split_call toyImpl toyMalloc none toyKey zeroBlock [⟨false, List.replicate 32 3⟩]
    [⟨false, List.replicate 38 3⟩] [⟨false, List.replicate 70 3⟩] 32 toyE
    (toy_enc_keyed toyKey (Or.inl (by decide))) (Or.inr (by decide)) (by decide) (by decide)
    (by decide) (by decide) (by decide)

/-- C20, the code at two failing runs. Whenever the library copy succeeds
with a nonempty greeting `g`: (1) from `greet_request_init`, after
`greet_set_attribute` (greeting `g1`), `greet_verify` with TRUE and
`greet_copy_context` into the context from a source whose greeting copies to
`g ≠ g1`, the greeting is `g`, changed since the call of `greet_verify`, and
`greet_get_attribute` still reports `authenticated` TRUE; (2) when the memory
`greet_request_init` obtained holds a nonzero `verified`, after
`greet_copy_context` into the fresh context `greet_get_attribute` reports
`authenticated` TRUE although `greet_verify` was never called. -/
theorem C20_authenticated_after_copy (H : k5_lib) (garbage src : greet_context)
    (attr value data0 v0 g1 g : krb5_data) (a0 c0 ok : Bool) (m0 : Int)
    (hattr : H.data_eq attr greet_attr = true)
    (hset : H.krb5int_copy_data_contents_add0 true value data0 = (0, g1))
    (hcopy : ∀ out, H.krb5int_copy_data_contents_add0 true src.greeting out = (0, g))
    (hlen : g.length ≠ 0) (hne : g ≠ g1) :
    (∃ ctx, greet_request_init (some garbage) none = (0, some ctx)
        ∧ (greet_run H [.set_attribute true value data0, .verify true, .copy_from true src]
            { greet := ctx, vouched := false }).greet = { greeting := g, verified := true }
        ∧ (greet_run H [.set_attribute true value data0, .verify true, .copy_from true src]
            { greet := ctx, vouched := false }).vouched = false
        ∧ (greet_get_attribute H ok
            (greet_run H [.set_attribute true value data0, .verify true, .copy_from true src]
              { greet := ctx, vouched := false }).greet attr a0 c0 v0 m0).authenticated = true)
      ∧ (garbage.verified = true →
          ∃ ctx, greet_request_init (some garbage) none = (0, some ctx)
            ∧ (greet_run H [.copy_from true src] { greet := ctx, vouched := false }).vouched
              = false
            ∧ (greet_get_attribute H ok
                (greet_run H [.copy_from true src] { greet := ctx, vouched := false }).greet
                attr a0 c0 v0 m0).authenticated = true) := by
  have hlen' : (g.length == 0) = false := by simpa using hlen
  refine ⟨⟨_, rfl, ?_, ?_, ?_⟩, ?_⟩
  · simp [greet_run, greet_state_step, greet_step, greet_set_attribute, greet_verify,
      greet_copy_context, hset, hcopy]
  · simp [greet_run, greet_state_step, greet_step, greet_set_attribute, greet_verify,
      greet_copy_context, hset, hcopy, hne]
  · simp [greet_run, greet_state_step, greet_step, greet_set_attribute, greet_verify,
      greet_copy_context, greet_get_attribute, hset, hcopy, hattr, hlen']
  · intro hv
    refine ⟨_, rfl, ?_, ?_⟩
    · simp [greet_run, greet_state_step, greet_step, greet_copy_context, hcopy]
    · simp [greet_run, greet_state_step, greet_step, greet_copy_context, greet_get_attribute,
        hcopy, hattr, hlen', hv]

/-- C20, witness: the library instance `toyLib`, a context allocated in memory
that holds a nonzero `verified`, the greeting "hi" set and then replaced by
the copy of a source's greeting "yo". -/
theorem C20_authenticated_after_copy_witness :
    (∃ ctx, greet_request_init
          (some { greeting := { length := 77, data := some [1] }, verified := true }) none
          = (0, some ctx)
        ∧ (greet_run toyLib
            [.set_attribute true { length := 2, data := some [104, 105] }
               { length := 0, data := none },
             .verify true,
             .copy_from true
               { greeting := { length := 2, data := some [121, 111] }, verified := false }]
            { greet := ctx, vouched := false }).greet
          = { greeting := { length := 2, data := some [121, 111, 0] }, verified := true }
        ∧ (greet_run toyLib
            [.set_attribute true { length := 2, data := some [104, 105] }
               { length := 0, data := none },
             .verify true,
             .copy_from true
               { greeting := { length := 2, data := some [121, 111] }, verified := false }]
            { greet := ctx, vouched := false }).vouched = false
        ∧ (greet_get_attribute toyLib true
            (greet_run toyLib
              [.set_attribute true { length := 2, data := some [104, 105] }
                 { length := 0, data := none },
               .verify true,
               .copy_from true
                 { greeting := { length := 2, data := some [121, 111] }, verified := false }]
              { greet := ctx, vouched := false }).greet
            greet_attr false false { length := 0, data := none } 0).authenticated = true)
      ∧ ((true : Bool) = true →
          ∃ ctx, greet_request_init
              (some { greeting := { length := 77, data := some [1] }, verified := true }) none
              = (0, some ctx)
            ∧ (greet_run toyLib
                [.copy_from true
                   { greeting := { length := 2, data := some [121, 111] }, verified := false }]
                { greet := ctx, vouched := false }).vouched = false
            ∧ (greet_get_attribute toyLib true
                (greet_run toyLib
                  [.copy_from true
                     { greeting := { length := 2, data := some [121, 111] },
                       verified := false }]
                  { greet := ctx, vouched := false }).greet
                greet_attr false false { length := 0, data := none } 0).authenticated = true) :=
  C20_authenticated_after_copy toyLib
    { greeting := { length := 77, data := some [1] }, verified := true }
    { greeting := { length := 2, data := some [121, 111] }, verified := false }
    greet_attr { length := 2, data := some [104, 105] } { length := 0, data := none }
    { length := 0, data := none } { length := 2, data := some [104, 105, 0] }
    { length := 2, data := some [121, 111, 0] } false false true 0
    (by decide) rfl (fun _ => rfl) (by decide) (by decide)

end Krb5Aes
